import Mathlib

/-!
Verification of the two exact graph solvers of this repository:

* `src/vertex_cover_dp.py` — exact minimum vertex cover of an arbitrary
  undirected graph via memoized dynamic programming over "remaining vertex"
  bitmasks (`solve_vertex_cover_dp`, `is_vertex_cover`);
* `src/submission/dp_forest.py` — minimum camera placement (closed-neighborhood
  domination) on forests via a 3-state tree DP (`build_adj`,
  `min_cameras_for_tree`, `min_cameras_for_tree_with_solution`,
  `min_cameras_forest`, `min_cameras_forest_with_solution`).

Modelling conventions:

* Python `int` values are modelled as `Int` at the API boundary (vertex ids in
  edge lists may be negative) and as `Nat` internally once validated.
* Python list indexing `xs[i]` accepts negative indices (`xs[-1]` is the last
  element) and raises `IndexError` when `i` is outside `[-len, len)`; this is
  modelled by `pyIdx` / `pyGet` / `pySet` returning `Option`.
* Failures (`IndexError`, `ValueError` from a negative shift, recursion-limit
  overflow) are modelled with `Except PyErr`.  Recursive functions of the
  source take an explicit `fuel` argument so that every definition is
  structurally recursive (hence kernel-computable); exhausting the fuel
  yields `PyErr.recursionError`, the analogue of Python's `RecursionError`.
  Bounded internal scans whose termination is intrinsic (the bit scan of
  `find_any_edge_in_induced_subgraph`) use a self-supplied fuel that is
  proved sufficient.
* The float values used by `min_cameras_for_tree_with_solution` are sums of
  `1.0` plus `float("inf")` sentinels: every finite value arising is a
  nonnegative integer bounded by the vertex count, hence exactly
  representable, and the `1e-12` epsilon comparisons of `argmin_state`
  coincide with exact comparisons because distinct reachable values differ
  by at least `1`.  These quantities are therefore modelled in `ℕ∞`
  (`⊤` = `inf`), with exact `<` / `=` comparisons.
-/

set_option maxHeartbeats 1600000
set_option linter.unusedVariables false

/-- Error outcomes of the Python source: `IndexError` from list indexing,
`ValueError` from a negative shift count, `RecursionError` from exceeding the
recursion limit, `KeyError` from a failed dict lookup. -/
inductive PyErr where
  | indexError
  | valueError
  | recursionError
  | keyError
deriving DecidableEq, Repr

instance {ε α : Type _} [DecidableEq ε] [DecidableEq α] : DecidableEq (Except ε α) :=
  fun x y =>
    match x, y with
    | .ok a, .ok b =>
        if h : a = b then .isTrue (by rw [h]) else .isFalse (by simp [h])
    | .error a, .error b =>
        if h : a = b then .isTrue (by rw [h]) else .isFalse (by simp [h])
    | .ok _, .error _ => .isFalse (by simp)
    | .error _, .ok _ => .isFalse (by simp)

/-- Python list index resolution for a list of length `len`: indices in
`[0, len)` are used directly, indices in `[-len, 0)` wrap around to
`len + i`, anything else raises `IndexError` (`none`). -/
def pyIdx (len : Nat) (i : Int) : Option Nat :=
  if 0 ≤ i ∧ i < (len : Int) then some i.toNat
  else if -(len : Int) ≤ i ∧ i < 0 then some (i + len).toNat
  else none

/-- Python read `xs[i]` with negative-index wrap-around. -/
def pyGet (xs : List α) (i : Int) (dflt : α) : Option α :=
  (pyIdx xs.length i).map (fun k => xs.getD k dflt)

/-- Python write `xs[i] = a` with negative-index wrap-around. -/
def pySet (xs : List α) (i : Int) (a : α) : Option (List α) :=
  (pyIdx xs.length i).map (fun k => xs.set k a)

theorem pyIdx_lt_len {len : Nat} {i : Int} {k : Nat} (h : pyIdx len i = some k) :
    k < len := by
  unfold pyIdx at h
  split at h
  · rename_i h1
    simp only [Option.some.injEq] at h
    omega
  · split at h
    · rename_i h1 h2
      simp only [Option.some.injEq] at h
      omega
    · exact absurd h (by simp)

theorem pyIdx_nonneg {len : Nat} {i : Int} (h0 : 0 ≤ i) (hl : i < (len : Int)) :
    pyIdx len i = some i.toNat := by
  unfold pyIdx
  simp [h0, hl]

/-! ## Embedding of `src/vertex_cover_dp.py` -/

/-- One `adj[i] |= 1 << sh` statement from the adjacency-building loop of
`solve_vertex_cover_dp`.  Python evaluates the subscript `adj[i]` first
(possible `IndexError`, with negative-index wrap) and then the shift
`1 << sh` (`ValueError` when `sh` is negative). -/
def vcOrBit (adj : List Nat) (i : Int) (sh : Int) : Except PyErr (List Nat) :=
  match pyIdx adj.length i with
  | none => .error .indexError
  | some k =>
    if sh < 0 then .error .valueError
    else .ok (adj.set k (adj.getD k 0 ||| (1 <<< sh.toNat)))

/-- Loop body of the adjacency-bitmask construction of
`solve_vertex_cover_dp`: a self-loop `(u, u)` sets bit `u` of `adj[u]`;
otherwise bit `v` of `adj[u]` and bit `u` of `adj[v]` are set. -/
def vcStep (adj : List Nat) (e : Int × Int) : Except PyErr (List Nat) :=
  if e.1 = e.2 then vcOrBit adj e.1 e.1
  else do
    let adj1 ← vcOrBit adj e.1 e.2
    vcOrBit adj1 e.2 e.1

/-- The adjacency-bitmask construction at the top of `solve_vertex_cover_dp`:
`adj = [0] * n`, then the loop body `vcStep` for each edge. -/
def buildAdjVC (n : Int) (edges : List (Int × Int)) : Except PyErr (List Nat) :=
  edges.foldlM vcStep (List.replicate n.toNat 0)

/-- Fueled computation of the exponent of the lowest set bit
(`(m & -m).bit_length() - 1` in the source). -/
def lsbExpGo : Nat → Nat → Nat
  | 0, _ => 0
  | f + 1, m => if m = 0 ∨ m % 2 = 1 then 0 else 1 + lsbExpGo f (m / 2)

/-- Exponent of the lowest set bit; `0` for `m = 0` (never queried there). -/
def lsbExp (m : Nat) : Nat := lsbExpGo m m

theorem lsbExpGo_testBit {f : Nat} : ∀ {m : Nat}, m ≠ 0 → m ≤ f →
    m.testBit (lsbExpGo f m) = true := by
  induction f with
  | zero => intro m h0 hle; omega
  | succ f ih =>
    intro m h0 hle
    unfold lsbExpGo
    split
    · rename_i h01
      rcases h01 with h | h
      · exact absurd h h0
      · simpa using Nat.mod_two_eq_one_iff_testBit_zero.mp h
    · rename_i h01
      push_neg at h01
      have hne : m / 2 ≠ 0 := by omega
      have hle2 : m / 2 ≤ f := by omega
      have hrec := ih hne hle2
      have heq : m.testBit (1 + lsbExpGo f (m / 2)) = (m / 2).testBit (lsbExpGo f (m / 2)) := by
        rw [Nat.add_comm 1 (lsbExpGo f (m / 2))]
        exact Nat.testBit_add_one m (lsbExpGo f (m / 2))
      rw [heq]
      exact hrec

theorem testBit_lsbExp {m : Nat} (h : m ≠ 0) : m.testBit (lsbExp m) = true :=
  lsbExpGo_testBit h (Nat.le_refl m)

/-- Clearing a set bit gives a strictly smaller number. -/
theorem xor_pow_lt {m : Nat} {i : Nat} (h : m.testBit i = true) : m ^^^ 2 ^ i < m := by
  apply Nat.lt_of_testBit i
  · simp [Nat.testBit_xor, h, Nat.testBit_two_pow_self]
  · exact h
  · intro j hj
    have hij : (2 ^ i).testBit j = false := Nat.testBit_two_pow_of_ne (Nat.ne_of_lt hj)
    simp [Nat.testBit_xor, hij]

/-- The Python expression `m & ~(1 << i)` on an arbitrary-precision
nonnegative int: clear bit `i`. -/
def clearBit (m : Nat) (i : Nat) : Nat :=
  if m.testBit i then m ^^^ 2 ^ i else m

theorem clearBit_lt {m i : Nat} (h : m.testBit i = true) : clearBit m i < m := by
  unfold clearBit
  rw [h]
  simpa using xor_pow_lt h

theorem clearBit_le (m i : Nat) : clearBit m i ≤ m := by
  unfold clearBit
  split
  · exact Nat.le_of_lt (xor_pow_lt (by assumption))
  · exact Nat.le_refl m

theorem clearBit_testBit (m i j : Nat) :
    (clearBit m i).testBit j = if j = i then false else m.testBit j := by
  unfold clearBit
  rcases eq_or_ne j i with rfl | hne
  · by_cases hm : m.testBit j
    · simp [hm, Nat.testBit_xor, Nat.testBit_two_pow_self]
    · rw [Bool.not_eq_true] at hm
      simp [hm]
  · by_cases hm : m.testBit i
    · have h2 : (2 ^ i).testBit j = false := Nat.testBit_two_pow_of_ne (Ne.symm hne)
      simp [hm, Nat.testBit_xor, h2, hne]
    · rw [Bool.not_eq_true] at hm
      simp [hm, hne]

/-- The scanning loop of `find_any_edge_in_induced_subgraph` in
`solve_vertex_cover_dp`: repeatedly strip the lowest set bit `u` of `rm`;
if `adj[u] & r_mask` is nonempty its lowest bit `v` yields the edge
`(u, v)` (the guard `u == v and not (adj[u] & (1 << u))` can never fire,
but is embedded faithfully).  The loop terminates intrinsically because
`rm` strictly decreases; the fuel is proved sufficient below. -/
def findEdgeAux : Nat → List Nat → Nat → Nat → Option (Nat × Nat)
  | 0, _, _, _ => none
  | f + 1, adj, rmask, rm =>
    if rm = 0 then none
    else
      let u := lsbExp rm
      let rm' := rm ^^^ 2 ^ u
      let neigh := adj.getD u 0 &&& rmask
      if neigh = 0 then findEdgeAux f adj rmask rm'
      else
        let v := lsbExp neigh
        if u = v ∧ adj.getD u 0 &&& (1 <<< u) = 0 then findEdgeAux f adj rmask rm'
        else some (u, v)

/-- `find_any_edge_in_induced_subgraph(r_mask)` starts the scan at
`rm = r_mask`; fuel `r_mask + 1` is sufficient since `rm` strictly
decreases at every iteration. -/
def findEdge (adj : List Nat) (rmask : Nat) : Option (Nat × Nat) :=
  findEdgeAux (rmask + 1) adj rmask rmask

/-- Soundness of the edge scan: a returned pair consists of a bit of the
scanned word together with a neighbor inside `rmask`. -/
theorem findEdgeAux_sound {f : Nat} : ∀ {adj : List Nat} {rmask rm u v : Nat},
    (∀ i, rm.testBit i = true → rmask.testBit i = true) →
    findEdgeAux f adj rmask rm = some (u, v) →
    rmask.testBit u = true ∧ rmask.testBit v = true ∧
      (adj.getD u 0).testBit v = true := by
  induction f with
  | zero => intro adj rmask rm u v _ h; exact absurd h (by simp [findEdgeAux])
  | succ f ih =>
    intro adj rmask rm u v hsub h
    unfold findEdgeAux at h
    split at h
    · exact absurd h (by simp)
    · rename_i hrm
      set u0 := lsbExp rm with hu0
      set neigh := adj.getD u0 0 &&& rmask with hneigh
      have hsub' : ∀ i, (rm ^^^ 2 ^ u0).testBit i = true → rmask.testBit i = true := by
        intro i hi
        apply hsub
        rcases eq_or_ne i u0 with rfl | hne
        · exact testBit_lsbExp hrm
        · have h2 : (2 ^ u0).testBit i = false := Nat.testBit_two_pow_of_ne (Ne.symm hne)
          simpa [Nat.testBit_xor, h2] using hi
      simp only at h
      split at h
      · exact ih hsub' h
      · rename_i hne
        split at h
        · exact ih hsub' h
        · simp only [Option.some.injEq, Prod.mk.injEq] at h
          obtain ⟨rfl, rfl⟩ := h
          have hvn : neigh.testBit (lsbExp neigh) = true := testBit_lsbExp hne
          have hvn' := hvn
          rw [hneigh, Nat.testBit_and] at hvn'
          exact ⟨hsub _ (testBit_lsbExp hrm), (Bool.and_eq_true_iff.mp hvn').2,
            (Bool.and_eq_true_iff.mp hvn').1⟩

/-- Completeness of the edge scan: with sufficient fuel, a `none` answer
means no bit of the scanned word has a neighbor inside `rmask`. -/
theorem findEdgeAux_complete {f : Nat} : ∀ {adj : List Nat} {rmask rm : Nat},
    rm < f →
    findEdgeAux f adj rmask rm = none →
    ∀ u, rm.testBit u = true → adj.getD u 0 &&& rmask = 0 := by
  induction f with
  | zero => intro adj rmask rm hf; omega
  | succ f ih =>
    intro adj rmask rm hf h u hu
    unfold findEdgeAux at h
    split at h
    · rename_i hrm
      subst hrm
      simp at hu
    · rename_i hrm
      set u0 := lsbExp rm with hu0
      set neigh := adj.getD u0 0 &&& rmask with hneigh
      have hlt : rm ^^^ 2 ^ u0 < rm := xor_pow_lt (testBit_lsbExp hrm)
      simp only at h
      split at h
      · rename_i hz
        rcases eq_or_ne u u0 with rfl | hne
        · exact hz
        · refine ih (by omega) h u ?_
          have h2 : (2 ^ u0).testBit u = false := Nat.testBit_two_pow_of_ne (Ne.symm hne)
          simp [Nat.testBit_xor, h2, hu]
      · rename_i hz
        split at h
        · rename_i hguard
          -- the dead guard: it asserts bit `u0` of `adj[u0]` is clear although
          -- the lowest set bit of `neigh` is `u0` itself, a contradiction
          exfalso
          obtain ⟨hev, hbit⟩ := hguard
          have hvn : neigh.testBit (lsbExp neigh) = true := testBit_lsbExp hz
          rw [← hev] at hvn
          rw [hneigh, Nat.testBit_and] at hvn
          have h1 : (adj.getD u0 0).testBit u0 = true := (Bool.and_eq_true_iff.mp hvn).1
          have hpow : (1 <<< u0 : Nat) = 2 ^ u0 := by
            simp [Nat.shiftLeft_eq]
          have : (adj.getD u0 0 &&& (1 <<< u0)).testBit u0 = true := by
            rw [Nat.testBit_and, h1, hpow]
            simp [Nat.testBit_two_pow_self]
          rw [hbit] at this
          simp at this
        · exact absurd h (by simp)

theorem findEdge_sound {adj : List Nat} {rmask : Nat} {u v : Nat}
    (h : findEdge adj rmask = some (u, v)) :
    rmask.testBit u = true ∧ rmask.testBit v = true ∧
      (adj.getD u 0).testBit v = true :=
  findEdgeAux_sound (fun _ hi => hi) h

theorem findEdge_complete {adj : List Nat} {rmask : Nat}
    (h : findEdge adj rmask = none) :
    ∀ u, rmask.testBit u = true → adj.getD u 0 &&& rmask = 0 :=
  findEdgeAux_complete (Nat.lt_succ_self rmask) h

example : pyIdx 3 (-1) = some 2 := by decide
example : pyIdx 3 3 = none := by decide
example : lsbExp 12 = 2 := by decide
example : buildAdjVC 3 [(0, 1), (1, 2), (2, 0)] = .ok [6, 5, 3] := by decide
example : findEdge [6, 5, 3] 7 = some (0, 1) := by decide
example : findEdge [6, 5, 3] 0 = none := by decide

/-- The memoized recursion `dp(r_mask)` of `solve_vertex_cover_dp`.
Memoization caches a deterministic pure function, so the cache is not
modelled; the fuel models Python's recursion limit and is proved
sufficient at the call site.  The branch order and the deterministic
tie-break (`cu < cv or (cu == cv and u <= v)`) follow the source. -/
def dpVC : Nat → List Nat → Nat → Except PyErr Nat
  | 0, _, _ => .error .recursionError
  | f + 1, adj, rmask =>
    match findEdge adj rmask with
    | none => .ok 0
    | some (u, v) => do
      let du ← dpVC f adj (clearBit rmask u)
      let cu := 1 + du
      let dv ← dpVC f adj (clearBit rmask v)
      let cv := 1 + dv
      if cu < cv ∨ (cu = cv ∧ u ≤ v) then pure cu else pure cv

/-- The decision recorded in `choice[r_mask]` by `dp` for a mask whose
induced subgraph still has an edge (`none` models "no dict entry": `dp`
stores no decision for edge-free masks). -/
def choiceVC (f : Nat) (adj : List Nat) (rmask : Nat) : Except PyErr (Option Nat) :=
  match findEdge adj rmask with
  | none => .ok none
  | some (u, v) => do
    let du ← dpVC f adj (clearBit rmask u)
    let dv ← dpVC f adj (clearBit rmask v)
    if 1 + du < 1 + dv ∨ (1 + du = 1 + dv ∧ u ≤ v) then pure (some u) else pure (some v)

/-- The reconstruction loop of `solve_vertex_cover_dp`: starting from the
full mask, repeatedly find an uncovered edge, remove the vertex recorded in
`choice` and add it to `chosen`.  The first fuel counts loop iterations
(the loop terminates because the mask strictly shrinks; sufficiency is
proved below); a missing `choice` entry would raise `KeyError`. -/
def replayVC : Nat → Nat → List Nat → Nat → Finset Nat → Except PyErr (Finset Nat)
  | 0, _, _, _, _ => .error .recursionError
  | lf + 1, df, adj, r, chosen =>
    match findEdge adj r with
    | none => .ok chosen
    | some _ => do
      let copt ← choiceVC df adj r
      match copt with
      | none => .error .keyError
      | some c => replayVC lf df adj (clearBit r c) (insert c chosen)

/-- Embedding of `solve_vertex_cover_dp(n, edges)`: build the adjacency
bitmasks, compute `full_mask = (1 << n) - 1` (a negative `n` raises
`ValueError` from the negative shift), run the memoized DP from the full
mask and replay the recorded decisions. -/
def solve_vertex_cover_dp (n : Int) (edges : List (Int × Int)) :
    Except PyErr (Nat × Finset Nat) := do
  let adj ← buildAdjVC n edges
  if n < 0 then .error .valueError
  else
    let full := 2 ^ n.toNat - 1
    let best ← dpVC (full + 1) adj full
    let chosen ← replayVC (full + 1) (full + 1) adj full ∅
    pure (best, chosen)

/-- Embedding of the `is_vertex_cover` oracle: every edge must have an
endpoint in `cover` (the `n` parameter is unused in the source as well). -/
def is_vertex_cover (n : Int) (edges : List (Int × Int)) (cover : Finset Int) : Bool :=
  edges.all (fun e => decide (e.1 ∈ cover) || decide (e.2 ∈ cover))

theorem exceptBind_ok (a : α) (f : α → Except ε β) :
    (Except.ok a >>= f : Except ε β) = f a := rfl

theorem exceptBind_err (e : ε) (f : α → Except ε β) :
    ((Except.error e : Except ε α) >>= f) = .error e := rfl

theorem exceptBind_pure (a : α) (f : α → Except ε β) :
    ((pure a : Except ε α) >>= f) = f a := rfl

theorem exceptPure_ok_inj {a b : α} (h : (pure a : Except ε α) = .ok b) : a = b := by
  have hp : (Except.ok a : Except ε α) = .ok b := h
  simpa using hp

/-- The DP answer does not depend on the fuel, as long as the fuel
exceeds the mask (each recursive call strictly decreases the mask). -/
theorem dpVC_fuel_eq {adj : List Nat} : ∀ {r f g : Nat}, r < f → r < g →
    dpVC f adj r = dpVC g adj r := by
  intro r
  induction r using Nat.strong_induction_on with
  | _ r ih =>
    intro f g hf hg
    match f, g with
    | f + 1, g + 1 =>
      show dpVC (f + 1) adj r = dpVC (g + 1) adj r
      unfold dpVC
      match hfe : findEdge adj r with
      | none => simp [hfe]
      | some (u, v) =>
        obtain ⟨hu, hv, _⟩ := findEdge_sound hfe
        have hltu : clearBit r u < r := clearBit_lt hu
        have hltv : clearBit r v < r := clearBit_lt hv
        have equ : dpVC f adj (clearBit r u) = dpVC g adj (clearBit r u) :=
          ih _ hltu (by omega) (by omega)
        have eqv : dpVC f adj (clearBit r v) = dpVC g adj (clearBit r v) :=
          ih _ hltv (by omega) (by omega)
        simp [hfe, equ, eqv]

/-- With fuel exceeding the mask, the DP succeeds. -/
theorem dpVC_ok {adj : List Nat} : ∀ {r f : Nat}, r < f →
    ∃ x, dpVC f adj r = .ok x := by
  intro r
  induction r using Nat.strong_induction_on with
  | _ r ih =>
    intro f hf
    match f with
    | f + 1 =>
      unfold dpVC
      match hfe : findEdge adj r with
      | none => exact ⟨0, by simp⟩
      | some (u, v) =>
        obtain ⟨hu, hv, _⟩ := findEdge_sound hfe
        obtain ⟨du, hdu⟩ := ih _ (clearBit_lt hu) (f := f) (by have := clearBit_lt hu; omega)
        obtain ⟨dv, hdv⟩ := ih _ (clearBit_lt hv) (f := f) (by have := clearBit_lt hv; omega)
        refine ⟨if 1 + du < 1 + dv ∨ (1 + du = 1 + dv ∧ u ≤ v) then 1 + du else 1 + dv, ?_⟩
        simp only [hdu, hdv, exceptBind_ok]
        split <;> rfl

example : dpVC 8 [6, 5, 3] 7 = .ok 2 := by decide
example : solve_vertex_cover_dp 3 [(0, 1), (1, 2), (2, 0)] = .ok (2, {0, 1}) := by decide
example : solve_vertex_cover_dp 0 [] = .ok (0, ∅) := by decide
example : is_vertex_cover 3 [(0, 1), (1, 2), (2, 0)] {0, 1} = true := by decide

/-! ## Specification-side graph notions for the vertex-cover solver -/

/-- The set of bit positions of a mask, as a `Finset`. -/
def bitsFinset (r : Nat) : Finset Nat :=
  (Finset.range (r + 1)).filter (fun i => r.testBit i)

theorem mem_bitsFinset {r i : Nat} : i ∈ bitsFinset r ↔ r.testBit i = true := by
  unfold bitsFinset
  simp only [Finset.mem_filter, Finset.mem_range]
  constructor
  · exact fun h => h.2
  · intro h
    refine ⟨?_, h⟩
    have h1 : 2 ^ i ≤ r := Nat.testBit_implies_ge h
    have h2 : i < 2 ^ i := Nat.lt_two_pow i
    omega

/-- Adjacency of the built bitmask graph: bit `v` of `adj[u]`. -/
def adjBit (adj : List Nat) (u v : Nat) : Bool := (adj.getD u 0).testBit v

/-- `S` covers every edge of the bitmask graph lying inside the mask `r`. -/
def coversMask (adj : List Nat) (r : Nat) (S : Finset Nat) : Prop :=
  ∀ u v : Nat, adjBit adj u v = true → r.testBit u = true → r.testBit v = true →
    u ∈ S ∨ v ∈ S

/-- Decidable form of `coversMask` (the quantifiers are bounded by the mask). -/
def coversMaskB (adj : List Nat) (r : Nat) (S : Finset Nat) : Bool :=
  decide (∀ u ∈ bitsFinset r, ∀ v ∈ bitsFinset r, adjBit adj u v = true → u ∈ S ∨ v ∈ S)

theorem coversMaskB_iff {adj : List Nat} {r : Nat} {S : Finset Nat} :
    coversMaskB adj r S = true ↔ coversMask adj r S := by
  unfold coversMaskB coversMask
  rw [decide_eq_true_iff]
  constructor
  · intro h u v ha hu hv
    exact h u (mem_bitsFinset.mpr hu) v (mem_bitsFinset.mpr hv) ha
  · intro h u hu v hv ha
    exact h u v ha (mem_bitsFinset.mp hu) (mem_bitsFinset.mp hv)

theorem bitsFinset_covers (adj : List Nat) (r : Nat) : coversMask adj r (bitsFinset r) :=
  fun u _ _ hu _ => Or.inl (mem_bitsFinset.mpr hu)

theorem mVC_filter_nonempty (adj : List Nat) (r : Nat) :
    (((bitsFinset r).powerset).filter (fun S => coversMaskB adj r S)).Nonempty := by
  refine ⟨bitsFinset r, ?_⟩
  rw [Finset.mem_filter, Finset.mem_powerset]
  exact ⟨Finset.Subset.refl _, coversMaskB_iff.mpr (bitsFinset_covers adj r)⟩

/-- Minimum size of a vertex set inside mask `r` covering all edges induced
by `r`: the brute-force optimum the DP is compared with (the family is
nonempty: the whole bit set always covers). -/
def mVC (adj : List Nat) (r : Nat) : Nat :=
  (((bitsFinset r).powerset).filter (fun S => coversMaskB adj r S)).inf'
    (mVC_filter_nonempty adj r) (fun S => S.card)

theorem mVC_le {adj : List Nat} {r : Nat} {S : Finset Nat}
    (hsub : S ⊆ bitsFinset r) (hcov : coversMask adj r S) :
    mVC adj r ≤ S.card := by
  apply Finset.inf'_le
  rw [Finset.mem_filter, Finset.mem_powerset]
  exact ⟨hsub, coversMaskB_iff.mpr hcov⟩

theorem mVC_attained (adj : List Nat) (r : Nat) :
    ∃ S : Finset Nat, S ⊆ bitsFinset r ∧ coversMask adj r S ∧
      mVC adj r = S.card := by
  obtain ⟨S, hS, heq⟩ :=
    Finset.exists_mem_eq_inf' (mVC_filter_nonempty adj r) (fun S => S.card)
  rw [Finset.mem_filter, Finset.mem_powerset] at hS
  exact ⟨S, hS.1, coversMaskB_iff.mp hS.2, heq⟩

/-- When the scan finds no edge, the empty set is an optimal cover. -/
theorem mVC_of_no_edge {adj : List Nat} {r : Nat} (h : findEdge adj r = none) :
    mVC adj r = 0 := by
  have hcov : coversMask adj r (∅ : Finset Nat) := by
    intro u v ha hu hv
    exfalso
    have hz := findEdge_complete h u hu
    have hbit : (adj.getD u 0 &&& r).testBit v = true := by
      rw [Nat.testBit_and]
      unfold adjBit at ha
      rw [ha, hv]
      rfl
    rw [hz] at hbit
    simp at hbit
  have := mVC_le (Finset.empty_subset _) hcov
  simpa using this

theorem coversMask_insert {adj : List Nat} {r : Nat} {S : Finset Nat} {w : Nat}
    (hcov : coversMask adj (clearBit r w) S) :
    coversMask adj r (insert w S) := by
  intro u v ha hu hv
  rcases eq_or_ne u w with rfl | hune
  · exact Or.inl (Finset.mem_insert_self _ _)
  · rcases eq_or_ne v w with rfl | hvne
    · exact Or.inr (Finset.mem_insert_self _ _)
    · have hu' : (clearBit r w).testBit u = true := by
        rw [clearBit_testBit]
        simp [hune, hu]
      have hv' : (clearBit r w).testBit v = true := by
        rw [clearBit_testBit]
        simp [hvne, hv]
      rcases hcov u v ha hu' hv' with h | h
      · exact Or.inl (Finset.mem_insert_of_mem h)
      · exact Or.inr (Finset.mem_insert_of_mem h)

theorem coversMask_erase {adj : List Nat} {r : Nat} {S : Finset Nat} {w : Nat}
    (hcov : coversMask adj r S) :
    coversMask adj (clearBit r w) (S.erase w) := by
  intro u v ha hu hv
  have hune : u ≠ w := by
    intro heq
    rw [heq, clearBit_testBit] at hu
    simp at hu
  have hvne : v ≠ w := by
    intro heq
    rw [heq, clearBit_testBit] at hv
    simp at hv
  rw [clearBit_testBit] at hu hv
  simp only [hune, if_false] at hu
  simp only [hvne, if_false] at hv
  rcases hcov u v ha hu hv with h | h
  · exact Or.inl (Finset.mem_erase.mpr ⟨hune, h⟩)
  · exact Or.inr (Finset.mem_erase.mpr ⟨hvne, h⟩)

theorem bitsFinset_clearBit_subset (r w : Nat) :
    bitsFinset (clearBit r w) ⊆ bitsFinset r := by
  intro x hx
  rw [mem_bitsFinset] at hx ⊢
  rw [clearBit_testBit] at hx
  by_cases hxw : x = w
  · simp [hxw] at hx
  · simpa [hxw] using hx

/-- One-sided recurrence: removing any in-mask vertex costs at most one. -/
theorem mVC_le_one_add {adj : List Nat} {r w : Nat} (hw : r.testBit w = true) :
    mVC adj r ≤ 1 + mVC adj (clearBit r w) := by
  obtain ⟨S, hsub, hcov, heq⟩ := mVC_attained adj (clearBit r w)
  rw [heq]
  have hins : coversMask adj r (insert w S) := coversMask_insert hcov
  have hsub' : insert w S ⊆ bitsFinset r := by
    intro x hx
    rcases Finset.mem_insert.mp hx with rfl | hxS
    · exact mem_bitsFinset.mpr hw
    · exact bitsFinset_clearBit_subset r w (hsub hxS)
  have h1 : mVC adj r ≤ (insert w S).card := mVC_le hsub' hins
  have h2 : (insert w S).card ≤ S.card + 1 := Finset.card_insert_le w S
  omega

/-- Other side: any optimal cover of `r` must pay for the edge `(u, v)`. -/
theorem one_add_min_le_mVC {adj : List Nat} {r u v : Nat}
    (ha : adjBit adj u v = true) (hu : r.testBit u = true) (hv : r.testBit v = true) :
    1 + min (mVC adj (clearBit r u)) (mVC adj (clearBit r v)) ≤ mVC adj r := by
  obtain ⟨S, hsub, hcov, heq⟩ := mVC_attained adj r
  rw [heq]
  have hmem := hcov u v ha hu hv
  have key : ∀ w : Nat, w ∈ S → 1 + mVC adj (clearBit r w) ≤ S.card := by
    intro w hwS
    have hcov' : coversMask adj (clearBit r w) (S.erase w) := coversMask_erase hcov
    have hsub' : S.erase w ⊆ bitsFinset (clearBit r w) := by
      intro x hx
      obtain ⟨hxw, hxS⟩ := Finset.mem_erase.mp hx
      rw [mem_bitsFinset, clearBit_testBit]
      simp only [hxw, if_false]
      exact mem_bitsFinset.mp (hsub hxS)
    have h1 : mVC adj (clearBit r w) ≤ (S.erase w).card := mVC_le hsub' hcov'
    have h2 : (S.erase w).card + 1 = S.card := Finset.card_erase_add_one hwS
    omega
  rcases hmem with hmem | hmem
  · have := key u hmem
    omega
  · have := key v hmem
    omega

/-- The exact recurrence satisfied by the brute-force optimum on the edge
picked by the deterministic scan. -/
theorem mVC_rec {adj : List Nat} {r u v : Nat}
    (h : findEdge adj r = some (u, v)) :
    mVC adj r = 1 + min (mVC adj (clearBit r u)) (mVC adj (clearBit r v)) := by
  obtain ⟨hu, hv, ha⟩ := findEdge_sound h
  apply Nat.le_antisymm
  · rcases Nat.le_total (mVC adj (clearBit r u)) (mVC adj (clearBit r v)) with hle | hle
    · rw [Nat.min_eq_left hle]
      exact mVC_le_one_add hu
    · rw [Nat.min_eq_right hle]
      exact mVC_le_one_add hv
  · exact one_add_min_le_mVC ha hu hv

/-- The DP computes the brute-force optimum of the induced subgraph, for
every mask (with sufficient fuel). -/
theorem dpVC_eq_mVC {adj : List Nat} : ∀ {r f : Nat}, r < f →
    dpVC f adj r = .ok (mVC adj r) := by
  intro r
  induction r using Nat.strong_induction_on with
  | _ r ih =>
    intro f hf
    match f with
    | f + 1 =>
      unfold dpVC
      match hfe : findEdge adj r with
      | none => rw [mVC_of_no_edge hfe]
      | some (u, v) =>
        obtain ⟨hu, hv, _⟩ := findEdge_sound hfe
        have hltu : clearBit r u < r := clearBit_lt hu
        have hltv : clearBit r v < r := clearBit_lt hv
        have hdu := ih _ hltu (f := f) (by omega)
        have hdv := ih _ hltv (f := f) (by omega)
        rw [mVC_rec hfe]
        simp only [hdu, hdv, exceptBind_ok]
        split
        · rename_i hcase
          have hle : mVC adj (clearBit r u) ≤ mVC adj (clearBit r v) := by omega
          rw [Nat.min_eq_left hle]
          rfl
        · rename_i hcase
          have hle : mVC adj (clearBit r v) ≤ mVC adj (clearBit r u) := by omega
          rw [Nat.min_eq_right hle]
          rfl

/-! ## Relating the built bitmasks to the input edge list -/

theorem getD_set (xs : List α) (k j : Nat) (a d : α) :
    (xs.set k a).getD j d = if k = j ∧ j < xs.length then a else xs.getD j d := by
  induction xs generalizing k j with
  | nil => simp
  | cons x xs ih =>
    match k, j with
    | 0, 0 => simp
    | 0, j + 1 =>
      simp only [List.set_cons_zero, List.getD_cons_succ, List.length_cons]
      rw [if_neg]
      omega
    | k + 1, 0 =>
      simp only [List.set_cons_succ, List.getD_cons_zero, List.length_cons]
      rw [if_neg]
      omega
    | k + 1, j + 1 =>
      simp only [List.set_cons_succ, List.getD_cons_succ, List.length_cons, ih]
      by_cases h : k = j ∧ j < xs.length
      · rw [if_pos h, if_pos (by omega)]
      · rw [if_neg h, if_neg (by omega)]

/-- Whether the (undirected, possibly self-looped) edge `{u, v}` occurs in
the edge list. -/
def edgePresent (en : List (Nat × Nat)) (u v : Nat) : Bool :=
  en.any (fun e => (decide (e.1 = u) && decide (e.2 = v)) ||
    (decide (e.1 = v) && decide (e.2 = u)))

theorem edgePresent_symm (en : List (Nat × Nat)) (u v : Nat) :
    edgePresent en u v = edgePresent en v u := by
  unfold edgePresent
  induction en with
  | nil => rfl
  | cons e en ih =>
    simp only [List.any_cons, ih]
    congr 1
    rcases e with ⟨a, b⟩
    simp only [Bool.or_comm]

/-- Effect of one `adj[i] |= 1 << sh` statement with in-range indices. -/
theorem vcOrBit_ok {adj : List Nat} {i sh : Nat} (hi : i < adj.length) :
    ∃ adj', vcOrBit adj (i : Int) (sh : Int) = .ok adj' ∧
      adj'.length = adj.length ∧
      ∀ u v : Nat, adjBit adj' u v =
        (adjBit adj u v || (decide (u = i) && decide (v = sh))) := by
  unfold vcOrBit
  rw [pyIdx_nonneg (by omega) (by exact_mod_cast hi)]
  simp only [Int.toNat_ofNat]
  rw [if_neg (by omega)]
  refine ⟨_, rfl, by simp, ?_⟩
  intro u v
  unfold adjBit
  rw [getD_set]
  by_cases hu : u = i
  · subst hu
    rw [if_pos ⟨rfl, hi⟩, Nat.testBit_or]
    have hbit : ((1 <<< sh : Nat)).testBit v = decide (v = sh) := by
      rw [Nat.shiftLeft_eq, one_mul, Nat.testBit_two_pow]
      rcases eq_or_ne sh v with rfl | h
      · simp
      · simp [h, Ne.symm h]
    rw [hbit]
    simp
  · rw [if_neg (by intro hc; exact hu hc.1.symm)]
    simp [hu]

theorem decide_pair_eq (a b u v : Nat) :
    ((decide (u = a) && decide (v = b)) || (decide (u = b) && decide (v = a)))
      = ((decide (a = u) && decide (b = v)) || (decide (a = v) && decide (b = u))) := by
  rw [← Bool.decide_and, ← Bool.decide_and, ← Bool.decide_or,
      ← Bool.decide_and, ← Bool.decide_and, ← Bool.decide_or]
  rw [decide_eq_decide]
  omega

/-- The adjacency build succeeds on in-range natural edges and produces
exactly the `edgePresent` adjacency relation. -/
theorem buildAdjVC_fold {n : Nat} : ∀ (en : List (Nat × Nat)) (adj0 : List Nat),
    adj0.length = n → (∀ e ∈ en, e.1 < n ∧ e.2 < n) →
    ∃ adj, (en.map (fun e => ((e.1 : Int), (e.2 : Int)))).foldlM vcStep adj0 = .ok adj ∧
      adj.length = n ∧
      ∀ u v : Nat, adjBit adj u v = (adjBit adj0 u v || edgePresent en u v) := by
  intro en
  induction en with
  | nil =>
    intro adj0 hlen _
    exact ⟨adj0, rfl, hlen, by simp [edgePresent]⟩
  | cons e en ih =>
    intro adj0 hlen hval
    obtain ⟨h1, h2⟩ := hval e (by simp)
    rcases e with ⟨a, b⟩
    simp only at h1 h2
    by_cases hab : a = b
    · subst hab
      obtain ⟨adj1, hstep, hlen1, hbit1⟩ := @vcOrBit_ok adj0 a a (by omega)
      obtain ⟨adj, hfold, hlenf, hbitf⟩ := ih adj1 (by omega)
        (fun e he => hval e (by simp [he]))
      have hstep' : vcStep adj0 ((a : Int), (a : Int)) = .ok adj1 := by
        unfold vcStep
        rw [if_pos rfl]
        exact hstep
      refine ⟨adj, ?_, hlenf, ?_⟩
      · simp only [List.map_cons, List.foldlM_cons, hstep', exceptBind_ok]
        exact hfold
      · intro u v
        rw [hbitf, hbit1]
        unfold edgePresent
        simp only [List.any_cons]
        show (adjBit adj0 u v || (decide (u = a) && decide (v = a))
            || List.any en _) =
          (adjBit adj0 u v ||
            (((decide (a = u) && decide (a = v)) || (decide (a = v) && decide (a = u)))
              || List.any en _))
        have : ((decide (u = a) && decide (v = a)) : Bool)
            = ((decide (a = u) && decide (a = v)) || (decide (a = v) && decide (a = u))) := by
          rw [← Bool.decide_and, ← Bool.decide_and, ← Bool.decide_and,
            ← Bool.decide_or, decide_eq_decide]
          omega
        rw [Bool.or_assoc, Bool.or_assoc, this, Bool.or_assoc]
    · obtain ⟨adj1, hstep1, hlen1, hbit1⟩ := @vcOrBit_ok adj0 a b (by omega)
      obtain ⟨adj2, hstep2, hlen2, hbit2⟩ := @vcOrBit_ok adj1 b a (by omega)
      obtain ⟨adj, hfold, hlenf, hbitf⟩ := ih adj2 (by omega)
        (fun e he => hval e (by simp [he]))
      have hstep' : vcStep adj0 ((a : Int), (b : Int)) = .ok adj2 := by
        unfold vcStep
        rw [if_neg (by simpa using hab)]
        show (do
          let adj1' ← vcOrBit adj0 (a : Int) (b : Int)
          vcOrBit adj1' (b : Int) (a : Int)) = .ok adj2
        rw [hstep1, exceptBind_ok, hstep2]
      refine ⟨adj, ?_, hlenf, ?_⟩
      · simp only [List.map_cons, List.foldlM_cons, hstep', exceptBind_ok]
        exact hfold
      · intro u v
        rw [hbitf, hbit2, hbit1]
        unfold edgePresent
        simp only [List.any_cons]
        show (adjBit adj0 u v || (decide (u = a) && decide (v = b))
              || (decide (u = b) && decide (v = a)) || List.any en _) =
          (adjBit adj0 u v ||
            (((decide (a = u) && decide (b = v)) || (decide (a = v) && decide (b = u)))
              || List.any en _))
        rw [Bool.or_assoc (adjBit adj0 u v), Bool.or_assoc (adjBit adj0 u v),
          Bool.or_assoc, decide_pair_eq, Bool.or_assoc]

/-- Top-level adjacency specification for valid natural edge lists. -/
theorem buildAdjVC_spec {n : Nat} {en : List (Nat × Nat)}
    (hval : ∀ e ∈ en, e.1 < n ∧ e.2 < n) :
    ∃ adj, buildAdjVC (n : Int) (en.map (fun e => ((e.1 : Int), (e.2 : Int)))) = .ok adj ∧
      adj.length = n ∧
      ∀ u v : Nat, adjBit adj u v = edgePresent en u v := by
  obtain ⟨adj, hfold, hlen, hbit⟩ := buildAdjVC_fold en (List.replicate n 0)
    (by simp) hval
  refine ⟨adj, ?_, hlen, ?_⟩
  · unfold buildAdjVC
    simpa using hfold
  · intro u v
    rw [hbit u v]
    have : adjBit (List.replicate n 0) u v = false := by
      unfold adjBit
      rcases Nat.lt_or_ge u n with h | h
      · rw [List.getD_eq_getElem?_getD]
        simp [List.getElem?_replicate, h]
      · rw [List.getD_eq_getElem?_getD]
        simp only [List.getElem?_replicate]
        rw [if_neg (by omega)]
        simp
    rw [this, Bool.false_or]

/-! ## Reconstruction of the vertex-cover solution -/

theorem choiceVC_of_none {f : Nat} {adj : List Nat} {r : Nat}
    (h : findEdge adj r = none) : choiceVC f adj r = .ok none := by
  unfold choiceVC
  rw [h]

theorem choiceVC_of_some {f : Nat} {adj : List Nat} {r u v : Nat}
    (hf : r < f) (h : findEdge adj r = some (u, v)) :
    ∃ c, choiceVC f adj r = .ok (some c) ∧ (c = u ∨ c = v) ∧ r.testBit c = true ∧
      mVC adj r = 1 + mVC adj (clearBit r c) := by
  obtain ⟨hu, hv, ha⟩ := findEdge_sound h
  unfold choiceVC
  rw [h]
  have hdu := @dpVC_eq_mVC adj (clearBit r u) f (lt_trans (clearBit_lt hu) hf)
  have hdv := @dpVC_eq_mVC adj (clearBit r v) f (lt_trans (clearBit_lt hv) hf)
  simp only [hdu, hdv, exceptBind_ok]
  split
  · rename_i hcase
    refine ⟨u, rfl, Or.inl rfl, hu, ?_⟩
    rw [mVC_rec h, Nat.min_eq_left (by omega)]
  · rename_i hcase
    refine ⟨v, rfl, Or.inr rfl, hv, ?_⟩
    rw [mVC_rec h, Nat.min_eq_right (by omega)]

/-- Full behaviour of the reconstruction loop: it terminates with a set of
vertices that extends the accumulator by exactly `mVC` fresh in-mask
vertices and covers every edge induced by the mask. -/
theorem replayVC_spec {adj : List Nat} : ∀ {r lf df : Nat} {acc : Finset Nat},
    r < lf → r < df → (∀ x ∈ acc, r.testBit x = false) →
    ∃ out, replayVC lf df adj r acc = .ok out ∧
      out.card = acc.card + mVC adj r ∧
      (∀ x ∈ out, x ∈ acc ∨ r.testBit x = true) ∧
      (∀ u v, adjBit adj u v = true → r.testBit u = true → r.testBit v = true →
        u ∈ out ∨ v ∈ out) ∧
      acc ⊆ out := by
  intro r
  induction r using Nat.strong_induction_on with
  | _ r ih =>
    intro lf df acc hlf hdf hdisj
    match lf with
    | lf + 1 =>
      match hfe : findEdge adj r with
      | none =>
        refine ⟨acc, ?_, ?_, ?_, ?_, Finset.Subset.refl _⟩
        · unfold replayVC
          rw [hfe]
        · rw [mVC_of_no_edge hfe]
          omega
        · exact fun x hx => Or.inl hx
        · intro u v ha hu hv
          exfalso
          have hz := findEdge_complete hfe u hu
          have hbit : (adj.getD u 0 &&& r).testBit v = true := by
            rw [Nat.testBit_and]
            unfold adjBit at ha
            rw [ha, hv]
            rfl
          rw [hz] at hbit
          simp at hbit
      | some (u, v) =>
        obtain ⟨c, hch, hcuv, hcr, hrec⟩ := choiceVC_of_some hdf hfe
        have hlt : clearBit r c < r := clearBit_lt hcr
        have hdisj' : ∀ x ∈ insert c acc, (clearBit r c).testBit x = false := by
          intro x hx
          rcases Finset.mem_insert.mp hx with rfl | hxa
          · rw [clearBit_testBit]
            simp
          · rw [clearBit_testBit]
            split
            · rfl
            · exact hdisj x hxa
        obtain ⟨out, hrep, hcard, hmem, hcov, hsub⟩ :=
          @ih _ hlt lf df (insert c acc) (by omega) (by omega) hdisj'
        refine ⟨out, ?_, ?_, ?_, ?_, ?_⟩
        · unfold replayVC
          rw [hfe, hch, exceptBind_ok]
          exact hrep
        · have hcnotin : c ∉ acc := by
            intro hc
            have := hdisj c hc
            rw [hcr] at this
            exact absurd this (by simp)
          rw [hcard, Finset.card_insert_of_not_mem hcnotin, hrec]
          omega
        · intro x hx
          rcases hmem x hx with hx' | hx'
          · rcases Finset.mem_insert.mp hx' with rfl | hxa
            · exact Or.inr hcr
            · exact Or.inl hxa
          · rw [clearBit_testBit] at hx'
            rcases eq_or_ne x c with rfl | hne
            · exact Or.inr hcr
            · right
              simpa [hne] using hx'
        · intro a b hab ha hb
          rcases eq_or_ne a c with rfl | hane
          · exact Or.inl (hsub (Finset.mem_insert_self _ _))
          · rcases eq_or_ne b c with rfl | hbne
            · exact Or.inr (hsub (Finset.mem_insert_self _ _))
            · apply hcov a b hab
              · rw [clearBit_testBit]
                simpa [hane] using ha
              · rw [clearBit_testBit]
                simpa [hbne] using hb
        · exact fun x hx => hsub (Finset.mem_insert_of_mem hx)

/-- Boolean cover test over a natural edge list. -/
def coversEdgesB (en : List (Nat × Nat)) (S : Finset Nat) : Bool :=
  en.all (fun e => decide (e.1 ∈ S) || decide (e.2 ∈ S))

/-- Brute-force minimum vertex cover size of the listed graph: the smallest
cardinality among subsets of `{0..n-1}` touching every edge (`0` when no
subset covers, which cannot happen for in-range edges). -/
def minVC (n : Nat) (en : List (Nat × Nat)) : Nat :=
  if h : ((Finset.range n).powerset.filter (fun S => coversEdgesB en S)).Nonempty then
    ((Finset.range n).powerset.filter (fun S => coversEdgesB en S)).inf' h
      (fun S => S.card)
  else 0

/-- For in-range edges the bitmask-level optimum at the full mask is the
brute-force optimum over subsets of `{0..n-1}`. -/
theorem mVC_full_eq_minVC {n : Nat} {en : List (Nat × Nat)} {adj : List Nat}
    (hval : ∀ e ∈ en, e.1 < n ∧ e.2 < n)
    (hbit : ∀ u v : Nat, adjBit adj u v = edgePresent en u v) :
    mVC adj (2 ^ n - 1) = minVC n en := by
  have hbits : bitsFinset (2 ^ n - 1) = Finset.range n := by
    apply Finset.ext
    intro i
    rw [mem_bitsFinset, Finset.mem_range, Nat.testBit_two_pow_sub_one]
    simp
  have hcov : ∀ S : Finset Nat,
      coversMaskB adj (2 ^ n - 1) S = coversEdgesB en S := by
    intro S
    rcases hc : coversEdgesB en S
    · rcases hm : coversMaskB adj (2 ^ n - 1) S
      · rfl
      · exfalso
        unfold coversEdgesB at hc
        rw [List.all_eq_false] at hc
        obtain ⟨e, he, hbad⟩ := hc
        obtain ⟨h1, h2⟩ := hval e he
        have hmc := coversMaskB_iff.mp hm
        have hadj : adjBit adj e.1 e.2 = true := by
          rw [hbit]
          unfold edgePresent
          rw [List.any_eq_true]
          exact ⟨e, he, by simp⟩
        have hor := hmc e.1 e.2 hadj
          (by rw [Nat.testBit_two_pow_sub_one]; simpa using h1)
          (by rw [Nat.testBit_two_pow_sub_one]; simpa using h2)
        have hbad' : e.1 ∉ S ∧ e.2 ∉ S := by
          constructor <;> intro hmem <;> apply hbad <;> simp [hmem]
        rcases hor with h | h
        · exact hbad'.1 h
        · exact hbad'.2 h
    · apply coversMaskB_iff.mpr
      intro u v ha hu hv
      rw [hbit] at ha
      unfold edgePresent at ha
      rw [List.any_eq_true] at ha
      obtain ⟨e, he, hmatch⟩ := ha
      unfold coversEdgesB at hc
      rw [List.all_eq_true] at hc
      have hce := hc e he
      simp only [Bool.or_eq_true, Bool.and_eq_true, decide_eq_true_iff] at hce hmatch
      rcases hmatch with ⟨hm1, hm2⟩ | ⟨hm1, hm2⟩
      · rw [hm1, hm2] at hce
        exact hce
      · rw [hm1, hm2] at hce
        exact hce.symm
  have hfam : ((bitsFinset (2 ^ n - 1)).powerset).filter
        (fun S => coversMaskB adj (2 ^ n - 1) S)
      = (Finset.range n).powerset.filter (fun S => coversEdgesB en S) := by
    rw [hbits]
    exact Finset.filter_congr (fun S _ => by rw [hcov S])
  have hne : ((Finset.range n).powerset.filter (fun S => coversEdgesB en S)).Nonempty :=
    hfam ▸ mVC_filter_nonempty adj (2 ^ n - 1)
  unfold mVC minVC
  rw [dif_pos hne]
  exact Finset.inf'_congr (mVC_filter_nonempty adj (2 ^ n - 1)) hfam (fun _ _ => rfl)

/-- Master specification of the embedded vertex-cover solver on a graph
with in-range vertex ids: it succeeds, returns the brute-force minimum as
count, and returns a witnessing cover of exactly that size. -/
theorem solveVC_spec {n : Nat} {en : List (Nat × Nat)}
    (hval : ∀ e ∈ en, e.1 < n ∧ e.2 < n) :
    ∃ adj S, buildAdjVC (n : Int) (en.map (fun e => ((e.1 : Int), (e.2 : Int)))) = .ok adj ∧
      adj.length = n ∧ (∀ u v : Nat, adjBit adj u v = edgePresent en u v) ∧
      solve_vertex_cover_dp (n : Int) (en.map (fun e => ((e.1 : Int), (e.2 : Int))))
        = .ok (minVC n en, S) ∧
      S.card = minVC n en ∧
      (∀ e ∈ en, e.1 ∈ S ∨ e.2 ∈ S) ∧
      (∀ x ∈ S, x < n) := by
  obtain ⟨adj, hbuild, hlen, hbit⟩ := buildAdjVC_spec hval
  have htn : ((n : Int)).toNat = n := rfl
  obtain ⟨out, hrep, hcard, hmem, hcov, -⟩ :=
    @replayVC_spec adj (2 ^ n - 1) (2 ^ n - 1 + 1) (2 ^ n - 1 + 1) ∅
      (by omega) (by omega) (by simp)
  have hdp := @dpVC_eq_mVC adj (2 ^ n - 1) (2 ^ n - 1 + 1) (by omega)
  have hmin := mVC_full_eq_minVC hval hbit
  refine ⟨adj, out, hbuild, hlen, hbit, ?_, ?_, ?_, ?_⟩
  · unfold solve_vertex_cover_dp
    rw [hbuild, exceptBind_ok, if_neg (by omega)]
    show (do
      let best ← dpVC (2 ^ (n : Int).toNat - 1 + 1) adj (2 ^ (n : Int).toNat - 1)
      let chosen ← replayVC (2 ^ (n : Int).toNat - 1 + 1) (2 ^ (n : Int).toNat - 1 + 1)
        adj (2 ^ (n : Int).toNat - 1) ∅
      pure (best, chosen)) = .ok (minVC n en, out)
    rw [htn, hdp, exceptBind_ok, hrep, exceptBind_ok, hmin]
    rfl
  · rw [hcard, hmin]
    simp
  · intro e he
    obtain ⟨h1, h2⟩ := hval e he
    apply hcov e.1 e.2
    · rw [hbit]
      unfold edgePresent
      rw [List.any_eq_true]
      exact ⟨e, he, by simp⟩
    · rw [Nat.testBit_two_pow_sub_one]
      simpa using h1
    · rw [Nat.testBit_two_pow_sub_one]
      simpa using h2
  · intro x hx
    rcases hmem x hx with h | h
    · simp at h
    · rw [Nat.testBit_two_pow_sub_one] at h
      simpa using h

/-! ## The call closure of the memoized DP (modelling the decision dict) -/

/-- The set of masks on which `dp` is invoked when solving from `full`:
the full mask itself plus, recursively, both branch masks at every mask
where an edge is found.  The decision dict `choice` has an entry for
exactly the called masks that still contain an edge. -/
inductive CalledVC (adj : List Nat) (full : Nat) : Nat → Prop where
  | base : CalledVC adj full full
  | stepU {r u v : Nat} : CalledVC adj full r → findEdge adj r = some (u, v) →
      CalledVC adj full (clearBit r u)
  | stepV {r u v : Nat} : CalledVC adj full r → findEdge adj r = some (u, v) →
      CalledVC adj full (clearBit r v)

/-- The masks visited by the reconstruction loop, in visiting order. -/
def replayTraceVC : Nat → Nat → List Nat → Nat → List Nat
  | 0, _, _, _ => []
  | lf + 1, df, adj, r =>
    r :: (match findEdge adj r with
      | none => []
      | some _ =>
        match choiceVC df adj r with
        | .ok (some c) => replayTraceVC lf df adj (clearBit r c)
        | _ => [])

/-- Every mask visited by the reconstruction loop was a `dp` call (so the
decision dict lookup succeeds whenever an uncovered edge remains). -/
theorem replayTraceVC_called {adj : List Nat} {full : Nat} :
    ∀ {r lf df : Nat}, r < lf → r < df → CalledVC adj full r →
    ∀ m ∈ replayTraceVC lf df adj r, CalledVC adj full m ∧
      ((findEdge adj m).isSome = true → ∃ c, choiceVC df adj m = .ok (some c)) := by
  intro r
  induction r using Nat.strong_induction_on with
  | _ r ih =>
    intro lf df hlf hdf hcall m hm
    match lf with
    | lf + 1 =>
      unfold replayTraceVC at hm
      rcases List.mem_cons.mp hm with rfl | hm'
      · refine ⟨hcall, ?_⟩
        intro hsome
        match hfe : findEdge adj m with
        | some (u, v) =>
          obtain ⟨c, hch, _, _, _⟩ := choiceVC_of_some hdf hfe
          exact ⟨c, hch⟩
        | none => rw [hfe] at hsome; simp at hsome
      · match hfe : findEdge adj r with
        | none =>
          rw [hfe] at hm'
          simp at hm'
        | some (u, v) =>
          rw [hfe] at hm'
          obtain ⟨c, hch, hcuv, hcr, _⟩ := choiceVC_of_some hdf hfe
          rw [hch] at hm'
          simp only at hm'
          have hcall' : CalledVC adj full (clearBit r c) := by
            rcases hcuv with rfl | rfl
            · exact CalledVC.stepU hcall hfe
            · exact CalledVC.stepV hcall hfe
          have hlt : clearBit r c < r := clearBit_lt hcr
          exact ih _ hlt (by omega) (by omega) hcall' m hm'

/-! ## Duplicate edges are absorbed by the vertex-cover adjacency build -/

theorem or_pow_eq_self {a : Nat} {s : Nat} (h : a.testBit s = true) :
    a ||| 2 ^ s = a := by
  apply Nat.eq_of_testBit_eq
  intro j
  rw [Nat.testBit_or, Nat.testBit_two_pow]
  rcases eq_or_ne s j with rfl | hne
  · simp [h]
  · simp [hne]

theorem set_getD_self (xs : List Nat) (k : Nat) (hk : k < xs.length) :
    xs.set k (xs.getD k 0) = xs := by
  induction xs generalizing k with
  | nil => rfl
  | cons x xs ih =>
    match k with
    | 0 => simp
    | k + 1 =>
      simp only [List.set_cons_succ, List.getD_cons_succ]
      rw [ih k (by simpa using hk)]

theorem pyIdx_of_nonneg {len : Nat} {i : Int} {k : Nat} (h0 : 0 ≤ i)
    (h : pyIdx len i = some k) : k = i.toNat ∧ i < (len : Int) := by
  unfold pyIdx at h
  split at h
  · rename_i hc
    simp only [Option.some.injEq] at h
    exact ⟨h.symm, hc.2⟩
  · split at h
    · rename_i hc1 hc2
      omega
    · exact absurd h (by simp)

/-- Anatomy of a successful `adj[i] |= 1 << sh`. -/
theorem vcOrBit_ok_inv {adj adj' : List Nat} {i sh : Int}
    (h : vcOrBit adj i sh = .ok adj') :
    0 ≤ sh ∧ ∃ k, pyIdx adj.length i = some k ∧ k < adj.length ∧
      adj' = adj.set k (adj.getD k 0 ||| (1 <<< sh.toNat)) := by
  unfold vcOrBit at h
  split at h
  · exact absurd h (by simp)
  · rename_i k hk
    split at h
    · exact absurd h (by simp)
    · rename_i hsh
      push_neg at hsh
      simp only [Except.ok.injEq] at h
      exact ⟨hsh, k, hk, pyIdx_lt_len hk, h.symm⟩

theorem adjBit_set_or {adj : List Nat} {k s : Nat} (hk : k < adj.length) (u v : Nat) :
    adjBit (adj.set k (adj.getD k 0 ||| (1 <<< s))) u v
      = (adjBit adj u v || (decide (u = k) && decide (v = s))) := by
  unfold adjBit
  rw [getD_set]
  by_cases hu : u = k
  · subst hu
    rw [if_pos ⟨rfl, hk⟩, Nat.testBit_or]
    have hbit : ((1 <<< s : Nat)).testBit v = decide (v = s) := by
      rw [Nat.shiftLeft_eq, one_mul, Nat.testBit_two_pow]
      rcases eq_or_ne s v with rfl | hvne
      · simp
      · simp [hvne, Ne.symm hvne]
    rw [hbit]
    simp
  · rw [if_neg (by intro hc; exact hu hc.1.symm)]
    simp [hu]

/-- A successful `vcStep` has in-range nonnegative endpoints, preserves the
length, only adds bits, and records the edge in both directions. -/
theorem vcStep_ok_inv {adj0 adj1 : List Nat} {e : Int × Int}
    (h : vcStep adj0 e = .ok adj1) :
    (0 ≤ e.1 ∧ e.1 < (adj0.length : Int) ∧ 0 ≤ e.2 ∧ e.2 < (adj0.length : Int)) ∧
      adj1.length = adj0.length ∧
      (∀ u v : Nat, adjBit adj0 u v = true → adjBit adj1 u v = true) ∧
      adjBit adj1 e.1.toNat e.2.toNat = true ∧ adjBit adj1 e.2.toNat e.1.toNat = true := by
  unfold vcStep at h
  split at h
  · rename_i heq
    obtain ⟨hsh, k, hk, hklt, rfl⟩ := vcOrBit_ok_inv h
    obtain ⟨hkeq, hlt⟩ := pyIdx_of_nonneg hsh hk
    subst hkeq
    have htn : e.2.toNat = e.1.toNat := by rw [heq]
    refine ⟨⟨hsh, hlt, heq ▸ hsh, heq ▸ hlt⟩, by simp, ?_, ?_, ?_⟩
    · intro u v huv
      rw [adjBit_set_or hklt, huv]
      simp
    · rw [adjBit_set_or hklt, htn]
      simp
    · rw [adjBit_set_or hklt, htn]
      simp
  · rename_i hne
    match h1 : vcOrBit adj0 e.1 e.2 with
    | .error err =>
      rw [h1] at h
      exact absurd h (by simp [exceptBind_err])
    | .ok adjA =>
      rw [h1, exceptBind_ok] at h
      obtain ⟨hsh2, k1, hk1, hk1lt, hA⟩ := vcOrBit_ok_inv h1
      obtain ⟨hsh1, k2, hk2, hk2lt, h1'⟩ := vcOrBit_ok_inv h
      obtain ⟨hke1, hlt1⟩ := pyIdx_of_nonneg hsh1 hk1
      have hlenA : adjA.length = adj0.length := by rw [hA]; simp
      obtain ⟨hke2, hlt2⟩ := pyIdx_of_nonneg hsh2 hk2
      subst hke1 hke2
      subst hA h1'
      refine ⟨⟨hsh1, hlt1, hsh2, by omega⟩, by simp, ?_, ?_, ?_⟩
      · intro u v huv
        rw [adjBit_set_or hk2lt, adjBit_set_or hk1lt, huv]
        simp
      · rw [adjBit_set_or hk2lt, adjBit_set_or hk1lt]
        simp
      · rw [adjBit_set_or hk2lt]
        simp

theorem foldlM_vcStep_mono {l : List (Int × Int)} : ∀ {adj0 adj : List Nat},
    l.foldlM vcStep adj0 = .ok adj →
    adj.length = adj0.length ∧
      ∀ u v : Nat, adjBit adj0 u v = true → adjBit adj u v = true := by
  induction l with
  | nil =>
    intro adj0 adj h
    have h' : (Except.ok adj0 : Except PyErr (List Nat)) = .ok adj := h
    simp only [Except.ok.injEq] at h'
    subst h'
    exact ⟨rfl, fun _ _ hb => hb⟩
  | cons a l ih =>
    intro adj0 adj h
    rw [List.foldlM_cons] at h
    match hstep : vcStep adj0 a with
    | .error err =>
      rw [hstep] at h
      exact absurd h (by simp [exceptBind_err])
    | .ok adjA =>
      rw [hstep, exceptBind_ok] at h
      obtain ⟨-, hlen, hmono, -, -⟩ := vcStep_ok_inv hstep
      obtain ⟨hlen', hmono'⟩ := ih h
      exact ⟨by omega, fun u v hb => hmono' u v (hmono u v hb)⟩

theorem foldlM_vcStep_mem {l : List (Int × Int)} : ∀ {adj0 adj : List Nat} {e : Int × Int},
    e ∈ l → l.foldlM vcStep adj0 = .ok adj →
    (0 ≤ e.1 ∧ e.1 < (adj.length : Int) ∧ 0 ≤ e.2 ∧ e.2 < (adj.length : Int)) ∧
      adjBit adj e.1.toNat e.2.toNat = true ∧ adjBit adj e.2.toNat e.1.toNat = true := by
  induction l with
  | nil =>
    intro adj0 adj e he
    simp at he
  | cons a l ih =>
    intro adj0 adj e he h
    rw [List.foldlM_cons] at h
    match hstep : vcStep adj0 a with
    | .error err =>
      rw [hstep] at h
      exact absurd h (by simp [exceptBind_err])
    | .ok adjA =>
      rw [hstep, exceptBind_ok] at h
      rcases List.mem_cons.mp he with rfl | he'
      · obtain ⟨⟨h1, h2, h3, h4⟩, hlenA, -, hb1, hb2⟩ := vcStep_ok_inv hstep
        obtain ⟨hlen, hmono⟩ := foldlM_vcStep_mono h
        refine ⟨⟨h1, ?_, h3, ?_⟩, hmono _ _ hb1, hmono _ _ hb2⟩
        · omega
        · omega
      · exact ih he' h

/-- Re-processing an edge whose bits are already present changes nothing. -/
theorem vcStep_noop {adj : List Nat} {e : Int × Int}
    (h1 : 0 ≤ e.1) (h2 : e.1 < (adj.length : Int))
    (h3 : 0 ≤ e.2) (h4 : e.2 < (adj.length : Int))
    (hb1 : adjBit adj e.1.toNat e.2.toNat = true)
    (hb2 : adjBit adj e.2.toNat e.1.toNat = true) :
    vcStep adj e = .ok adj := by
  have hor : ∀ (i sh : Int), 0 ≤ i → i < (adj.length : Int) → 0 ≤ sh →
      adjBit adj i.toNat sh.toNat = true → vcOrBit adj i sh = .ok adj := by
    intro i sh hi hilt hsh hbit
    unfold vcOrBit
    rw [pyIdx_nonneg hi hilt]
    show (if sh < 0 then Except.error PyErr.valueError
      else Except.ok (adj.set i.toNat (adj.getD i.toNat 0 ||| 1 <<< sh.toNat))) = .ok adj
    rw [if_neg (by omega)]
    unfold adjBit at hbit
    have hval : adj.getD i.toNat 0 ||| (1 <<< sh.toNat) = adj.getD i.toNat 0 := by
      rw [Nat.shiftLeft_eq, one_mul]
      exact or_pow_eq_self hbit
    rw [hval, set_getD_self adj i.toNat (by omega)]
  unfold vcStep
  split
  · rename_i heq
    exact hor e.1 e.1 h1 h2 h1 (by rw [← heq] at hb1; exact hb1)
  · rw [hor e.1 e.2 h1 h2 h3 hb1, exceptBind_ok]
    exact hor e.2 e.1 h3 h4 h1 hb2

/-- Appending a duplicate of a present edge leaves the adjacency build
unchanged (including the error case, which fails at the same prefix). -/
theorem buildAdjVC_append_dup {n : Int} {edges : List (Int × Int)} {e : Int × Int}
    (he : e ∈ edges) :
    buildAdjVC n (edges ++ [e]) = buildAdjVC n edges := by
  unfold buildAdjVC
  rw [List.foldlM_append]
  match hfold : edges.foldlM vcStep (List.replicate n.toNat 0) with
  | .error err => rfl
  | .ok adj =>
    obtain ⟨⟨h1, h2, h3, h4⟩, hb1, hb2⟩ := foldlM_vcStep_mem he hfold
    show ([e].foldlM vcStep adj) = .ok adj
    rw [List.foldlM_cons, vcStep_noop h1 h2 h3 h4 hb1 hb2, exceptBind_ok]
    rfl

/-- Duplicate-edge idempotence of the whole vertex-cover solver. -/
theorem solveVC_append_dup {n : Int} {edges : List (Int × Int)} {e : Int × Int}
    (he : e ∈ edges) :
    solve_vertex_cover_dp n (edges ++ [e]) = solve_vertex_cover_dp n edges := by
  unfold solve_vertex_cover_dp
  rw [buildAdjVC_append_dup he]

/-! ## Invalid-input behaviour of the vertex-cover solver -/

theorem pyIdx_none_of_ge {len : Nat} {i : Int} (h : (len : Int) ≤ i) :
    pyIdx len i = none := by
  unfold pyIdx
  rw [if_neg (by omega), if_neg (by omega)]

theorem vcOrBit_ok_of_valid {adj : List Nat} {i sh : Int}
    (hi : 0 ≤ i) (hilt : i < (adj.length : Int)) (hsh : 0 ≤ sh) :
    vcOrBit adj i sh = .ok (adj.set i.toNat (adj.getD i.toNat 0 ||| 1 <<< sh.toNat)) := by
  unfold vcOrBit
  rw [pyIdx_nonneg hi hilt]
  show (if sh < 0 then Except.error PyErr.valueError
    else Except.ok (adj.set i.toNat (adj.getD i.toNat 0 ||| 1 <<< sh.toNat))) = _
  rw [if_neg (by omega)]

theorem vcStep_ok_of_valid {adj0 : List Nat} {e : Int × Int}
    (h1 : 0 ≤ e.1) (h2 : e.1 < (adj0.length : Int))
    (h3 : 0 ≤ e.2) (h4 : e.2 < (adj0.length : Int)) :
    ∃ adj1, vcStep adj0 e = .ok adj1 ∧ adj1.length = adj0.length := by
  unfold vcStep
  split
  · exact ⟨_, vcOrBit_ok_of_valid h1 h2 h1, by simp⟩
  · rw [vcOrBit_ok_of_valid h1 h2 h3, exceptBind_ok]
    rw [vcOrBit_ok_of_valid h3 (by simpa using h4) h1]
    exact ⟨_, rfl, by simp⟩

theorem vcStep_err_of_oob {adj0 : List Nat} {e : Int × Int}
    (h1 : 0 ≤ e.1) (h3 : 0 ≤ e.2)
    (hbad : (adj0.length : Int) ≤ e.1 ∨ (adj0.length : Int) ≤ e.2) :
    vcStep adj0 e = .error .indexError := by
  unfold vcStep vcOrBit
  split
  · rename_i heq
    rw [pyIdx_none_of_ge (by omega)]
  · rcases Int.lt_or_le e.1 (adj0.length : Int) with hlt | hge
    · have hbad2 : (adj0.length : Int) ≤ e.2 := by
        rcases hbad with h | h
        · omega
        · exact h
      rw [pyIdx_nonneg h1 hlt]
      show ((if e.2 < 0 then Except.error PyErr.valueError
        else Except.ok (adj0.set e.1.toNat (adj0.getD e.1.toNat 0 ||| 1 <<< e.2.toNat)))
          >>= _) = _
      rw [if_neg (by omega), exceptBind_ok]
      have hlen : (adj0.set e.1.toNat (adj0.getD e.1.toNat 0 ||| 1 <<< e.2.toNat)).length
          = adj0.length := by simp
      rw [pyIdx_none_of_ge (by rw [hlen]; omega)]
    · rw [pyIdx_none_of_ge hge]
      rfl

theorem foldlM_vcStep_err_of_oob : ∀ {edges : List (Int × Int)} {adj0 : List Nat},
    (∀ e ∈ edges, 0 ≤ e.1 ∧ 0 ≤ e.2) →
    (∃ e ∈ edges, (adj0.length : Int) ≤ e.1 ∨ (adj0.length : Int) ≤ e.2) →
    edges.foldlM vcStep adj0 = .error .indexError := by
  intro edges
  induction edges with
  | nil =>
    intro adj0 _ hbad
    simp at hbad
  | cons a l ih =>
    intro adj0 hpos hbad
    obtain ⟨ha1, ha2⟩ := hpos a (by simp)
    rw [List.foldlM_cons]
    by_cases hagood : a.1 < (adj0.length : Int) ∧ a.2 < (adj0.length : Int)
    · obtain ⟨adj1, hstep, hlen⟩ := vcStep_ok_of_valid ha1 hagood.1 ha2 hagood.2
      rw [hstep, exceptBind_ok]
      apply ih (fun e he => hpos e (by simp [he]))
      obtain ⟨e, he, hbade⟩ := hbad
      rcases List.mem_cons.mp he with rfl | he'
      · exfalso
        omega
      · exact ⟨e, he', by rw [hlen]; exact hbade⟩
    · push_neg at hagood
      have : (adj0.length : Int) ≤ a.1 ∨ (adj0.length : Int) ≤ a.2 := by
        by_cases h : a.1 < (adj0.length : Int)
        · exact Or.inr (hagood h)
        · omega
      rw [vcStep_err_of_oob ha1 ha2 this]
      rfl

/-- With nonnegative ids and at least one id `≥ n`, the vertex-cover solver
fails with an `IndexError` (reading `adj[id]` out of range). -/
theorem solveVC_err_of_oob {n : Int} {edges : List (Int × Int)}
    (hpos : ∀ e ∈ edges, 0 ≤ e.1 ∧ 0 ≤ e.2)
    (hbad : ∃ e ∈ edges, n ≤ e.1 ∨ n ≤ e.2) :
    solve_vertex_cover_dp n edges = .error .indexError := by
  unfold solve_vertex_cover_dp buildAdjVC
  have hfold : edges.foldlM vcStep (List.replicate n.toNat 0) = .error .indexError := by
    apply foldlM_vcStep_err_of_oob hpos
    obtain ⟨e, he, hbade⟩ := hbad
    obtain ⟨hep1, hep2⟩ := hpos e he
    refine ⟨e, he, ?_⟩
    simp only [List.length_replicate]
    omega
  rw [hfold]
  rfl

/-- With a negative `n`, the vertex-cover solver always fails (an edge hits
the empty adjacency list, or `(1 << n) - 1` raises `ValueError`). -/
theorem solveVC_err_of_neg_n {n : Int} (hn : n < 0) (edges : List (Int × Int)) :
    ∃ err, solve_vertex_cover_dp n edges = .error err := by
  unfold solve_vertex_cover_dp
  match h : buildAdjVC n edges with
  | .error e => exact ⟨e, rfl⟩
  | .ok adj =>
    refine ⟨.valueError, ?_⟩
    rw [exceptBind_ok, if_pos hn]

/-! ## Embedding of `src/submission/dp_forest.py`

The per-vertex DP table `dp[v]` holds the three states
`(S0, S1, S2) = (camera here, covered by a child, deferred to parent)`;
values live in `ℕ∞` (`⊤` models `float("inf")`, exact for every reachable
value — see the header comment).  The mutable `dp` list is threaded through
the recursion explicitly; indexing uses Python semantics (`pyIdx`). -/

abbrev DpCell : Type := ℕ∞ × ℕ∞ × ℕ∞

/-- State value lookup `values[s]` for a state index `s ∈ {0, 1, 2}`. -/
def stVal (cell : DpCell) (s : Nat) : ℕ∞ :=
  match s with
  | 0 => cell.1
  | 1 => cell.2.1
  | _ => cell.2.2

/-- One `adj[i].append(x)` statement of `build_adj` (negative-index
wrap-around, `IndexError` when out of range). -/
def adjAppend (adj : List (List Int)) (i : Int) (x : Int) :
    Except PyErr (List (List Int)) :=
  match pyIdx adj.length i with
  | none => .error .indexError
  | some k => .ok (adj.set k (adj.getD k [] ++ [x]))

/-- Loop body of `build_adj`: append both directions of one edge. -/
def adjStep (adj : List (List Int)) (e : Int × Int) : Except PyErr (List (List Int)) := do
  let adj1 ← adjAppend adj e.1 e.2
  adjAppend adj1 e.2 e.1

/-- `build_adj(n, edges)`: `[[] for _ in range(n)]`, then `adjStep` per edge. -/
def build_adj (n : Int) (edges : List (Int × Int)) : Except PyErr (List (List Int)) :=
  edges.foldlM adjStep (List.replicate n.toNat [])

/-- Body of the `for c in adj[v]` loop of the dfs of
`min_cameras_for_tree`; `rec` is the recursive call on the child.  The
state carries the threaded `dp` array and the locals `base` and `gain`. -/
def dfs1Step (rec : List DpCell → Int → Int → Except PyErr (List DpCell))
    (kv : Nat) (parent v : Int) (st : List DpCell × ℕ∞ × ℕ∞) (c : Int) :
    Except PyErr (List DpCell × ℕ∞ × ℕ∞) :=
  if c = parent then pure st
  else do
    let dp ← rec st.1 c v
    let kc ← match pyIdx dp.length c with
      | none => .error .indexError
      | some k => pure k
    let cell := dp.getD kc (0, 0, 0)
    let m02 := min cell.1 (min cell.2.1 cell.2.2)
    let m01 := min cell.1 cell.2.1
    let cellv := dp.getD kv (0, 0, 0)
    let dp := dp.set kv (cellv.1 + m02, cellv.2.1, cellv.2.2 + m01)
    let base := st.2.1 + m01
    let cell2 := dp.getD kc (0, 0, 0)
    let gain := min st.2.2 (cell2.1 - m01)
    pure (dp, base, gain)

/-- The recursive `dfs` of `min_cameras_for_tree`.  The fuel models
Python's recursion limit (`RecursionError` when exhausted; on a forest a
fuel exceeding the component size is proved sufficient below). -/
def dfs1 : Nat → List (List Int) → List DpCell → Int → Int → Except PyErr (List DpCell)
  | 0, _, _, _, _ => .error .recursionError
  | fuel + 1, adj, dp, v, parent =>
    match pyIdx dp.length v with
    | none => .error .indexError
    | some kv => do
      let dp := dp.set kv (1, ⊤, 0)
      let children ← match pyIdx adj.length v with
        | none => .error .indexError
        | some ka => .ok (adj.getD ka [])
      let st ← children.foldlM
        (dfs1Step (dfs1 fuel adj) kv parent v)
        (dp, (0 : ℕ∞), (⊤ : ℕ∞))
      let (dp, base, gain) := st
      if gain < ⊤ then
        let cellv := dp.getD kv (0, 0, 0)
        pure (dp.set kv (cellv.1, base + gain, cellv.2.2))
      else
        pure dp

/-- `min_cameras_for_tree(adj, root)`: run the dfs from the root with no
parent and return `min(dp[root][0], dp[root][1])`. -/
def min_cameras_for_tree (adj : List (List Int)) (root : Int) (fuel : Nat) :
    Except PyErr ℕ∞ := do
  let dp ← dfs1 fuel adj (List.replicate adj.length ((0 : ℕ∞), (0 : ℕ∞), (0 : ℕ∞)))
    root (-1)
  match pyIdx dp.length root with
  | none => .error .indexError
  | some kr =>
    let cell := dp.getD kr (0, 0, 0)
    pure (min cell.1 cell.2.1)

/-- Body of the child loop of the dfs of
`min_cameras_for_tree_with_solution`: the same updates as `dfs1Step` plus
the strict-improvement update of `(gain, best_child)`. -/
def dfs2Step
    (rec : List DpCell → List (Option Int) → Int → Int →
      Except PyErr (List DpCell × List (Option Int)))
    (kv : Nat) (parent v : Int)
    (st : (List DpCell × List (Option Int)) × ℕ∞ × ℕ∞ × Option Int) (c : Int) :
    Except PyErr ((List DpCell × List (Option Int)) × ℕ∞ × ℕ∞ × Option Int) :=
  if c = parent then pure st
  else do
    let (dp, bc) ← rec st.1.1 st.1.2 c v
    let kc ← match pyIdx dp.length c with
      | none => .error .indexError
      | some k => pure k
    let cell := dp.getD kc (0, 0, 0)
    let m02 := min cell.1 (min cell.2.1 cell.2.2)
    let m01 := min cell.1 cell.2.1
    let cellv := dp.getD kv (0, 0, 0)
    let dp := dp.set kv (cellv.1 + m02, cellv.2.1, cellv.2.2 + m01)
    let base := st.2.1 + m01
    let cell2 := dp.getD kc (0, 0, 0)
    let childGain := cell2.1 - m01
    if childGain < st.2.2.1 then
      pure ((dp, bc), base, childGain, some c)
    else
      pure ((dp, bc), base, st.2.2.1, st.2.2.2)

/-- The recursive `dfs` of `min_cameras_for_tree_with_solution`: the same
DP plus the `best_child_for_state1` table; the gain update uses a strict
comparison (`child_gain < gain`), recording the first argmin child. -/
def dfs2 : Nat → List (List Int) → List DpCell → List (Option Int) → Int → Int →
    Except PyErr (List DpCell × List (Option Int))
  | 0, _, _, _, _, _ => .error .recursionError
  | fuel + 1, adj, dp, bc, v, parent =>
    match pyIdx dp.length v with
    | none => .error .indexError
    | some kv => do
      let dp := dp.set kv (1, ⊤, 0)
      let children ← match pyIdx adj.length v with
        | none => .error .indexError
        | some ka => .ok (adj.getD ka [])
      let st ← children.foldlM
        (dfs2Step (dfs2 fuel adj) kv parent v)
        ((dp, bc), (0 : ℕ∞), (⊤ : ℕ∞), (none : Option Int))
      let ((dp, bc), base, gain, best) := st
      match best with
      | some _ =>
        let cellv := dp.getD kv (0, 0, 0)
        pure (dp.set kv (cellv.1, base + gain, cellv.2.2), bc.set kv best)
      | none => pure (dp, bc)

/-- `argmin_state(values, allowed_states)`: first state index achieving the
minimum (the float epsilon comparisons of the source coincide with exact
comparisons on the reachable values, see the header; the `s < best_s`
disjunct never fires since states are scanned in increasing order). -/
def argmin_state (cell : DpCell) (allowed : List Nat) : Nat :=
  match allowed with
  | [] => 0
  | s0 :: rest =>
    (rest.foldl
      (fun (best : Nat × ℕ∞) s =>
        if stVal cell s < best.2 ∨ (stVal cell s = best.2 ∧ s < best.1)
        then (s, stVal cell s) else best)
      (s0, stVal cell s0)).1

/-- The recursive `recon` of `min_cameras_for_tree_with_solution`:
deterministic top-down replay of the DP decisions, accumulating the camera
set. -/
def recon : Nat → List (List Int) → List DpCell → List (Option Int) → Int → Int →
    Nat → Finset Int → Except PyErr (Finset Int)
  | 0, _, _, _, _, _, _, _ => .error .recursionError
  | fuel + 1, adj, dp, bc, v, parent, state, cams => do
    let children ← match pyIdx adj.length v with
      | none => .error .indexError
      | some ka => .ok (adj.getD ka [])
    if state = 0 then
      let cams := insert v cams
      children.foldlM
        (fun (cams : Finset Int) c =>
          if c = parent then pure cams
          else do
            let kc ← match pyIdx dp.length c with
              | none => .error .indexError
              | some k => pure k
            let cs := argmin_state (dp.getD kc (0, 0, 0)) [0, 1, 2]
            recon fuel adj dp bc c v cs cams)
        cams
    else if state = 2 then
      children.foldlM
        (fun (cams : Finset Int) c =>
          if c = parent then pure cams
          else do
            let kc ← match pyIdx dp.length c with
              | none => .error .indexError
              | some k => pure k
            let cs := argmin_state (dp.getD kc (0, 0, 0)) [0, 1]
            recon fuel adj dp bc c v cs cams)
        cams
    else do
      let forced ← match pyIdx bc.length v with
        | none => .error .indexError
        | some kv => pure (bc.getD kv none)
      children.foldlM
        (fun (cams : Finset Int) c =>
          if c = parent then pure cams
          else
            if forced.isSome ∧ some c = forced then
              recon fuel adj dp bc c v 0 cams
            else do
              let kc ← match pyIdx dp.length c with
                | none => .error .indexError
                | some k => pure k
              let cs := argmin_state (dp.getD kc (0, 0, 0)) [0, 1]
              recon fuel adj dp bc c v cs cams)
        cams

/-- `min_cameras_for_tree_with_solution(adj, root)`: dfs, root state
selection over `{S0, S1}`, reconstruction, and the count
`int(min(dp[root][0], dp[root][1]))`. -/
def min_cameras_for_tree_with_solution (adj : List (List Int)) (root : Int) (fuel : Nat) :
    Except PyErr (Nat × Finset Int) := do
  let (dp, bc) ← dfs2 fuel adj
    (List.replicate adj.length ((0 : ℕ∞), (0 : ℕ∞), (0 : ℕ∞)))
    (List.replicate adj.length none) root (-1)
  match pyIdx dp.length root with
  | none => .error .indexError
  | some kr => do
    let rootState := argmin_state (dp.getD kr (0, 0, 0)) [0, 1]
    let cams ← recon fuel adj dp bc root (-1) rootState ∅
    let cell := dp.getD kr (0, 0, 0)
    pure ((min cell.1 cell.2.1).toNat, cams)

example : build_adj 3 [(0, 1), (1, 2)] = .ok [[1], [0, 2], [1]] := by decide
example : min_cameras_for_tree [[1], [0, 2], [1]] 0 4 = .ok 1 := by decide
example : min_cameras_for_tree_with_solution [[1], [0, 2], [1]] 0 4 = .ok (1, {1}) := by
  decide

/-- The `while stack:` loop of `collect_component` (both forest drivers
contain the identical helper).  The Lean list holds the Python stack in
reversed order: the head is the top (Python pops and appends at the end).
The fuel models divergence only; it is proved sufficient for every input
since each iteration pops one entry and every push is guarded by `seen`. -/
def collectLoop (adj : List (List Int)) :
    Nat → List Int → Finset Int → List Int → Except PyErr (List Int × Finset Int)
  | 0, _, _, _ => .error .recursionError
  | fuel + 1, stack, seen, comp =>
    match stack with
    | [] => .ok (comp, seen)
    | v :: stack' =>
      match pyIdx adj.length v with
      | none => .error .indexError
      | some kv =>
        let st := (adj.getD kv []).foldl
          (fun (st : Finset Int × List Int) nb =>
            if nb ∈ st.1 then st else (insert nb st.1, nb :: st.2))
          (seen, stack')
        collectLoop adj fuel st.2 st.1 (comp ++ [v])

/-- Fuel sufficient for `collectLoop` on any input: on each iteration the
measure `|stack| + 2·|pushable values not yet seen|` strictly decreases. -/
def collectFuel (adj : List (List Int)) : Nat :=
  2 * (adj.map List.length).sum + 4

/-- `collect_component(start)`: `seen.add(start)` then the stack loop. -/
def collect_component (adj : List (List Int)) (seen : Finset Int) (start : Int) :
    Except PyErr (List Int × Finset Int) :=
  collectLoop adj (collectFuel adj) [start] (insert start seen) []

/-- The `root_map` built from the optional `roots` argument (a
`defaultdict` used only through key membership). -/
def rootFinset (roots : Option (List Int)) : Finset Int :=
  match roots with
  | none => ∅
  | some l => l.toFinset

/-- `next((r for r in component if r in root_map), component[0])`: first
component vertex that is a preferred root, else the first vertex
(`component[0]` would raise `IndexError` on an empty component, which
cannot occur). -/
def chooseRoot (rootSet : Finset Int) (comp : List Int) : Except PyErr Int :=
  match comp.find? (fun r => decide (r ∈ rootSet)) with
  | some r => .ok r
  | none =>
    match comp with
    | [] => .error .indexError
    | c :: _ => .ok c

/-- Body of the `for v in range(n)` loop of `min_cameras_forest`: skip seen
vertices, otherwise collect the component, select its root, solve it and
add its count. -/
def forestStep (adj : List (List Int)) (rootSet : Finset Int) (fuel : Nat)
    (st : Finset Int × ℕ∞) (v : Nat) : Except PyErr (Finset Int × ℕ∞) :=
  if ((v : Int)) ∈ st.1 then pure st
  else do
    let cs ← collect_component adj st.1 (v : Int)
    let root ← chooseRoot rootSet cs.1
    let cnt ← min_cameras_for_tree adj root fuel
    pure (cs.2, st.2 + cnt)

/-- Embedding of `min_cameras_forest(n, edges, roots)`. -/
def min_cameras_forest (n : Int) (edges : List (Int × Int))
    (roots : Option (List Int)) (fuel : Nat) : Except PyErr ℕ∞ := do
  let adj ← build_adj n edges
  let st ← (List.range n.toNat).foldlM (forestStep adj (rootFinset roots) fuel)
    ((∅ : Finset Int), (0 : ℕ∞))
  pure st.2

/-- Body of the component loop of `min_cameras_forest_with_solution`:
also unions the returned camera sets. -/
def forestSolStep (adj : List (List Int)) (rootSet : Finset Int) (fuel : Nat)
    (st : Finset Int × Nat × Finset Int) (v : Nat) :
    Except PyErr (Finset Int × Nat × Finset Int) :=
  if ((v : Int)) ∈ st.1 then pure st
  else do
    let cs ← collect_component adj st.1 (v : Int)
    let root ← chooseRoot rootSet cs.1
    let res ← min_cameras_for_tree_with_solution adj root fuel
    pure (cs.2, st.2.1 + res.1, st.2.2 ∪ res.2)

/-- Embedding of `min_cameras_forest_with_solution(n, edges, roots)`. -/
def min_cameras_forest_with_solution (n : Int) (edges : List (Int × Int))
    (roots : Option (List Int)) (fuel : Nat) : Except PyErr (Nat × Finset Int) := do
  let adj ← build_adj n edges
  let st ← (List.range n.toNat).foldlM (forestSolStep adj (rootFinset roots) fuel)
    ((∅ : Finset Int), (0 : Nat), (∅ : Finset Int))
  pure st.2

-- the module's `__main__` example: two path components, 2 cameras total
example : min_cameras_forest 6 [(0, 1), (1, 2), (3, 4), (4, 5)] none 7 = .ok 2 := by
  decide
example :
    min_cameras_forest_with_solution 6 [(0, 1), (1, 2), (3, 4), (4, 5)] none 7
      = .ok (2, ({1, 4} : Finset Int)) := by decide
-- C7 exploration: duplicating edge (1,2) on the path 0-1-2-3 changes the count
example : min_cameras_forest 4 [(0, 1), (1, 2), (2, 3)] none 5 = .ok 2 := by decide
example : min_cameras_forest 4 [(0, 1), (1, 2), (2, 3), (1, 2)] none 5 = .ok 3 := by
  decide
-- C4 exploration: negative n with no edges silently returns 0
example : min_cameras_forest (-5) [] none 0 = .ok 0 := by decide
-- C5 exploration: stack DFS discovers the star 0-1, 0-2 in order [0, 2, 1]
example : collect_component [[1, 2], [0], [0]] ∅ 0 = .ok ([0, 2, 1], {0, 1, 2}) := by
  decide

/-! ## Invalid-input behaviour of the forest solver -/

theorem adjAppend_ok_of_valid {adj : List (List Int)} {i x : Int}
    (hi : 0 ≤ i) (hilt : i < (adj.length : Int)) :
    adjAppend adj i x = .ok (adj.set i.toNat (adj.getD i.toNat [] ++ [x])) := by
  unfold adjAppend
  rw [pyIdx_nonneg hi hilt]

theorem adjAppend_err_of_ge {adj : List (List Int)} {i x : Int}
    (h : (adj.length : Int) ≤ i) :
    adjAppend adj i x = .error .indexError := by
  unfold adjAppend
  rw [pyIdx_none_of_ge h]

theorem adjStep_ok_of_valid {adj0 : List (List Int)} {e : Int × Int}
    (h1 : 0 ≤ e.1) (h2 : e.1 < (adj0.length : Int))
    (h3 : 0 ≤ e.2) (h4 : e.2 < (adj0.length : Int)) :
    ∃ adj1, adjStep adj0 e = .ok adj1 ∧ adj1.length = adj0.length := by
  unfold adjStep
  rw [adjAppend_ok_of_valid h1 h2, exceptBind_ok]
  rw [adjAppend_ok_of_valid h3 (by simpa using h4)]
  exact ⟨_, rfl, by simp⟩

theorem adjStep_err_of_oob {adj0 : List (List Int)} {e : Int × Int}
    (h1 : 0 ≤ e.1) (h3 : 0 ≤ e.2)
    (hbad : (adj0.length : Int) ≤ e.1 ∨ (adj0.length : Int) ≤ e.2) :
    adjStep adj0 e = .error .indexError := by
  unfold adjStep
  rcases Int.lt_or_le e.1 (adj0.length : Int) with hlt | hge
  · have hbad2 : (adj0.length : Int) ≤ e.2 := by
      rcases hbad with h | h
      · omega
      · exact h
    rw [adjAppend_ok_of_valid h1 hlt, exceptBind_ok]
    exact adjAppend_err_of_ge (by simpa using hbad2)
  · rw [adjAppend_err_of_ge hge]
    rfl

theorem foldlM_adjStep_err_of_oob : ∀ {edges : List (Int × Int)} {adj0 : List (List Int)},
    (∀ e ∈ edges, 0 ≤ e.1 ∧ 0 ≤ e.2) →
    (∃ e ∈ edges, (adj0.length : Int) ≤ e.1 ∨ (adj0.length : Int) ≤ e.2) →
    edges.foldlM adjStep adj0 = .error .indexError := by
  intro edges
  induction edges with
  | nil =>
    intro adj0 _ hbad
    simp at hbad
  | cons a l ih =>
    intro adj0 hpos hbad
    obtain ⟨ha1, ha2⟩ := hpos a (by simp)
    rw [List.foldlM_cons]
    by_cases hagood : a.1 < (adj0.length : Int) ∧ a.2 < (adj0.length : Int)
    · obtain ⟨adj1, hstep, hlen⟩ := adjStep_ok_of_valid ha1 hagood.1 ha2 hagood.2
      rw [hstep, exceptBind_ok]
      apply ih (fun e he => hpos e (by simp [he]))
      obtain ⟨e, he, hbade⟩ := hbad
      rcases List.mem_cons.mp he with rfl | he'
      · exfalso
        omega
      · exact ⟨e, he', by rw [hlen]; exact hbade⟩
    · push_neg at hagood
      have hb : (adj0.length : Int) ≤ a.1 ∨ (adj0.length : Int) ≤ a.2 := by
        by_cases h : a.1 < (adj0.length : Int)
        · exact Or.inr (hagood h)
        · omega
      rw [adjStep_err_of_oob ha1 ha2 hb]
      rfl

/-- With nonnegative ids and at least one id `≥ n`, `build_adj` (hence both
forest solvers) fails with an `IndexError`. -/
theorem build_adj_err_of_oob {n : Int} {edges : List (Int × Int)}
    (hpos : ∀ e ∈ edges, 0 ≤ e.1 ∧ 0 ≤ e.2)
    (hbad : ∃ e ∈ edges, n ≤ e.1 ∨ n ≤ e.2) :
    build_adj n edges = .error .indexError := by
  unfold build_adj
  apply foldlM_adjStep_err_of_oob hpos
  obtain ⟨e, he, hbade⟩ := hbad
  obtain ⟨hep1, hep2⟩ := hpos e he
  refine ⟨e, he, ?_⟩
  simp only [List.length_replicate]
  omega

theorem forest_err_of_oob {n : Int} {edges : List (Int × Int)}
    {roots : Option (List Int)} {fuel : Nat}
    (hpos : ∀ e ∈ edges, 0 ≤ e.1 ∧ 0 ≤ e.2)
    (hbad : ∃ e ∈ edges, n ≤ e.1 ∨ n ≤ e.2) :
    min_cameras_forest n edges roots fuel = .error .indexError := by
  unfold min_cameras_forest
  rw [build_adj_err_of_oob hpos hbad]
  rfl

theorem forest_sol_err_of_oob {n : Int} {edges : List (Int × Int)}
    {roots : Option (List Int)} {fuel : Nat}
    (hpos : ∀ e ∈ edges, 0 ≤ e.1 ∧ 0 ≤ e.2)
    (hbad : ∃ e ∈ edges, n ≤ e.1 ∨ n ≤ e.2) :
    min_cameras_forest_with_solution n edges roots fuel = .error .indexError := by
  unfold min_cameras_forest_with_solution
  rw [build_adj_err_of_oob hpos hbad]
  rfl

/-! ## The two dfs variants compute the same DP table -/

/-- Relation between the running states of the two child loops: same `dp`,
`base` and `gain`, and the recorded best child is present exactly when the
gain is finite. -/
def SimSt (st1 : List DpCell × ℕ∞ × ℕ∞)
    (st2 : (List DpCell × List (Option Int)) × ℕ∞ × ℕ∞ × Option Int) : Prop :=
  st1.1 = st2.1.1 ∧ st1.2.1 = st2.2.1 ∧ st1.2.2 = st2.2.2.1 ∧
    (st2.2.2.2 = none ↔ st2.2.2.1 = ⊤)

/-- Relation between the loop results. -/
def SimRes (x : Except PyErr (List DpCell × ℕ∞ × ℕ∞))
    (y : Except PyErr ((List DpCell × List (Option Int)) × ℕ∞ × ℕ∞ × Option Int)) :
    Prop :=
  match x, y with
  | .ok a, .ok b => SimSt a b
  | .error e, .error e' => e = e'
  | _, _ => False

theorem dfs1Step_sim
    {rec1 : List DpCell → Int → Int → Except PyErr (List DpCell)}
    {rec2 : List DpCell → List (Option Int) → Int → Int →
      Except PyErr (List DpCell × List (Option Int))}
    (hrec : ∀ dp bc c pa, rec1 dp c pa = (rec2 dp bc c pa).map Prod.fst)
    (kv : Nat) (parent v : Int) {st1 st2} (hst : SimSt st1 st2) (c : Int) :
    SimRes (dfs1Step rec1 kv parent v st1 c) (dfs2Step rec2 kv parent v st2 c) := by
  obtain ⟨hdp, hbase, hgain, hbest⟩ := hst
  unfold dfs1Step dfs2Step
  by_cases hcp : c = parent
  · rw [if_pos hcp, if_pos hcp]
    exact ⟨hdp, hbase, hgain, hbest⟩
  · rw [if_neg hcp, if_neg hcp, hdp, hrec st2.1.1 st2.1.2 c v]
    match hrec2 : rec2 st2.1.1 st2.1.2 c v with
    | .error e => exact rfl
    | .ok (dpA, bcA) =>
      simp only [Except.map, exceptBind_ok]
      match hkc : pyIdx dpA.length c with
      | none => exact rfl
      | some kc =>
        simp only [exceptBind_pure]
        rw [hbase, hgain]
        set cell := dpA.getD kc (0, 0, 0) with hcell
        set m01 := min cell.1 cell.2.1 with hm01
        set dpW := dpA.set kv
          ((dpA.getD kv (0, 0, 0)).1 + min cell.1 (min cell.2.1 cell.2.2),
            (dpA.getD kv (0, 0, 0)).2.1,
            (dpA.getD kv (0, 0, 0)).2.2 + m01) with hdpW
        set cg := (dpW.getD kc (0, 0, 0)).1 - m01 with hcg
        by_cases hlt : cg < st2.2.2.1
        · rw [if_pos hlt]
          refine ⟨rfl, rfl, ?_, ?_⟩
          · exact min_eq_right (le_of_lt hlt)
          · constructor
            · intro h
              exact absurd (show (some c : Option Int) = none from h) (by simp)
            · intro h
              have h' : cg = ⊤ := h
              rw [h'] at hlt
              exact absurd hlt (by simp)
        · rw [if_neg hlt]
          push_neg at hlt
          exact ⟨rfl, rfl, min_eq_left hlt, hbest⟩

theorem foldlM_sim
    {rec1 : List DpCell → Int → Int → Except PyErr (List DpCell)}
    {rec2 : List DpCell → List (Option Int) → Int → Int →
      Except PyErr (List DpCell × List (Option Int))}
    (hrec : ∀ dp bc c pa, rec1 dp c pa = (rec2 dp bc c pa).map Prod.fst)
    (kv : Nat) (parent v : Int) :
    ∀ (cs : List Int) {st1 st2}, SimSt st1 st2 →
    SimRes (cs.foldlM (dfs1Step rec1 kv parent v) st1)
      (cs.foldlM (dfs2Step rec2 kv parent v) st2) := by
  intro cs
  induction cs with
  | nil =>
    intro st1 st2 hst
    simpa [SimRes] using hst
  | cons c cs ih =>
    intro st1 st2 hst
    rw [List.foldlM_cons, List.foldlM_cons]
    have hstep := dfs1Step_sim hrec kv parent v hst c
    match h1 : dfs1Step rec1 kv parent v st1 c,
        h2 : dfs2Step rec2 kv parent v st2 c with
    | .error e, .error e' =>
      rw [h1, h2] at hstep
      have : e = e' := hstep
      subst this
      simp only [exceptBind_err]
      rfl
    | .ok a, .ok b =>
      rw [h1, h2] at hstep
      simp only [exceptBind_ok]
      exact ih hstep
    | .ok a, .error e' =>
      rw [h1, h2] at hstep
      exact absurd hstep (by simp [SimRes])
    | .error e, .ok b =>
      rw [h1, h2] at hstep
      exact absurd hstep (by simp [SimRes])

/-- The count-only dfs is the projection of the solution-tracking dfs:
both compute identical DP tables (and fail identically). -/
theorem dfs1_eq_dfs2 : ∀ (fuel : Nat) (adj : List (List Int)) (dp : List DpCell)
    (bc : List (Option Int)) (v parent : Int),
    dfs1 fuel adj dp v parent = (dfs2 fuel adj dp bc v parent).map Prod.fst := by
  intro fuel
  induction fuel with
  | zero => intro adj dp bc v parent; rfl
  | succ fuel ih =>
    intro adj dp bc v parent
    show dfs1 (fuel + 1) adj dp v parent = (dfs2 (fuel + 1) adj dp bc v parent).map Prod.fst
    unfold dfs1 dfs2
    match hkv : pyIdx dp.length v with
    | none => rfl
    | some kv =>
      simp only
      match hka : pyIdx adj.length v with
      | none =>
        simp only [exceptBind_err]
        rfl
      | some ka =>
        simp only [exceptBind_ok]
        have hsim := foldlM_sim (fun dp bc c pa => ih adj dp bc c pa) kv parent v
          (adj.getD ka [])
          (show SimSt (dp.set kv (1, ⊤, 0), (0 : ℕ∞), (⊤ : ℕ∞))
              ((dp.set kv (1, ⊤, 0), bc), (0 : ℕ∞), (⊤ : ℕ∞), none)
            from ⟨rfl, rfl, rfl, by simp⟩)
        match h1 : (adj.getD ka []).foldlM
            (dfs1Step (dfs1 fuel adj) kv parent v)
            (dp.set kv (1, ⊤, 0), (0 : ℕ∞), (⊤ : ℕ∞)),
          h2 : (adj.getD ka []).foldlM
            (dfs2Step (dfs2 fuel adj) kv parent v)
            ((dp.set kv (1, ⊤, 0), bc), (0 : ℕ∞), (⊤ : ℕ∞), none) with
        | .error e, .error e' =>
          rw [h1, h2] at hsim
          have : e = e' := hsim
          subst this
          simp only [exceptBind_err]
          rfl
        | .ok a, .ok b =>
          rw [h1, h2] at hsim
          obtain ⟨hdp, hbase, hgain, hbest⟩ := hsim
          simp only [exceptBind_ok]
          rcases a with ⟨dpa, basea, gaina⟩
          rcases b with ⟨⟨dpb, bcb⟩, baseb, gainb, bestb⟩
          simp only at hdp hbase hgain hbest
          subst hdp hbase hgain
          by_cases hg : gaina < ⊤
          · rw [if_pos hg]
            match hbb : bestb with
            | some cb => rfl
            | none =>
              exfalso
              have := hbest.mp rfl
              rw [this] at hg
              exact absurd hg (by simp)
          · rw [if_neg hg]
            have hgt : gaina = ⊤ := by
              rcases lt_or_eq_of_le (le_top : gaina ≤ ⊤) with h | h
              · exact absurd h hg
              · exact h
            match hbb : bestb with
            | none => rfl
            | some cb =>
              exfalso
              have := hbest.mpr hgt
              exact absurd this (by simp)
        | .ok a, .error e' =>
          rw [h1, h2] at hsim
          exact absurd hsim (by simp [SimRes])
        | .error e, .ok b =>
          rw [h1, h2] at hsim
          exact absurd hsim (by simp [SimRes])

/-! ## Finiteness of the S0/S2 fields (the `int(...)` conversion is safe) -/

/-- All states 0 and 2 in the table are finite (state 1 may be `inf`). -/
def Fin02 (dp : List DpCell) : Prop :=
  ∀ cell ∈ dp, cell.1 ≠ ⊤ ∧ cell.2.2 ≠ ⊤

theorem getD_mem {xs : List α} {k : Nat} (hk : k < xs.length) (d : α) :
    xs.getD k d ∈ xs := by
  rw [List.getD_eq_getElem?_getD, List.getElem?_eq_getElem hk]
  exact List.getElem_mem hk

theorem fin02_set {dp : List DpCell} {k : Nat} {cell : DpCell}
    (h : Fin02 dp) (h1 : cell.1 ≠ ⊤) (h2 : cell.2.2 ≠ ⊤) :
    Fin02 (dp.set k cell) := by
  intro c hc
  rcases List.mem_or_eq_of_mem_set hc with hcd | rfl
  · exact h c hcd
  · exact ⟨h1, h2⟩

theorem fin02_getD {dp : List DpCell} (h : Fin02 dp) (k : Nat) :
    (dp.getD k (0, 0, 0)).1 ≠ ⊤ ∧ (dp.getD k (0, 0, 0)).2.2 ≠ ⊤ := by
  rcases Nat.lt_or_ge k dp.length with hk | hk
  · exact h _ (getD_mem hk _)
  · rw [List.getD_eq_getElem?_getD, List.getElem?_eq_none (by omega)]
    simp

theorem dfs2_fin02 : ∀ {fuel : Nat} {adj : List (List Int)} {dp : List DpCell}
    {bc : List (Option Int)} {v parent : Int} {dp' : List DpCell} {bc' : List (Option Int)},
    dfs2 fuel adj dp bc v parent = .ok (dp', bc') → Fin02 dp → Fin02 dp' := by
  intro fuel
  induction fuel with
  | zero =>
    intro adj dp bc v parent dp' bc' h
    exact absurd h (by simp [dfs2])
  | succ fuel ih =>
    intro adj dp bc v parent dp' bc' h hfin
    unfold dfs2 at h
    match hkv : pyIdx dp.length v with
    | none => rw [hkv] at h; exact absurd h (by simp)
    | some kv =>
      rw [hkv] at h
      simp only at h
      match hka : pyIdx adj.length v with
      | none =>
        rw [hka] at h
        exact absurd h (by simp [exceptBind_err])
      | some ka =>
        rw [hka] at h
        simp only at h
        rw [exceptBind_ok] at h
        have hfold : ∀ (cs : List Int)
            (st : (List DpCell × List (Option Int)) × ℕ∞ × ℕ∞ × Option Int)
            (st' : (List DpCell × List (Option Int)) × ℕ∞ × ℕ∞ × Option Int),
            cs.foldlM (dfs2Step (dfs2 fuel adj) kv parent v) st
              = .ok st' →
            Fin02 st.1.1 → Fin02 st'.1.1 := by
          intro cs
          induction cs with
          | nil =>
            intro st st' hfold hf
            have h' : (Except.ok st : Except PyErr _) = .ok st' := hfold
            simp only [Except.ok.injEq] at h'
            subst h'
            exact hf
          | cons c cs ihc =>
            intro st st' hfold hf
            rw [List.foldlM_cons] at hfold
            match hstep : dfs2Step (dfs2 fuel adj)
                kv parent v st c with
            | .error e =>
              rw [hstep] at hfold
              exact absurd hfold (by simp [exceptBind_err])
            | .ok stm =>
              rw [hstep, exceptBind_ok] at hfold
              refine ihc stm st' hfold ?_
              unfold dfs2Step at hstep
              split at hstep
              · have heq : st = stm := exceptPure_ok_inj hstep
                subst heq
                exact hf
              · match hrec : dfs2 fuel adj st.1.1 st.1.2 c v with
                | .error e =>
                  rw [hrec] at hstep
                  exact absurd hstep (by simp [exceptBind_err])
                | .ok (dpA, bcA) =>
                  rw [hrec, exceptBind_ok] at hstep
                  simp only [] at hstep
                  have hfinA : Fin02 dpA := ih hrec hf
                  match hkc : pyIdx dpA.length c with
                  | none =>
                    rw [hkc] at hstep
                    exact absurd hstep (by simp [exceptBind_err])
                  | some kc =>
                    rw [hkc] at hstep
                    simp only [exceptBind_pure] at hstep
                    obtain ⟨hc1, hc2⟩ := fin02_getD hfinA kc
                    obtain ⟨hv1, hv2⟩ := fin02_getD hfinA kv
                    have hset : Fin02 (dpA.set kv
                        ((dpA.getD kv (0, 0, 0)).1 +
                          min (dpA.getD kc (0, 0, 0)).1
                            (min (dpA.getD kc (0, 0, 0)).2.1 (dpA.getD kc (0, 0, 0)).2.2),
                          (dpA.getD kv (0, 0, 0)).2.1,
                          (dpA.getD kv (0, 0, 0)).2.2 +
                            min (dpA.getD kc (0, 0, 0)).1 (dpA.getD kc (0, 0, 0)).2.1)) := by
                      apply fin02_set hfinA
                      · rw [WithTop.add_ne_top]
                        refine ⟨hv1, ?_⟩
                        intro hc
                        exact hc1 (top_le_iff.mp (hc ▸ min_le_left _ _ : (⊤ : ℕ∞) ≤ _))
                      · rw [WithTop.add_ne_top]
                        refine ⟨hv2, ?_⟩
                        intro hc
                        exact hc1 (top_le_iff.mp (hc ▸ min_le_left _ _ : (⊤ : ℕ∞) ≤ _))
                    split at hstep
                    · have heq := exceptPure_ok_inj hstep
                      rw [← heq]
                      exact hset
                    · have heq := exceptPure_ok_inj hstep
                      rw [← heq]
                      exact hset
        match hf2 : (adj.getD ka []).foldlM
            (dfs2Step (dfs2 fuel adj) kv parent v)
            ((dp.set kv (1, ⊤, 0), bc), (0 : ℕ∞), (⊤ : ℕ∞), none) with
        | .error e =>
          rw [hf2] at h
          exact absurd h (by simp [exceptBind_err])
        | .ok st' =>
          rw [hf2, exceptBind_ok] at h
          have hst' : Fin02 st'.1.1 := by
            apply hfold _ _ _ hf2
            exact fin02_set hfin (by simp) (by simp)
          rcases st' with ⟨⟨dpf, bcf⟩, basef, gainf, bestf⟩
          simp only at hst' h
          match bestf with
          | some cb =>
            have h' := exceptPure_ok_inj h
            injection h' with hA hB
            rw [← hA]
            obtain ⟨hf1, hf2'⟩ := fin02_getD hst' kv
            exact fin02_set hst' hf1 hf2'
          | none =>
            have h' := exceptPure_ok_inj h
            injection h' with hA hB
            rw [← hA]
            exact hst'

/-- On any input where both tree solvers succeed, the count returned by
`min_cameras_for_tree` is the count of `min_cameras_for_tree_with_solution`. -/
theorem tree_count_eq {adj : List (List Int)} {root : Int} {fuel : Nat} {t : ℕ∞}
    {c : Nat} {S : Finset Int}
    (h1 : min_cameras_for_tree adj root fuel = .ok t)
    (h2 : min_cameras_for_tree_with_solution adj root fuel = .ok (c, S)) :
    t = (c : ℕ∞) := by
  unfold min_cameras_for_tree at h1
  unfold min_cameras_for_tree_with_solution at h2
  have hsim := dfs1_eq_dfs2 fuel adj
    (List.replicate adj.length ((0 : ℕ∞), (0 : ℕ∞), (0 : ℕ∞)))
    (List.replicate adj.length none) root (-1)
  match hdfs2 : dfs2 fuel adj
      (List.replicate adj.length ((0 : ℕ∞), (0 : ℕ∞), (0 : ℕ∞)))
      (List.replicate adj.length none) root (-1) with
  | .error e =>
    rw [hdfs2] at h2
    exact absurd h2 (by simp [exceptBind_err])
  | .ok (dpr, bcr) =>
    rw [hdfs2] at hsim h2
    have hdfs1 : dfs1 fuel adj
        (List.replicate adj.length ((0 : ℕ∞), (0 : ℕ∞), (0 : ℕ∞))) root (-1)
        = .ok dpr := by
      rw [hsim]
      rfl
    rw [hdfs1, exceptBind_ok] at h1
    rw [exceptBind_ok] at h2
    simp only [] at h2
    match hkr : pyIdx dpr.length root with
    | none =>
      rw [hkr] at h1
      exact absurd h1 (by simp)
    | some kr =>
      rw [hkr] at h1 h2
      simp only [] at h1 h2
      have ht : t = min (dpr.getD kr (0, 0, 0)).1 (dpr.getD kr (0, 0, 0)).2.1 :=
        (exceptPure_ok_inj h1).symm
      match hrec : recon fuel adj dpr bcr root (-1)
          (argmin_state (dpr.getD kr (0, 0, 0)) [0, 1]) ∅ with
      | .error e =>
        rw [hrec] at h2
        exact absurd h2 (by simp [exceptBind_err])
      | .ok cams =>
        rw [hrec, exceptBind_ok] at h2
        have h2' := exceptPure_ok_inj h2
        injection h2' with hc hS
        have hfin : Fin02 dpr := by
          apply dfs2_fin02 hdfs2
          intro cell hcell
          rcases List.eq_of_mem_replicate hcell with rfl
          simp
        obtain ⟨hf1, -⟩ := fin02_getD hfin kr
        have hne : min (dpr.getD kr (0, 0, 0)).1 (dpr.getD kr (0, 0, 0)).2.1 ≠ ⊤ := by
          intro hc'
          exact hf1 (top_le_iff.mp (hc' ▸ min_le_left _ _ : (⊤ : ℕ∞) ≤ _))
        rw [ht, ← hc]
        exact (ENat.coe_toNat hne).symm

/-- C8 driver-level relation between the two forest entry points. -/
theorem forest_fold_count_eq {adj : List (List Int)} {rs : Finset Int} {fuel : Nat} :
    ∀ (vs : List Nat) (st1 : Finset Int × ℕ∞) (st2 : Finset Int × Nat × Finset Int),
    st1.1 = st2.1 → st1.2 = (st2.2.1 : ℕ∞) →
    ∀ out1 out2, vs.foldlM (forestStep adj rs fuel) st1 = .ok out1 →
      vs.foldlM (forestSolStep adj rs fuel) st2 = .ok out2 →
      out1.1 = out2.1 ∧ out1.2 = (out2.2.1 : ℕ∞) := by
  intro vs
  induction vs with
  | nil =>
    intro st1 st2 hseen hcnt out1 out2 h1 h2
    have e1 := exceptPure_ok_inj h1
    have e2 := exceptPure_ok_inj h2
    subst e1 e2
    exact ⟨hseen, hcnt⟩
  | cons v vs ih =>
    intro st1 st2 hseen hcnt out1 out2 h1 h2
    rw [List.foldlM_cons] at h1 h2
    unfold forestStep at h1
    unfold forestSolStep at h2
    rw [hseen] at h1
    by_cases hv : ((v : Int)) ∈ st2.1
    · rw [if_pos hv] at h1 h2
      rw [exceptBind_pure] at h1 h2
      exact ih st1 st2 hseen hcnt out1 out2 h1 h2
    · rw [if_neg hv] at h1 h2
      match hcs : collect_component adj st2.1 (v : Int) with
      | .error e =>
        rw [hcs] at h1
        exact absurd h1 (by simp [exceptBind_err])
      | .ok cs =>
        rw [hcs, exceptBind_ok] at h1 h2
        match hroot : chooseRoot rs cs.1 with
        | .error e =>
          rw [hroot] at h1
          exact absurd h1 (by simp [exceptBind_err])
        | .ok root =>
          rw [hroot, exceptBind_ok] at h1 h2
          match htree : min_cameras_for_tree adj root fuel with
          | .error e =>
            rw [htree] at h1
            exact absurd h1 (by simp [exceptBind_err])
          | .ok cnt =>
            rw [htree, exceptBind_ok] at h1
            match hsol : min_cameras_for_tree_with_solution adj root fuel with
            | .error e =>
              rw [hsol] at h2
              exact absurd h2 (by simp [exceptBind_err])
            | .ok res =>
              rw [hsol, exceptBind_ok] at h2
              rw [exceptBind_pure] at h1 h2
              have hcc : cnt = (res.1 : ℕ∞) := tree_count_eq htree
                (by rw [hsol])
              refine ih _ _ rfl ?_ out1 out2 h1 h2
              show st1.2 + cnt = ((st2.2.1 + res.1 : Nat) : ℕ∞)
              rw [hcnt, hcc]
              push_cast
              ring

/-- Whenever both forest entry points succeed on the same input, the
count-only result equals the count of the solution-returning result. -/
theorem forest_count_eq {n : Int} {edges : List (Int × Int)}
    {roots : Option (List Int)} {fuel : Nat} {t : ℕ∞} {c : Nat} {S : Finset Int}
    (h1 : min_cameras_forest n edges roots fuel = .ok t)
    (h2 : min_cameras_forest_with_solution n edges roots fuel = .ok (c, S)) :
    t = (c : ℕ∞) := by
  unfold min_cameras_forest at h1
  unfold min_cameras_forest_with_solution at h2
  match hadj : build_adj n edges with
  | .error e =>
    rw [hadj] at h1
    exact absurd h1 (by simp [exceptBind_err])
  | .ok adj =>
    rw [hadj, exceptBind_ok] at h1 h2
    match hf1 : (List.range n.toNat).foldlM (forestStep adj (rootFinset roots) fuel)
        ((∅ : Finset Int), (0 : ℕ∞)) with
    | .error e =>
      rw [hf1] at h1
      exact absurd h1 (by simp [exceptBind_err])
    | .ok out1 =>
      match hf2 : (List.range n.toNat).foldlM (forestSolStep adj (rootFinset roots) fuel)
          ((∅ : Finset Int), (0 : Nat), (∅ : Finset Int)) with
      | .error e =>
        rw [hf2] at h2
        exact absurd h2 (by simp [exceptBind_err])
      | .ok out2 =>
        rw [hf1, exceptBind_ok] at h1
        rw [hf2, exceptBind_ok] at h2
        obtain ⟨-, hcount⟩ := forest_fold_count_eq (List.range n.toNat)
          ((∅ : Finset Int), (0 : ℕ∞)) ((∅ : Finset Int), (0 : Nat), (∅ : Finset Int))
          rfl (by simp) out1 out2 hf1 hf2
        have e1 := exceptPure_ok_inj h1
        have e2 := exceptPure_ok_inj h2
        rw [← e1, hcount, e2]

/-! ## Counting specification of `build_adj` -/

theorem adjAppend_ok_count {adj : List (List Int)} {i : Nat} {x : Int}
    (hi : i < adj.length) :
    adjAppend adj (i : Int) x = .ok (adj.set i (adj.getD i [] ++ [x])) := by
  unfold adjAppend
  rw [pyIdx_nonneg (by omega) (by exact_mod_cast hi)]
  rfl

theorem count_concat (xs : List Int) (x w : Int) :
    (xs ++ [x]).count w = xs.count w + (if w = x then 1 else 0) := by
  rw [List.count_append]
  rcases eq_or_ne w x with rfl | h
  · simp
  · simp [List.count_cons, h, Ne.symm h]

/-- Effect of one `adjStep` on entry counts: appends `↑b` to `adj[a]` and
then `↑a` to `adj[b]`. -/
theorem adjStep_count {adj : List (List Int)} {a b : Nat}
    (ha : a < adj.length) (hb : b < adj.length) :
    ∃ adj', adjStep adj ((a : Int), (b : Int)) = .ok adj' ∧
      adj'.length = adj.length ∧
      ∀ u : Nat, u < adj.length → ∀ w : Int,
        (adj'.getD u []).count w = (adj.getD u []).count w
          + (if u = a ∧ w = (b : Int) then 1 else 0)
          + (if u = b ∧ w = (a : Int) then 1 else 0) := by
  unfold adjStep
  rw [adjAppend_ok_count ha, exceptBind_ok]
  have hlen1 : (adj.set a (adj.getD a [] ++ [(b : Int)])).length = adj.length := by simp
  rw [show ((b : Int)) = ((b : Nat) : Int) from rfl,
    adjAppend_ok_count (by rw [hlen1]; exact hb)]
  refine ⟨_, rfl, by simp, ?_⟩
  intro u hu w
  set adj1 := adj.set a (adj.getD a [] ++ [(b : Int)]) with hadj1
  have key1 : ∀ u : Nat, u < adj.length → ∀ w : Int,
      (adj1.getD u []).count w = (adj.getD u []).count w
        + (if u = a ∧ w = (b : Int) then 1 else 0) := by
    intro u hu w
    rw [hadj1, getD_set]
    by_cases hua : a = u
    · subst hua
      rw [if_pos ⟨rfl, ha⟩, count_concat]
      by_cases hwb : w = (b : Int)
      · rw [if_pos hwb, if_pos ⟨rfl, hwb⟩]
      · rw [if_neg hwb, if_neg (by intro hc; exact hwb hc.2)]
    · rw [if_neg (by intro hc; exact hua hc.1)]
      rw [if_neg (by intro hc; exact hua hc.1.symm)]
      omega
  have key2 : ∀ u : Nat, u < adj.length → ∀ w : Int,
      ((adj1.set b (adj1.getD b [] ++ [(a : Int)])).getD u []).count w
        = (adj1.getD u []).count w + (if u = b ∧ w = (a : Int) then 1 else 0) := by
    intro u hu w
    rw [getD_set]
    by_cases hub : b = u
    · subst hub
      rw [if_pos ⟨rfl, by rw [hlen1]; exact hb⟩, count_concat]
      by_cases hwa : w = (a : Int)
      · rw [if_pos hwa, if_pos ⟨rfl, hwa⟩]
      · rw [if_neg hwa, if_neg (by intro hc; exact hwa hc.2)]
    · rw [if_neg (by intro hc; exact hub hc.1)]
      rw [if_neg (by intro hc; exact hub hc.1.symm)]
      omega
  rw [key2 u hu w, key1 u hu w]

/-- Full counting specification of `build_adj` on valid natural edges. -/
theorem build_adj_count_fold {n : Nat} : ∀ (en : List (Nat × Nat)) (adj0 : List (List Int)),
    adj0.length = n → (∀ e ∈ en, e.1 < n ∧ e.2 < n) →
    ∃ adj, (en.map (fun e => ((e.1 : Int), (e.2 : Int)))).foldlM adjStep adj0 = .ok adj ∧
      adj.length = n ∧
      ∀ u : Nat, u < n → ∀ w : Int,
        (adj.getD u []).count w = (adj0.getD u []).count w
          + (en.countP (fun e => decide (u = e.1 ∧ w = (e.2 : Int))))
          + (en.countP (fun e => decide (u = e.2 ∧ w = (e.1 : Int)))) := by
  intro en
  induction en with
  | nil =>
    intro adj0 hlen _
    exact ⟨adj0, rfl, hlen, by simp⟩
  | cons e en ih =>
    intro adj0 hlen hval
    obtain ⟨h1, h2⟩ := hval e (by simp)
    rcases e with ⟨a, b⟩
    simp only at h1 h2
    obtain ⟨adj1, hstep, hlen1, hcount1⟩ := @adjStep_count adj0 a b (by omega) (by omega)
    obtain ⟨adj, hfold, hlenf, hcountf⟩ := ih adj1 (by omega)
      (fun e he => hval e (by simp [he]))
    refine ⟨adj, ?_, hlenf, ?_⟩
    · simp only [List.map_cons, List.foldlM_cons, hstep, exceptBind_ok]
      exact hfold
    · intro u hu w
      rw [hcountf u hu w, hcount1 u (by omega) w]
      simp only [List.countP_cons, decide_eq_true_eq]
      omega

/-! ## Rooted-forest structure: the forest-input hypothesis

A forest (every component acyclic, no parallel edges, no self-loops) is
characterized by a rooted orientation: each vertex has an optional parent,
a depth function strictly decreases along parent links (excluding all
cycles), and the edge list is exactly the set of parent links, each
occurring once. -/

/-- The edge list of a forest, witnessed by a rooted orientation given by
parent and depth tables. -/
def IsForest (n : Nat) (en : List (Nat × Nat)) : Prop :=
  ∃ parL : List (Option Nat), ∃ depthL : List Nat,
    parL.length = n ∧ depthL.length = n ∧
    (∀ v, v < n → ∀ p, parL.getD v none = some p →
      p < n ∧ depthL.getD p 0 < depthL.getD v 0) ∧
    (∀ e ∈ en, e.1 ≠ e.2) ∧
    (∀ a b : Nat, a < n → b < n → a ≠ b →
      en.count (a, b) + en.count (b, a)
        = (if parL.getD a none = some b ∨ parL.getD b none = some a then 1 else 0))

/-- Undirected adjacency of the rooted forest: one endpoint is the
other's parent. -/
def link (par : Nat → Option Nat) (a b : Nat) : Prop :=
  par a = some b ∨ par b = some a

theorem link_symm {par : Nat → Option Nat} {a b : Nat} (h : link par a b) :
    link par b a := h.symm

/-- `Anc par u a`: `a` is an ancestor of `u` (or `u` itself) along parent
links. -/
inductive Anc (par : Nat → Option Nat) : Nat → Nat → Prop where
  | refl (x : Nat) : Anc par x x
  | step {x p y : Nat} : par x = some p → Anc par p y → Anc par x y

theorem anc_trans {par : Nat → Option Nat} {x y z : Nat}
    (h1 : Anc par x y) (h2 : Anc par y z) : Anc par x z := by
  induction h1 with
  | refl => exact h2
  | step hp _ ih => exact Anc.step hp (ih h2)

theorem anc_depth {par : Nat → Option Nat} {depth : Nat → Nat}
    (hpd : ∀ v p, par v = some p → depth p < depth v) {x y : Nat}
    (h : Anc par x y) : depth y ≤ depth x := by
  induction h with
  | refl => exact Nat.le_refl _
  | step hp _ ih => exact Nat.le_trans ih (Nat.le_of_lt (hpd _ _ hp))

theorem anc_depth_strict {par : Nat → Option Nat} {depth : Nat → Nat}
    (hpd : ∀ v p, par v = some p → depth p < depth v) {x y : Nat}
    (h : Anc par x y) (hne : x ≠ y) : depth y < depth x := by
  cases h with
  | refl => exact absurd rfl hne
  | step hp h' => exact Nat.lt_of_le_of_lt (anc_depth hpd h') (hpd _ _ hp)

theorem anc_antisymm {par : Nat → Option Nat} {depth : Nat → Nat}
    (hpd : ∀ v p, par v = some p → depth p < depth v) {x y : Nat}
    (h1 : Anc par x y) (h2 : Anc par y x) : x = y := by
  by_contra hne
  have d1 := anc_depth_strict hpd h1 hne
  have d2 := anc_depth_strict hpd h2 (Ne.symm hne)
  omega

theorem anc_of_par {par : Nat → Option Nat} {v p : Nat} (h : par v = some p) :
    Anc par v p := Anc.step h (Anc.refl p)

theorem anc_linear {par : Nat → Option Nat} {u a b : Nat}
    (h1 : Anc par u a) (h2 : Anc par u b) : Anc par a b ∨ Anc par b a := by
  induction h1 with
  | refl => exact Or.inl h2
  | step hp hrest ih =>
    rename_i x p y
    cases h2 with
    | refl => exact Or.inr (Anc.step hp hrest)
    | step hp' h2' =>
      rw [hp] at hp'
      injection hp' with he
      subst he
      exact ih h2'

/-- Peeling the last step of a nontrivial ancestor chain. -/
theorem anc_last_step {par : Nat → Option Nat} {u v : Nat}
    (h : Anc par u v) (hne : u ≠ v) :
    ∃ c, Anc par u c ∧ par c = some v := by
  induction h with
  | refl => exact absurd rfl hne
  | step hp hrest ih =>
    rename_i x p y
    rcases eq_or_ne p y with rfl | hpy
    · exact ⟨x, Anc.refl x, hp⟩
    · obtain ⟨c, hc1, hc2⟩ := ih hpy
      exact ⟨c, Anc.step hp hc1, hc2⟩

theorem anc_root {par : Nat → Option Nat} {u a : Nat} (hu : par u = none)
    (h : Anc par u a) : a = u := by
  cases h with
  | refl => rfl
  | step hp _ => rw [hu] at hp; exact absurd hp (by simp)

/-- Same tree: a common ancestor exists. -/
def SameTree (par : Nat → Option Nat) (u v : Nat) : Prop :=
  ∃ a, Anc par u a ∧ Anc par v a

theorem sameTree_refl (par : Nat → Option Nat) (u : Nat) : SameTree par u u :=
  ⟨u, Anc.refl u, Anc.refl u⟩

theorem sameTree_symm {par : Nat → Option Nat} {u v : Nat}
    (h : SameTree par u v) : SameTree par v u := by
  obtain ⟨a, h1, h2⟩ := h
  exact ⟨a, h2, h1⟩

theorem sameTree_of_anc {par : Nat → Option Nat} {u v : Nat}
    (h : Anc par u v) : SameTree par u v := ⟨v, h, Anc.refl v⟩

theorem sameTree_trans {par : Nat → Option Nat} {u v w : Nat}
    (h1 : SameTree par u v) (h2 : SameTree par v w) : SameTree par u w := by
  obtain ⟨a, ha1, ha2⟩ := h1
  obtain ⟨b, hb1, hb2⟩ := h2
  rcases anc_linear hb1 ha2 with h | h
  · exact ⟨a, ha1, anc_trans hb2 h⟩
  · exact ⟨b, anc_trans ha1 h, hb2⟩

theorem sameTree_of_link {par : Nat → Option Nat} {u v : Nat}
    (h : link par u v) : SameTree par u v := by
  rcases h with h | h
  · exact sameTree_of_anc (anc_of_par h)
  · exact sameTree_symm (sameTree_of_anc (anc_of_par h))

/-- The vertex set explored by a dfs call on `v` whose parent argument is
`po` (`none` for the root call): the subtree hanging from `v` away from
`po`.  When `v` is a `par`-child of `po` this is the set of descendants of
`v`; otherwise it is the rest of the tree, excluding everything at or
below `po`. -/
def SubP (par : Nat → Option Nat) (v : Nat) (po : Option Nat) (u : Nat) : Prop :=
  match po with
  | none => SameTree par v u
  | some p =>
    (par v = some p ∧ Anc par u v) ∨
    (par v ≠ some p ∧ SameTree par v u ∧ ¬ Anc par u p)

/-- A semantic child of the call `(v, po)`: a neighbour other than the
parent argument. -/
def ChildOf (par : Nat → Option Nat) (v : Nat) (po : Option Nat) (c : Nat) : Prop :=
  link par v c ∧ some c ≠ po

theorem par_ne_self {par : Nat → Option Nat} {depth : Nat → Nat}
    (hpd : ∀ v p, par v = some p → depth p < depth v) {v : Nat} :
    par v ≠ some v := by
  intro h
  exact absurd (hpd v v h) (lt_irrefl _)

theorem not_anc_of_par {par : Nat → Option Nat} {depth : Nat → Nat}
    (hpd : ∀ v p, par v = some p → depth p < depth v) {v p : Nat}
    (hp : par v = some p) : ¬ Anc par p v := by
  intro h
  have h1 := anc_depth hpd h
  have h2 := hpd _ _ hp
  omega

/-- The call vertex belongs to its own subtree. -/
theorem subP_self {par : Nat → Option Nat} {depth : Nat → Nat}
    (hpd : ∀ v p, par v = some p → depth p < depth v) (v : Nat) (po : Option Nat)
    (hpo : ∀ p, po = some p → link par v p) : SubP par v po v := by
  match po with
  | none => exact sameTree_refl par v
  | some p =>
    by_cases hvp : par v = some p
    · exact Or.inl ⟨hvp, Anc.refl v⟩
    · refine Or.inr ⟨hvp, sameTree_refl par v, ?_⟩
      rcases hpo p rfl with h | h
      · exact absurd h hvp
      · exact not_anc_of_par hpd h

/-- Unfolding `SubP c (some v)` when `c` is a `par`-child of `v`. -/
theorem subP_child_down {par : Nat → Option Nat} {c v : Nat}
    (hc : par c = some v) (u : Nat) :
    SubP par c (some v) u ↔ Anc par u c := by
  constructor
  · rintro (⟨_, h⟩ | ⟨hne, _, _⟩)
    · exact h
    · exact absurd hc hne
  · intro h
    exact Or.inl ⟨hc, h⟩

/-- Unfolding `SubP c (some v)` when `v` is a `par`-child of `c` (the dfs
walked "up" the orientation). -/
theorem subP_child_up {par : Nat → Option Nat} {depth : Nat → Nat}
    (hpd : ∀ v p, par v = some p → depth p < depth v) {c v : Nat}
    (hc : par v = some c) (u : Nat) :
    SubP par c (some v) u ↔ (SameTree par c u ∧ ¬ Anc par u v) := by
  have hcv : par c ≠ some v := by
    intro h
    have h1 := hpd _ _ hc
    have h2 := hpd _ _ h
    omega
  constructor
  · rintro (⟨h, _⟩ | ⟨_, h1, h2⟩)
    · exact absurd h hcv
    · exact ⟨h1, h2⟩
  · intro h
    exact Or.inr ⟨hcv, h.1, h.2⟩

/-- A child's subtree sits inside the caller's subtree and avoids the
caller. -/
theorem subP_child_subset {par : Nat → Option Nat} {depth : Nat → Nat}
    (hpd : ∀ v p, par v = some p → depth p < depth v) {v : Nat} {po : Option Nat}
    (hpo : ∀ p, po = some p → link par v p) {c : Nat}
    (hch : ChildOf par v po c) {u : Nat} (hu : SubP par c (some v) u) :
    SubP par v po u ∧ u ≠ v := by
  obtain ⟨hlink, hcpo⟩ := hch
  rcases hlink with hvc | hcv
  · -- par v = some c : upward child
    rw [subP_child_up hpd hvc] at hu
    obtain ⟨hst, hnanc⟩ := hu
    have hstvu : SameTree par v u :=
      sameTree_trans (sameTree_of_link (Or.inl hvc)) hst
    have hne : u ≠ v := by
      rintro rfl
      exact hnanc (Anc.refl u)
    refine ⟨?_, hne⟩
    match po with
    | none => exact hstvu
    | some p =>
      have hlp := hpo p rfl
      by_cases hvp : par v = some p
      · -- then p = c, contradicting `some c ≠ po`
        rw [hvc] at hvp
        injection hvp with he
        exact absurd (by rw [he]) hcpo
      · refine Or.inr ⟨hvp, hstvu, ?_⟩
        intro hup
        rcases hlp with h | h
        · exact absurd h hvp
        · exact hnanc (anc_trans hup (anc_of_par h))
  · -- par c = some v : downward child
    rw [subP_child_down hcv] at hu
    have hanc_uv : Anc par u v := anc_trans hu (anc_of_par hcv)
    have hne : u ≠ v := by
      rintro rfl
      have := anc_depth hpd hu
      have := hpd _ _ hcv
      omega
    refine ⟨?_, hne⟩
    match po with
    | none => exact sameTree_symm (sameTree_of_anc hanc_uv)
    | some p =>
      have hlp := hpo p rfl
      by_cases hvp : par v = some p
      · exact Or.inl ⟨hvp, hanc_uv⟩
      · refine Or.inr ⟨hvp, sameTree_symm (sameTree_of_anc hanc_uv), ?_⟩
        intro hup
        have hpv : par p = some v := by
          rcases hlp with h | h
          · exact absurd h hvp
          · exact h
        rcases anc_linear hup hu with h | h
        · -- Anc p c: then Anc v c through par p = some v unless p = c
          rcases eq_or_ne p c with rfl | hpc
          · exact hcpo rfl
          · cases h with
            | refl => exact hpc rfl
            | step hp h' =>
              rw [hpv] at hp
              injection hp with he
              subst he
              have h1 := anc_depth hpd h'
              have h2 := hpd _ _ hcv
              omega
        · -- Anc c p: then Anc v p via par c = some v, contradicting depths
          rcases eq_or_ne c p with rfl | hcp
          · exact hcpo rfl
          · cases h with
            | refl => exact hcp rfl
            | step hp h' =>
              rw [hcv] at hp
              injection hp with he
              subst he
              have h1 := anc_depth hpd h'
              have h2 := hpd _ _ hpv
              omega

/-- Subtrees of distinct children are disjoint. -/
theorem subP_children_disjoint {par : Nat → Option Nat} {depth : Nat → Nat}
    (hpd : ∀ v p, par v = some p → depth p < depth v) {v : Nat} {po : Option Nat}
    {c₁ c₂ : Nat} (h₁ : ChildOf par v po c₁) (h₂ : ChildOf par v po c₂)
    (hne : c₁ ≠ c₂) {u : Nat}
    (hu₁ : SubP par c₁ (some v) u) (hu₂ : SubP par c₂ (some v) u) : False := by
  rcases h₁.1 with hd₁ | hc₁ <;> rcases h₂.1 with hd₂ | hc₂
  · -- par v = some c₁ and par v = some c₂ force c₁ = c₂
    rw [hd₁] at hd₂
    injection hd₂ with he
    exact hne he
  · -- c₂ is a downward child, c₁ upward: Anc u c₂ gives Anc u v
    rw [subP_child_up hpd hd₁] at hu₁
    rw [subP_child_down hc₂] at hu₂
    exact hu₁.2 (anc_trans hu₂ (anc_of_par hc₂))
  · rw [subP_child_down hc₁] at hu₁
    rw [subP_child_up hpd hd₂] at hu₂
    exact hu₂.2 (anc_trans hu₁ (anc_of_par hc₁))
  · -- both downward: two incomparable children cannot share a descendant
    rw [subP_child_down hc₁] at hu₁
    rw [subP_child_down hc₂] at hu₂
    rcases anc_linear hu₁ hu₂ with h | h
    · rcases eq_or_ne c₁ c₂ with rfl | hc
      · exact hne rfl
      · cases h with
        | refl => exact hne rfl
        | step hp h' =>
          rw [hc₁] at hp
          injection hp with he
          subst he
          have h1 := anc_depth hpd h'
          have h2 := hpd _ _ hc₂
          omega
    · rcases eq_or_ne c₂ c₁ with rfl | hc
      · exact hne rfl
      · cases h with
        | refl => exact hne rfl
        | step hp h' =>
          rw [hc₂] at hp
          injection hp with he
          subst he
          have h1 := anc_depth hpd h'
          have h2 := hpd _ _ hc₁
          omega

/-- Every subtree member other than the call vertex lies in the subtree of
exactly one child. -/
theorem subP_cover {par : Nat → Option Nat} {depth : Nat → Nat}
    (hpd : ∀ v p, par v = some p → depth p < depth v) {v : Nat} {po : Option Nat}
    (hpo : ∀ p, po = some p → link par v p) {u : Nat}
    (hu : SubP par v po u) (hne : u ≠ v) :
    ∃ c, ChildOf par v po c ∧ SubP par c (some v) u := by
  match po with
  | none =>
    -- hu : SameTree par v u
    by_cases hanc : Anc par u v
    · obtain ⟨c, hc1, hc2⟩ := anc_last_step hanc hne
      exact ⟨c, ⟨Or.inr hc2, by simp⟩, (subP_child_down hc2 u).mpr hc1⟩
    · -- v is not an ancestor target of u; walk up from v
      match hv : par v with
      | none =>
        obtain ⟨a, ha1, ha2⟩ := hu
        have := anc_root hv ha1
        subst this
        exact absurd ha2 hanc
      | some c =>
        refine ⟨c, ⟨Or.inl hv, by simp⟩, ?_⟩
        rw [subP_child_up hpd hv]
        exact ⟨sameTree_trans (sameTree_symm (sameTree_of_link (Or.inl hv)))
          (show SameTree par v u from hu), hanc⟩
  | some p =>
    by_cases hvp : par v = some p
    · -- downward call: subtree is the descendants of v
      rcases hu with ⟨_, hanc⟩ | ⟨hne', _, _⟩
      · obtain ⟨c, hc1, hc2⟩ := anc_last_step hanc hne
        have hcp : c ≠ p := by
          rintro rfl
          have h1 := hpd _ _ hvp
          have h2 := hpd _ _ hc2
          omega
        exact ⟨c, ⟨Or.inr hc2, by simpa using hcp⟩, (subP_child_down hc2 u).mpr hc1⟩
      · exact absurd hvp hne'
    · -- upward call
      rcases hu with ⟨h, _⟩ | ⟨_, hst, hnp⟩
      · exact absurd h hvp
      have hpv : par p = some v := by
        rcases hpo p rfl with h | h
        · exact absurd h hvp
        · exact h
      by_cases hanc : Anc par u v
      · obtain ⟨c, hc1, hc2⟩ := anc_last_step hanc hne
        have hcp : c ≠ p := by
          rintro rfl
          exact hnp hc1
        exact ⟨c, ⟨Or.inr hc2, by simpa using hcp⟩, (subP_child_down hc2 u).mpr hc1⟩
      · match hv : par v with
        | none =>
          obtain ⟨a, ha1, ha2⟩ := hst
          have := anc_root hv ha1
          subst this
          exact absurd ha2 hanc
        | some c =>
          have hcp : c ≠ p := by
            rintro rfl
            exact hvp hv
          refine ⟨c, ⟨Or.inl hv, by simpa using hcp⟩, ?_⟩
          rw [subP_child_up hpd hv]
          exact ⟨sameTree_trans (sameTree_symm (sameTree_of_link (Or.inl hv))) hst,
            hanc⟩

/-- Subtrees are closed under adjacency, except across the root edge. -/
theorem subP_closure {par : Nat → Option Nat} {depth : Nat → Nat}
    (hpd : ∀ v p, par v = some p → depth p < depth v) {c v : Nat}
    (hlink : link par v c) {u w : Nat}
    (hu : SubP par c (some v) u) (hw : link par u w) :
    SubP par c (some v) w ∨ (u = c ∧ w = v) := by
  rcases hlink with hup | hdown
  · -- par v = some c (upward child)
    rw [subP_child_up hpd hup] at hu
    obtain ⟨hst, hnanc⟩ := hu
    rw [subP_child_up hpd hup]
    by_cases hwv : Anc par w v
    · rcases eq_or_ne w v with rfl | hwvne
      · rcases hw with h | h
        · exact absurd (anc_of_par h) hnanc
        · right
          rw [hup] at h
          injection h with he
          exact ⟨he.symm, rfl⟩
      · rcases hw with h | h
        · -- par u = some w, Anc w v → Anc u v, contradiction
          exact absurd (anc_trans (anc_of_par h) hwv) hnanc
        · -- par w = some u, Anc w v factors through u
          cases hwv with
          | refl => exact absurd rfl hwvne
          | step hp h' =>
            rw [h] at hp
            injection hp with he
            subst he
            exact absurd h' hnanc
    · left
      exact ⟨sameTree_trans hst (sameTree_of_link hw), hwv⟩
  · -- par c = some v (downward child)
    rw [subP_child_down hdown] at hu
    rw [subP_child_down hdown]
    rcases hw with h | h
    · -- par u = some w
      rcases eq_or_ne u c with rfl | hune
      · right
        rw [hdown] at h
        injection h with he
        exact ⟨rfl, he.symm⟩
      · cases hu with
        | refl => exact absurd rfl hune
        | step hp h' =>
          rw [h] at hp
          injection hp with he
          subst he
          exact Or.inl h'
    · -- par w = some u
      exact Or.inl (Anc.step h hu)

/-- A neighbour of the call vertex lies in its subtree iff it is a
child (i.e. not the parent argument). -/
theorem subP_neighbor {par : Nat → Option Nat} {depth : Nat → Nat}
    (hpd : ∀ v p, par v = some p → depth p < depth v) {v : Nat} {po : Option Nat}
    (hpo : ∀ p, po = some p → link par v p) {w : Nat} (hw : link par v w) :
    SubP par v po w ↔ some w ≠ po := by
  constructor
  · intro hsub heq
    match po, heq with
    | some p, heq =>
      injection heq with he
      subst he
      rcases hsub with ⟨hvp, hanc⟩ | ⟨_, _, hnp⟩
      · have h1 := anc_depth hpd hanc
        have h2 := hpd _ _ hvp
        omega
      · exact hnp (Anc.refl w)
  · intro hne
    have hch : ChildOf par v po w := ⟨hw, hne⟩
    have hself : SubP par w (some v) w := by
      rcases hw with h | h
      · rw [subP_child_up hpd h]
        exact ⟨sameTree_refl par w, not_anc_of_par hpd h⟩
      · rw [subP_child_down h]
        exact Anc.refl w
    exact (subP_child_subset hpd hpo hch hself).1

/-- All subtree members of a valid call are valid vertices. -/
theorem subP_lt {par : Nat → Option Nat} {n : Nat}
    (hdom : ∀ v p, par v = some p → v < n ∧ p < n) {v : Nat} {po : Option Nat}
    (hv : v < n) {u : Nat} (hu : SubP par v po u) : u < n := by
  have key : ∀ x y : Nat, x < n → Anc par x y → y < n := by
    intro x y hx h
    induction h with
    | refl => exact hx
    | step hp _ ih => exact ih (hdom _ _ hp).2
  have st : ∀ x y : Nat, x < n → SameTree par x y → y < n := by
    intro x y hx ⟨a, ha1, ha2⟩
    by_contra hy
    have hpy : par y = none := by
      match hyp : par y with
      | none => rfl
      | some q => exact absurd (hdom _ _ hyp).1 hy
    have := anc_root hpy ha2
    subst this
    exact hy (key _ _ hx ha1)
  match po, hu with
  | none, hu => exact st v u hv hu
  | some p, Or.inl ⟨_, hanc⟩ =>
    cases hanc with
    | refl => exact hv
    | step hp _ => exact (hdom _ _ hp).1
  | some p, Or.inr ⟨_, hst, _⟩ => exact st v u hv hst

/-! ## Correctness of the forest dynamic program

The dfs of both tree solvers computes, for each call `(v, parent)`, the
three state values over the subtree explored by the call.  We formalize
this with the structural table predicate `TableOK` below and a fold
invariant for the child loop. -/

/-- The `parent` argument of a dfs call: `-1` at the root, the caller
otherwise. -/
def poInt : Option Nat → Int
  | none => -1
  | some p => (p : Int)

/-- The semantic children hidden in a slice of an adjacency row: drop the
parent entry and read off the natural vertex ids. -/
def stripPar (po : Option Nat) (ws : List Int) : List Nat :=
  ws.filterMap (fun w => if w = poInt po then none
    else if 0 ≤ w then some w.toNat else none)

/-- The children scanned by the dfs call `(v, po)`, in adjacency order. -/
def childNats (adjL : List (List Int)) (v : Nat) (po : Option Nat) : List Nat :=
  stripPar po (adjL.getD v [])

/-- `min(dp[c][0], dp[c][1])` of the source. -/
def min01 (cell : DpCell) : ℕ∞ := min cell.1 cell.2.1

/-- `min(dp[c][0], dp[c][1], dp[c][2])` of the source. -/
def min012 (cell : DpCell) : ℕ∞ := min cell.1 (min cell.2.1 cell.2.2)

/-- `dp[c][0] - min(dp[c][0], dp[c][1])`, the extra cost of forcing a
camera on the child `c`. -/
def gainOf (cell : DpCell) : ℕ∞ := cell.1 - min01 cell

/-- Structural description of the dp and best-child tables produced by the
dfs at a completed call `(v, po)`, stated in adjacency-list terms: state 0
is one plus the sum of the cheapest child states, state 2 sums the
no-camera-needed child minima, and state 1 (when `v` has children) adds to
state 2 the gain of the recorded best child, which is the first child of
minimal gain in adjacency order. -/
inductive TableOK (par : Nat → Option Nat) (adjL : List (List Int))
    (dp : List DpCell) (bc : List (Option Int)) : Nat → Option Nat → Prop where
  | mk (v : Nat) (po : Option Nat)
      (hch : ∀ c ∈ childNats adjL v po, TableOK par adjL dp bc c (some v))
      (hs0 : (dp.getD v (0, 0, 0)).1
        = 1 + ((childNats adjL v po).map (fun c => min012 (dp.getD c (0, 0, 0)))).sum)
      (hs2 : (dp.getD v (0, 0, 0)).2.2
        = ((childNats adjL v po).map (fun c => min01 (dp.getD c (0, 0, 0)))).sum)
      (hs1 : (childNats adjL v po = [] ∧ (dp.getD v (0, 0, 0)).2.1 = ⊤) ∨
        (∃ i cstar, i < (childNats adjL v po).length ∧
          (childNats adjL v po).getD i 0 = cstar ∧
          bc.getD v none = some (cstar : Int) ∧
          (dp.getD v (0, 0, 0)).2.1
            = (dp.getD v (0, 0, 0)).2.2 + gainOf (dp.getD cstar (0, 0, 0)) ∧
          (∀ j, j < (childNats adjL v po).length →
            gainOf (dp.getD cstar (0, 0, 0))
              ≤ gainOf (dp.getD ((childNats adjL v po).getD j 0) (0, 0, 0))) ∧
          (∀ j, j < i →
            gainOf (dp.getD cstar (0, 0, 0))
              < gainOf (dp.getD ((childNats adjL v po).getD j 0) (0, 0, 0))))) :
      TableOK par adjL dp bc v po

/-- Invariant of the child loop of the dfs at call `(v, po)`: `procd` lists
the semantic children already processed, the tables record their completed
subtrees and the partial sums at `v`, and `(base, gain, best)` track the
loop locals. -/
def DfsInv (par : Nat → Option Nat) (adjL : List (List Int)) (n : Nat)
    (dp0 : List DpCell) (bc0 : List (Option Int)) (v : Nat) (po : Option Nat)
    (procd : List Nat)
    (st : (List DpCell × List (Option Int)) × ℕ∞ × ℕ∞ × Option Int) : Prop :=
  st.1.1.length = n ∧ st.1.2.length = n ∧
  (∀ c ∈ procd, c < n ∧ link par v c ∧ some c ≠ po) ∧
  st.1.1.getD v (0, 0, 0)
    = (1 + (procd.map (fun c => min012 (st.1.1.getD c (0, 0, 0)))).sum, ⊤,
       (procd.map (fun c => min01 (st.1.1.getD c (0, 0, 0)))).sum) ∧
  st.2.1 = (procd.map (fun c => min01 (st.1.1.getD c (0, 0, 0)))).sum ∧
  (∀ c ∈ procd, TableOK par adjL st.1.1 st.1.2 c (some v)) ∧
  (∀ u, u ≠ v → (∀ c ∈ procd, ¬ SubP par c (some v) u) →
    st.1.1.getD u (0, 0, 0) = dp0.getD u (0, 0, 0) ∧
    st.1.2.getD u none = bc0.getD u none) ∧
  ((st.2.2.2 = none ∧ st.2.2.1 = ⊤ ∧ procd = []) ∨
   (∃ i cstar, i < procd.length ∧ procd.getD i 0 = cstar ∧
     st.2.2.2 = some (cstar : Int) ∧
     st.2.2.1 = gainOf (st.1.1.getD cstar (0, 0, 0)) ∧
     (∀ j, j < procd.length →
       st.2.2.1 ≤ gainOf (st.1.1.getD (procd.getD j 0) (0, 0, 0))) ∧
     (∀ j, j < i →
       st.2.2.1 < gainOf (st.1.1.getD (procd.getD j 0) (0, 0, 0)))))

/-- The value `w` is an adjacency entry demanded by the forest structure:
the cast of a linked valid vertex. -/
def IsLinkEntry (par : Nat → Option Nat) (n u : Nat) (w : Int) : Prop :=
  ∃ c : Nat, c < n ∧ w = (c : Int) ∧ link par u c

instance {par : Nat → Option Nat} {a b : Nat} : Decidable (link par a b) := by
  unfold link
  infer_instance

instance {par : Nat → Option Nat} {n u : Nat} {w : Int} :
    Decidable (IsLinkEntry par n u w) := by
  refine decidable_of_iff (0 ≤ w ∧ w.toNat < n ∧ link par u w.toNat) ?_
  unfold IsLinkEntry
  constructor
  · rintro ⟨h0, hn, hl⟩
    exact ⟨w.toNat, hn, by omega, hl⟩
  · rintro ⟨c, hc, rfl, hl⟩
    simp only [Int.toNat_natCast]
    exact ⟨by omega, hc, hl⟩

theorem link_irrefl {par : Nat → Option Nat} {depth : Nat → Nat}
    (hpd : ∀ v p, par v = some p → depth p < depth v) (v : Nat) :
    ¬ link par v v := by
  rintro (h | h) <;> exact absurd (hpd _ _ h) (lt_irrefl _)

/-- Membership form of the adjacency-row count specification. -/
theorem mem_adj_iff {par : Nat → Option Nat} {n : Nat} {adjL : List (List Int)}
    (hcnt : ∀ u, u < n → ∀ w : Int, (adjL.getD u []).count w
      = (if IsLinkEntry par n u w then 1 else 0))
    {u : Nat} (hu : u < n) (w : Int) :
    w ∈ adjL.getD u [] ↔ IsLinkEntry par n u w := by
  rw [← List.count_pos_iff, hcnt u hu w]
  split <;> simp_all

theorem stripPar_append (po : Option Nat) (ws ws' : List Int) :
    stripPar po (ws ++ ws') = stripPar po ws ++ stripPar po ws' :=
  List.filterMap_append ws ws' _

theorem mem_stripPar {po : Option Nat} {ws : List Int} {c : Nat} :
    c ∈ stripPar po ws ↔ ∃ w ∈ ws, w ≠ poInt po ∧ 0 ≤ w ∧ w.toNat = c := by
  unfold stripPar
  rw [List.mem_filterMap]
  constructor
  · rintro ⟨w, hw, hres⟩
    by_cases h1 : w = poInt po
    · rw [if_pos h1] at hres; exact absurd hres (by simp)
    · rw [if_neg h1] at hres
      by_cases h2 : 0 ≤ w
      · rw [if_pos h2] at hres
        injection hres with he
        exact ⟨w, hw, h1, h2, he⟩
      · rw [if_neg h2] at hres; exact absurd hres (by simp)
  · rintro ⟨w, hw, h1, h2, he⟩
    exact ⟨w, hw, by rw [if_neg h1, if_pos h2, he]⟩

/-- The scanned child list is exactly the semantic children of the call,
under the adjacency-count hypothesis. -/
theorem childNats_mem {par : Nat → Option Nat} {n : Nat}
    {adjL : List (List Int)}
    (hcnt : ∀ u, u < n → ∀ w : Int, (adjL.getD u []).count w
      = (if IsLinkEntry par n u w then 1 else 0))
    {v : Nat} (hv : v < n) (po : Option Nat) (c : Nat) :
    c ∈ childNats adjL v po ↔ (c < n ∧ link par v c ∧ some c ≠ po) := by
  unfold childNats
  rw [mem_stripPar]
  constructor
  · rintro ⟨w, hw, h1, h2, rfl⟩
    obtain ⟨c', hc', hwc', hl⟩ := (mem_adj_iff hcnt hv w).mp hw
    subst hwc'
    simp only [Int.toNat_natCast]
    refine ⟨hc', hl, ?_⟩
    intro hpo
    apply h1
    rw [← hpo]
    rfl
  · rintro ⟨hc, hl, hpo⟩
    refine ⟨(c : Int), ?_, ?_, by omega, by simp⟩
    · exact (mem_adj_iff hcnt hv _).mpr ⟨c, hc, rfl, hl⟩
    · match po, hpo with
      | none, _ =>
        simp only [poInt, ne_eq]
        omega
      | some p, hpo =>
        simp only [poInt, ne_eq, Int.natCast_inj]
        intro hcp
        exact hpo (by rw [hcp])

/-- A child belongs to its own subtree. -/
theorem subP_child_self {par : Nat → Option Nat} {depth : Nat → Nat}
    (hpd : ∀ v p, par v = some p → depth p < depth v) {v c : Nat}
    (hl : link par v c) : SubP par c (some v) c := by
  rcases hl with h | h
  · rw [subP_child_up hpd h]
    exact ⟨sameTree_refl par c, not_anc_of_par hpd h⟩
  · rw [subP_child_down h]
    exact Anc.refl c

theorem sum_ne_top {l : List α} {f : α → ℕ∞} (h : ∀ x ∈ l, f x ≠ ⊤) :
    (l.map f).sum ≠ ⊤ := by
  induction l with
  | nil => simp
  | cons a l ih =>
    simp only [List.map_cons, List.sum_cons]
    exact WithTop.add_ne_top.mpr ⟨h a (by simp), ih (fun x hx => h x (by simp [hx]))⟩

/-- States 0 and 2 of a completed table are always finite. -/
theorem tableOK_fin {par : Nat → Option Nat} {adjL : List (List Int)}
    {dp : List DpCell} {bc : List (Option Int)} {v : Nat} {po : Option Nat}
    (h : TableOK par adjL dp bc v po) :
    (dp.getD v (0, 0, 0)).1 ≠ ⊤ ∧ (dp.getD v (0, 0, 0)).2.2 ≠ ⊤ := by
  induction h with
  | mk v po hch hs0 hs2 hs1 ih =>
    have hfin : ∀ c ∈ childNats adjL v po, (dp.getD c (0, 0, 0)).1 ≠ ⊤ := by
      intro c hc
      exact (ih c hc).1
    constructor
    · rw [hs0]
      apply WithTop.add_ne_top.mpr
      refine ⟨by simp, sum_ne_top ?_⟩
      intro c hc
      have := hfin c hc
      unfold min012
      intro htop
      rw [min_eq_top] at htop
      exact this htop.1
    · rw [hs2]
      apply sum_ne_top
      intro c hc
      have := hfin c hc
      unfold min01
      intro htop
      rw [min_eq_top] at htop
      exact this htop.1

/-- `gainOf` of a finite-state-0 cell is finite. -/
theorem gainOf_ne_top {cell : DpCell} (h : cell.1 ≠ ⊤) : gainOf cell ≠ ⊤ := by
  unfold gainOf
  intro htop
  exact h (top_le_iff.mp (htop ▸ tsub_le_self : (⊤ : ℕ∞) ≤ cell.1))

theorem list_getD_mem {l : List α} {j : Nat} (h : j < l.length) (d : α) :
    l.getD j d ∈ l := by
  rw [List.getD_eq_getElem l d h]
  exact List.getElem_mem h

/-- `TableOK` only inspects table entries inside the call's subtree, so it
transports along tables that agree there. -/
theorem tableOK_congr {par : Nat → Option Nat} {depth : Nat → Nat} {n : Nat}
    {adjL : List (List Int)}
    (hpd : ∀ v p, par v = some p → depth p < depth v)
    (hcnt : ∀ u, u < n → ∀ w : Int, (adjL.getD u []).count w
      = (if IsLinkEntry par n u w then 1 else 0))
    {dp : List DpCell} {bc : List (Option Int)} {dp' : List DpCell}
    {bc' : List (Option Int)} {v : Nat} {po : Option Nat}
    (h : TableOK par adjL dp bc v po) :
    v < n → (∀ p, po = some p → link par v p) →
    (∀ u, SubP par v po u →
      dp'.getD u (0, 0, 0) = dp.getD u (0, 0, 0) ∧
      bc'.getD u none = bc.getD u none) →
    TableOK par adjL dp' bc' v po := by
  induction h with
  | mk v po hch hs0 hs2 hs1 ih =>
    intro hv hpo hagree
    have hchsem : ∀ c ∈ childNats adjL v po, c < n ∧ link par v c ∧ some c ≠ po :=
      fun c hc => (childNats_mem hcnt hv po c).mp hc
    have hcsub : ∀ c ∈ childNats adjL v po, SubP par v po c := by
      intro c hc
      obtain ⟨hcn, hlink, hcpo⟩ := hchsem c hc
      exact (subP_child_subset hpd hpo ⟨hlink, hcpo⟩ (subP_child_self hpd hlink)).1
    have hveq := hagree v (subP_self hpd v po hpo)
    have hceq : ∀ c ∈ childNats adjL v po,
        dp'.getD c (0, 0, 0) = dp.getD c (0, 0, 0) :=
      fun c hc => (hagree c (hcsub c hc)).1
    refine TableOK.mk v po ?_ ?_ ?_ ?_
    · intro c hc
      obtain ⟨hcn, hlink, hcpo⟩ := hchsem c hc
      refine ih c hc hcn ?_ ?_
      · intro p hp
        injection hp with he
        subst he
        exact link_symm hlink
      · intro u hu
        exact hagree u (subP_child_subset hpd hpo ⟨hlink, hcpo⟩ hu).1
    · rw [hveq.1, hs0]
      congr 2
      exact List.map_congr_left (fun c hc => by rw [hceq c hc])
    · rw [hveq.1, hs2]
      congr 1
      exact List.map_congr_left (fun c hc => by rw [hceq c hc])
    · rcases hs1 with ⟨hnil, htop⟩ | ⟨i, cstar, hi, hget, hbc, heq, hle, hlt⟩
      · exact Or.inl ⟨hnil, by rw [hveq.1]; exact htop⟩
      · have hcmem : cstar ∈ childNats adjL v po := hget ▸ list_getD_mem hi 0
        refine Or.inr ⟨i, cstar, hi, hget, by rw [hveq.2]; exact hbc, ?_, ?_, ?_⟩
        · rw [hveq.1, hceq cstar hcmem, heq]
        · intro j hj
          rw [hceq cstar hcmem, hceq _ (list_getD_mem hj 0)]
          exact hle j hj
        · intro j hj
          rw [hceq cstar hcmem, hceq _ (list_getD_mem (lt_trans hj hi) 0)]
          exact hlt j hj

theorem getD_append_lt {l l' : List α} {j : Nat} (h : j < l.length) (d : α) :
    (l ++ l').getD j d = l.getD j d := by
  rw [List.getD_eq_getElem l d h,
    List.getD_eq_getElem (l ++ l') d (by rw [List.length_append]; omega)]
  exact List.getElem_append_left h

theorem getD_append_self {l : List α} {c : α} (d : α) :
    (l ++ [c]).getD l.length d = c := by
  rw [List.getD_eq_getElem (l ++ [c]) d (by rw [List.length_append]; simp)]
  rw [List.getElem_append_right (le_refl l.length)]
  simp

theorem stripPar_cons_skip {po : Option Nat} {w : Int} (ws : List Int)
    (h : w = poInt po) : stripPar po (w :: ws) = stripPar po ws := by
  unfold stripPar
  rw [List.filterMap_cons, if_pos h]

theorem stripPar_cons_go {po : Option Nat} {w : Int} (ws : List Int)
    (h1 : w ≠ poInt po) (h2 : 0 ≤ w) :
    stripPar po (w :: ws) = w.toNat :: stripPar po ws := by
  unfold stripPar
  rw [List.filterMap_cons, if_neg h1, if_pos h2]

theorem stripPar_cons_neg {po : Option Nat} {w : Int} (ws : List Int)
    (h1 : w ≠ poInt po) (h2 : ¬ 0 ≤ w) :
    stripPar po (w :: ws) = stripPar po ws := by
  unfold stripPar
  rw [List.filterMap_cons, if_neg h1, if_neg h2]

theorem count_stripPar_le (po : Option Nat) (ws : List Int) (c : Nat) :
    (stripPar po ws).count c ≤ ws.count ((c : Nat) : Int) := by
  induction ws with
  | nil => simp [stripPar]
  | cons w ws ih =>
    by_cases h1 : w = poInt po
    · rw [stripPar_cons_skip ws h1, List.count_cons]
      have hih := ih
      split <;> omega
    · by_cases h2 : 0 ≤ w
      · rw [stripPar_cons_go ws h1 h2, List.count_cons, List.count_cons]
        simp only [beq_iff_eq]
        have hih := ih
        by_cases h3 : w.toNat = c
        · rw [if_pos h3, if_pos (by omega : w = ((c : Nat) : Int))]
          omega
        · rw [if_neg h3, if_neg (fun hh => h3 (by omega))]
          omega
      · rw [stripPar_cons_neg ws h1 h2, List.count_cons]
        have hih := ih
        split <;> omega

/-- Each child occurs once in the scanned child list. -/
theorem childNats_nodup {par : Nat → Option Nat} {n : Nat}
    {adjL : List (List Int)}
    (hcnt : ∀ u, u < n → ∀ w : Int, (adjL.getD u []).count w
      = (if IsLinkEntry par n u w then 1 else 0))
    {v : Nat} (hv : v < n) (po : Option Nat) :
    (childNats adjL v po).Nodup := by
  rw [List.nodup_iff_count_le_one]
  intro c
  calc (childNats adjL v po).count c ≤ (adjL.getD v []).count ((c : Nat) : Int) :=
        count_stripPar_le po _ c
    _ ≤ 1 := by rw [hcnt v hv]; split <;> omega

theorem getD_set_self {xs : List α} {k : Nat} (h : k < xs.length) (a d : α) :
    (xs.set k a).getD k d = a := by
  rw [getD_set, if_pos ⟨rfl, h⟩]

theorem getD_set_other {xs : List α} {k j : Nat} (h : k ≠ j) (a d : α) :
    (xs.set k a).getD j d = xs.getD j d := by
  rw [getD_set, if_neg (fun hc => h hc.1)]

theorem dfs2Step_skip_eq {rec : List DpCell → List (Option Int) → Int → Int →
      Except PyErr (List DpCell × List (Option Int))}
    {kv : Nat} {pa v : Int}
    {st : (List DpCell × List (Option Int)) × ℕ∞ × ℕ∞ × Option Int} {w : Int}
    (h : w = pa) : dfs2Step rec kv pa v st w = pure st := by
  unfold dfs2Step
  rw [if_pos h]

/-- Computation of one non-parent iteration of the child loop of the
solution dfs, in terms of the result of the recursive call. -/
theorem dfs2Step_go_eq {fuel : Nat} {adjL : List (List Int)} {dpc dpA : List DpCell}
    {bcc bcA : List (Option Int)} {c v : Nat} {pa : Int}
    {base gain : ℕ∞} {best : Option Int}
    (hne : ((c : Nat) : Int) ≠ pa)
    (hrec : dfs2 fuel adjL dpc bcc ((c : Nat) : Int) ((v : Nat) : Int) = .ok (dpA, bcA))
    (hkc : pyIdx dpA.length ((c : Nat) : Int) = some c)
    (hcv : v ≠ c) :
    dfs2Step (dfs2 fuel adjL) v pa ((v : Nat) : Int)
        ((dpc, bcc), base, gain, best) ((c : Nat) : Int)
      = .ok ((dpA.set v ((dpA.getD v (0, 0, 0)).1 + min012 (dpA.getD c (0, 0, 0)),
              (dpA.getD v (0, 0, 0)).2.1,
              (dpA.getD v (0, 0, 0)).2.2 + min01 (dpA.getD c (0, 0, 0))), bcA),
          base + min01 (dpA.getD c (0, 0, 0)),
          (if gainOf (dpA.getD c (0, 0, 0)) < gain
           then gainOf (dpA.getD c (0, 0, 0)) else gain),
          (if gainOf (dpA.getD c (0, 0, 0)) < gain
           then some ((c : Nat) : Int) else best)) := by
  unfold dfs2Step
  rw [if_neg hne]
  simp only []
  rw [hrec, exceptBind_ok]
  simp only []
  rw [hkc]
  simp only [exceptBind_pure]
  rw [getD_set_other hcv]
  by_cases hlt : gainOf (dpA.getD c (0, 0, 0)) < gain
  · rw [if_pos (show (dpA.getD c (0, 0, 0)).1
          - min (dpA.getD c (0, 0, 0)).1 (dpA.getD c (0, 0, 0)).2.1 < gain from hlt),
      if_pos hlt, if_pos hlt]
    rfl
  · rw [if_neg (show ¬ ((dpA.getD c (0, 0, 0)).1
          - min (dpA.getD c (0, 0, 0)).1 (dpA.getD c (0, 0, 0)).2.1 < gain) from hlt),
      if_neg hlt, if_neg hlt]
    rfl

/-- Unfolding equation of a well-indexed dfs call of the solution solver. -/
theorem dfs2_succ_eq {fuel : Nat} {adjL : List (List Int)} {dp : List DpCell}
    {bc : List (Option Int)} {v : Nat} {pa : Int}
    (hkv : pyIdx dp.length ((v : Nat) : Int) = some v)
    (hka : pyIdx adjL.length ((v : Nat) : Int) = some v) :
    dfs2 (fuel + 1) adjL dp bc ((v : Nat) : Int) pa
      = ((adjL.getD v []).foldlM (dfs2Step (dfs2 fuel adjL) v pa ((v : Nat) : Int))
          ((dp.set v (1, ⊤, 0), bc), (0 : ℕ∞), (⊤ : ℕ∞), (none : Option Int)))
        >>= (fun st =>
          match st with
          | ((dpf, bcf), basef, gainf, best) =>
            match best with
            | some _ => pure (dpf.set v ((dpf.getD v (0, 0, 0)).1, basef + gainf,
                (dpf.getD v (0, 0, 0)).2.2), bcf.set v best)
            | none => pure (dpf, bcf)) := by
  unfold dfs2
  rw [hkv]
  simp only []
  rw [hka]
  simp only []
  rw [exceptBind_ok]

/-- Main induction for the solution dfs on a forest: with fuel exceeding
the subtree size the dfs succeeds, writes only inside the call's subtree,
and leaves tables satisfying `TableOK` at the call. -/
theorem dfs2_main {par : Nat → Option Nat} {depth : Nat → Nat} {n : Nat}
    {adjL : List (List Int)}
    (hpd : ∀ v p, par v = some p → depth p < depth v)
    (hlenA : adjL.length = n)
    (hcnt : ∀ u, u < n → ∀ w : Int, (adjL.getD u []).count w
      = (if IsLinkEntry par n u w then 1 else 0)) :
    ∀ (fuel : Nat) (S : Finset Nat) (v : Nat) (po : Option Nat)
      (dp : List DpCell) (bc : List (Option Int)),
      S.card < fuel → v < n → (∀ p, po = some p → link par v p) →
      (∀ u, u ∈ S ↔ SubP par v po u) →
      dp.length = n → bc.length = n →
      ∃ dp' bc', dfs2 fuel adjL dp bc ((v : Nat) : Int) (poInt po) = .ok (dp', bc') ∧
        dp'.length = n ∧ bc'.length = n ∧
        (∀ u, ¬ SubP par v po u →
          dp'.getD u (0, 0, 0) = dp.getD u (0, 0, 0) ∧
          bc'.getD u none = bc.getD u none) ∧
        TableOK par adjL dp' bc' v po := by
  intro fuel
  induction fuel with
  | zero =>
    intro S v po dp bc hfuel
    exact absurd hfuel (by omega)
  | succ fuel IH =>
    intro S v po dp bc hfuel hv hpo hS hdp hbc
    have hkv : pyIdx dp.length ((v : Nat) : Int) = some v := by
      rw [hdp]; exact pyIdx_nonneg (by omega) (by exact_mod_cast hv)
    have hka : pyIdx adjL.length ((v : Nat) : Int) = some v := by
      rw [hlenA]; exact pyIdx_nonneg (by omega) (by exact_mod_cast hv)
    have hvS : v ∈ S := (hS v).mpr (subP_self hpd v po hpo)
    have hchel : ∀ x ∈ childNats adjL v po, x < n ∧ link par v x ∧ some x ≠ po :=
      fun x hx => (childNats_mem hcnt hv po x).mp hx
    have hchnv : ∀ x ∈ childNats adjL v po, x ≠ v := by
      intro x hx
      rintro rfl
      exact link_irrefl hpd x (hchel x hx).2.1
    have hfoldClaim : ∀ (rest : List Int), (∀ w ∈ rest, w ∈ adjL.getD v []) →
        ∀ (procd : List Nat)
          (st : (List DpCell × List (Option Int)) × ℕ∞ × ℕ∞ × Option Int),
          childNats adjL v po = procd ++ stripPar po rest →
          DfsInv par adjL n dp bc v po procd st →
          ∃ st', rest.foldlM (dfs2Step (dfs2 fuel adjL) v (poInt po) ((v : Nat) : Int)) st
              = .ok st' ∧
            DfsInv par adjL n dp bc v po (procd ++ stripPar po rest) st' := by
      intro rest
      induction rest with
      | nil =>
        intro _ procd st _ hinv
        refine ⟨st, rfl, ?_⟩
        rw [show stripPar po [] = [] from rfl, List.append_nil]
        exact hinv
      | cons w rest ihR =>
        intro hmem procd st hsplit hinv
        rw [List.foldlM_cons]
        by_cases hw : w = poInt po
        · rw [dfs2Step_skip_eq hw, exceptBind_pure]
          rw [stripPar_cons_skip rest hw] at hsplit ⊢
          exact ihR (fun x hx => hmem x (by simp [hx])) procd st hsplit hinv
        · have hwrow : w ∈ adjL.getD v [] := hmem w (by simp)
          obtain ⟨c, hcn, rfl, hlinkvc⟩ := (mem_adj_iff hcnt hv w).mp hwrow
          have hcpo : some c ≠ po := by
            intro hcp
            apply hw
            rw [← hcp]
            rfl
          have hchild : ChildOf par v po c := ⟨hlinkvc, hcpo⟩
          have hcv : c ≠ v := by
            rintro rfl
            exact link_irrefl hpd c hlinkvc
          rcases st with ⟨⟨dpc, bcc⟩, base, gain, best⟩
          obtain ⟨hL1, hL2, hproc, hvcell, hbase, htabs, hframe0, hgb⟩ := hinv
          simp only [] at hL1 hL2 hvcell hbase htabs hframe0 hgb
          haveI : DecidablePred fun u => SubP par c (some v) u :=
            fun u => Classical.propDecidable _
          have hS_c : ∀ u, u ∈ S.filter (fun u => SubP par c (some v) u)
              ↔ SubP par c (some v) u := by
            intro u
            rw [Finset.mem_filter]
            exact ⟨fun h => h.2,
              fun h => ⟨(hS u).mpr (subP_child_subset hpd hpo hchild h).1, h⟩⟩
          have hcard : (S.filter (fun u => SubP par c (some v) u)).card < fuel := by
            have hsub_e : S.filter (fun u => SubP par c (some v) u) ⊆ S.erase v := by
              intro u hu
              have h2 := (hS_c u).mp hu
              rw [Finset.mem_erase]
              exact ⟨(subP_child_subset hpd hpo hchild h2).2,
                (hS u).mpr (subP_child_subset hpd hpo hchild h2).1⟩
            have h1 := Finset.card_le_card hsub_e
            rw [Finset.card_erase_of_mem hvS] at h1
            have h2 := Finset.card_pos.mpr ⟨v, hvS⟩
            omega
          obtain ⟨dpA, bcA, hrec, hlA1, hlA2, hframeA, htabA⟩ :=
            IH (S.filter (fun u => SubP par c (some v) u)) c (some v) dpc bcc hcard hcn
              (fun p hp => by injection hp with he; subst he; exact link_symm hlinkvc)
              hS_c hL1 hL2
          have hrec' : dfs2 fuel adjL dpc bcc ((c : Nat) : Int) ((v : Nat) : Int)
              = .ok (dpA, bcA) := hrec
          have hkc : pyIdx dpA.length ((c : Nat) : Int) = some c := by
            rw [hlA1]; exact pyIdx_nonneg (by omega) (by exact_mod_cast hcn)
          rw [dfs2Step_go_eq hw hrec' hkc (Ne.symm hcv), exceptBind_ok]
          set cA := dpA.getD c (0, 0, 0) with hcA
          set dp2 := dpA.set v ((dpA.getD v (0, 0, 0)).1 + min012 cA,
            (dpA.getD v (0, 0, 0)).2.1,
            (dpA.getD v (0, 0, 0)).2.2 + min01 cA) with hdp2
          have hvnot : ¬ SubP par c (some v) v := fun hvs =>
            (subP_child_subset hpd hpo hchild hvs).2 rfl
          have hAv : dpA.getD v (0, 0, 0) = dpc.getD v (0, 0, 0) := (hframeA v hvnot).1
          have hsplit' : childNats adjL v po = procd ++ c :: stripPar po rest := by
            rw [hsplit, stripPar_cons_go rest hw (by omega), Int.toNat_natCast]
          have hcnotin : c ∉ procd := by
            have hnd := childNats_nodup hcnt hv po
            rw [hsplit', List.nodup_append] at hnd
            intro hcp
            exact hnd.2.2 hcp (by simp)
          have hdp2v : dp2.getD v (0, 0, 0)
              = ((dpc.getD v (0, 0, 0)).1 + min012 cA, (dpc.getD v (0, 0, 0)).2.1,
                 (dpc.getD v (0, 0, 0)).2.2 + min01 cA) := by
            rw [hdp2, getD_set_self (by rw [hlA1]; exact hv), hAv]
          have hdp2c : dp2.getD c (0, 0, 0) = cA := by
            rw [hdp2, getD_set_other (Ne.symm hcv), hcA]
          have hdnot : ∀ d ∈ procd, ¬ SubP par c (some v) d := by
            intro d hd hdc
            obtain ⟨hdn, hld, hdpo⟩ := hproc d hd
            exact subP_children_disjoint hpd ⟨hld, hdpo⟩ ⟨hlinkvc, hcpo⟩
              (fun he => hcnotin (he ▸ hd)) (subP_child_self hpd hld) hdc
          have hdv : ∀ d ∈ procd, d ≠ v := by
            intro d hd
            rintro rfl
            exact link_irrefl hpd d (hproc d hd).2.1
          have hdp2d : ∀ d ∈ procd, dp2.getD d (0, 0, 0) = dpc.getD d (0, 0, 0) := by
            intro d hd
            rw [hdp2, getD_set_other (fun he => (hdv d hd) he.symm)]
            exact (hframeA d (hdnot d hd)).1
          have hunch_sub : ∀ d ∈ procd, ∀ u, SubP par d (some v) u →
              dp2.getD u (0, 0, 0) = dpc.getD u (0, 0, 0) ∧
              bcA.getD u none = bcc.getD u none := by
            intro d hd u hu
            obtain ⟨hdn, hld, hdpo⟩ := hproc d hd
            have hunv : u ≠ v := (subP_child_subset hpd hpo ⟨hld, hdpo⟩ hu).2
            have hunc : ¬ SubP par c (some v) u := fun huc =>
              subP_children_disjoint hpd ⟨hld, hdpo⟩ ⟨hlinkvc, hcpo⟩
                (fun he => hcnotin (he ▸ hd)) hu huc
            constructor
            · rw [hdp2, getD_set_other (Ne.symm hunv)]
              exact (hframeA u hunc).1
            · exact (hframeA u hunc).2
          have htabs2 : ∀ d ∈ procd, TableOK par adjL dp2 bcA d (some v) := by
            intro d hd
            obtain ⟨hdn, hld, hdpo⟩ := hproc d hd
            exact tableOK_congr hpd hcnt (htabs d hd) hdn
              (fun p hp => by injection hp with he; subst he; exact link_symm hld)
              (fun u hu => hunch_sub d hd u hu)
          have htabc2 : TableOK par adjL dp2 bcA c (some v) := by
            refine tableOK_congr hpd hcnt htabA hcn
              (fun p hp => by injection hp with he; subst he; exact link_symm hlinkvc) ?_
            intro u hu
            have hunv : u ≠ v := (subP_child_subset hpd hpo hchild hu).2
            exact ⟨by rw [hdp2, getD_set_other (Ne.symm hunv)], rfl⟩
          have hgfin : gainOf cA ≠ ⊤ := gainOf_ne_top (tableOK_fin htabA).1
          have hmap012 : (procd ++ [c]).map (fun d => min012 (dp2.getD d (0, 0, 0)))
              = procd.map (fun d => min012 (dpc.getD d (0, 0, 0))) ++ [min012 cA] := by
            rw [List.map_append]
            congr 1
            · exact List.map_congr_left (fun d hd => by rw [hdp2d d hd])
            · simp only [List.map_cons, List.map_nil]
              rw [hdp2c]
          have hmap01 : (procd ++ [c]).map (fun d => min01 (dp2.getD d (0, 0, 0)))
              = procd.map (fun d => min01 (dpc.getD d (0, 0, 0))) ++ [min01 cA] := by
            rw [List.map_append]
            congr 1
            · exact List.map_congr_left (fun d hd => by rw [hdp2d d hd])
            · simp only [List.map_cons, List.map_nil]
              rw [hdp2c]
          have hinvNew : DfsInv par adjL n dp bc v po (procd ++ [c])
              ((dp2, bcA), base + min01 cA,
               (if gainOf cA < gain then gainOf cA else gain),
               (if gainOf cA < gain then some ((c : Nat) : Int) else best)) := by
            refine ⟨by rw [hdp2]; simp [hlA1], hlA2, ?_, ?_, ?_, ?_, ?_, ?_⟩
            · intro d hd
              rcases List.mem_append.mp hd with hd' | hd'
              · exact hproc d hd'
              · rw [List.mem_singleton] at hd'
                subst hd'
                exact ⟨hcn, hlinkvc, hcpo⟩
            · rw [hdp2v, hvcell]
              simp only [hmap012, hmap01, List.sum_append, List.sum_cons, List.sum_nil,
                Prod.mk.injEq]
              refine ⟨by rw [add_assoc, add_zero], trivial, by rw [add_zero]⟩
            · rw [hbase]
              simp only [hmap01, List.sum_append, List.sum_cons, List.sum_nil, add_zero]
            · intro d hd
              rcases List.mem_append.mp hd with hd' | hd'
              · exact htabs2 d hd'
              · rw [List.mem_singleton] at hd'
                subst hd'
                exact htabc2
            · intro u hunv hnots
              have hnotc : ¬ SubP par c (some v) u := hnots c (by simp)
              have hold := hframe0 u hunv (fun d hd => hnots d (by simp [hd]))
              constructor
              · rw [hdp2, getD_set_other (Ne.symm hunv), (hframeA u hnotc).1]
                exact hold.1
              · rw [(hframeA u hnotc).2]
                exact hold.2
            · by_cases hlt : gainOf cA < gain
              · right
                refine ⟨procd.length, c, by simp, getD_append_self 0, ?_, ?_, ?_, ?_⟩
                · simp only []
                  rw [if_pos hlt]
                · simp only []
                  rw [if_pos hlt, hdp2c]
                · intro j hj
                  simp only []
                  rw [if_pos hlt]
                  have hj' : j < procd.length + 1 := by simpa using hj
                  rcases Nat.lt_succ_iff_lt_or_eq.mp hj' with hjlt | hjeq
                  · rw [getD_append_lt hjlt, hdp2d _ (list_getD_mem hjlt 0)]
                    rcases hgb with ⟨_, _, hpe⟩ | ⟨i, cst, hi, hget, hbe, hge, hle, _⟩
                    · exact absurd hjlt (by rw [hpe]; simp)
                    · exact le_trans (le_of_lt hlt) (hle j hjlt)
                  · subst hjeq
                    rw [getD_append_self 0, hdp2c]
                · intro j hj
                  simp only []
                  rw [if_pos hlt, getD_append_lt hj, hdp2d _ (list_getD_mem hj 0)]
                  rcases hgb with ⟨_, _, hpe⟩ | ⟨i, cst, hi, hget, hbe, hge, hle, _⟩
                  · exact absurd hj (by rw [hpe]; simp)
                  · exact lt_of_lt_of_le hlt (hle j hj)
              · rcases hgb with ⟨hbn, hgt, hpe⟩ | ⟨i, cst, hi, hget, hbe, hge, hle, hlt2⟩
                · exact absurd (hgt ▸ lt_top_iff_ne_top.mpr hgfin) hlt
                · right
                  have hcstmem : cst ∈ procd := hget ▸ list_getD_mem hi 0
                  refine ⟨i, cst, by simp; omega, ?_, ?_, ?_, ?_, ?_⟩
                  · rw [getD_append_lt hi]
                    exact hget
                  · simp only []
                    rw [if_neg hlt]
                    exact hbe
                  · simp only []
                    rw [if_neg hlt, hdp2d cst hcstmem]
                    exact hge
                  · intro j hj
                    simp only []
                    rw [if_neg hlt]
                    have hj' : j < procd.length + 1 := by simpa using hj
                    rcases Nat.lt_succ_iff_lt_or_eq.mp hj' with hjlt | hjeq
                    · rw [getD_append_lt hjlt, hdp2d _ (list_getD_mem hjlt 0)]
                      exact hle j hjlt
                    · subst hjeq
                      rw [getD_append_self 0, hdp2c]
                      exact not_lt.mp hlt
                  · intro j hj
                    simp only []
                    rw [if_neg hlt, getD_append_lt (lt_trans hj hi),
                      hdp2d _ (list_getD_mem (lt_trans hj hi) 0)]
                    exact hlt2 j hj
          obtain ⟨st', hfold', hinv'⟩ := ihR (fun x hx => hmem x (by simp [hx]))
            (procd ++ [c])
            ((dp2, bcA), base + min01 cA,
             (if gainOf cA < gain then gainOf cA else gain),
             (if gainOf cA < gain then some ((c : Nat) : Int) else best))
            (by rw [hsplit']; simp) hinvNew
          refine ⟨st', hfold', ?_⟩
          rw [stripPar_cons_go rest hw (by omega), Int.toNat_natCast,
            show procd ++ c :: stripPar po rest = (procd ++ [c]) ++ stripPar po rest
              by simp]
          exact hinv'
    have hinv0 : DfsInv par adjL n dp bc v po []
        ((dp.set v (1, ⊤, 0), bc), (0 : ℕ∞), (⊤ : ℕ∞), (none : Option Int)) := by
      refine ⟨by simp [hdp], hbc, by simp, ?_, by simp, by simp, ?_,
        Or.inl ⟨rfl, rfl, rfl⟩⟩
      · simp only []
        rw [getD_set_self (by rw [hdp]; exact hv)]
        simp
      · intro u hunv _
        exact ⟨getD_set_other (Ne.symm hunv) _ _, rfl⟩
    obtain ⟨stF, hfoldF, hinvF⟩ := hfoldClaim (adjL.getD v []) (fun _ hx => hx) []
      ((dp.set v (1, ⊤, 0), bc), (0 : ℕ∞), (⊤ : ℕ∞), (none : Option Int))
      (by rw [List.nil_append]; rfl) hinv0
    rw [List.nil_append,
      show stripPar po (adjL.getD v []) = childNats adjL v po from rfl] at hinvF
    rcases stF with ⟨⟨dpf, bcf⟩, basef, gainf, bestf⟩
    obtain ⟨hF1, hF2, hFproc, hFv, hFbase, hFtabs, hFframe, hFgb⟩ := hinvF
    simp only [] at hF1 hF2 hFv hFbase hFtabs hFframe hFgb
    rw [dfs2_succ_eq hkv hka, hfoldF, exceptBind_ok]
    have hframe_out : ∀ (dpx : List DpCell) (bcx : List (Option Int)),
        (∀ u, u ≠ v → (∀ x ∈ childNats adjL v po, ¬ SubP par x (some v) u) →
          dpx.getD u (0, 0, 0) = dp.getD u (0, 0, 0) ∧
          bcx.getD u none = bc.getD u none) →
        ∀ u, ¬ SubP par v po u →
          dpx.getD u (0, 0, 0) = dp.getD u (0, 0, 0) ∧
          bcx.getD u none = bc.getD u none := by
      intro dpx bcx hfr u hnot
      refine hfr u ?_ ?_
      · rintro rfl
        exact hnot (subP_self hpd u po hpo)
      · intro x hx hxu
        obtain ⟨hxn, hlx, hxpo⟩ := hchel x hx
        exact hnot (subP_child_subset hpd hpo ⟨hlx, hxpo⟩ hxu).1
    rcases hFgb with ⟨hbn, hgt, hpe⟩ | ⟨i, cstar, hi, hget, hbe, hge, hle, hlt⟩
    · subst hbn
      simp only []
      refine ⟨dpf, bcf, rfl, hF1, hF2, hframe_out dpf bcf hFframe, ?_⟩
      refine TableOK.mk v po (fun c hc => hFtabs c hc) ?_ ?_ ?_
      · rw [hFv]
      · rw [hFv]
      · exact Or.inl ⟨hpe, by rw [hFv]⟩
    · subst hbe
      simp only []
      refine ⟨_, _, rfl, by simp [hF1], by simp [hF2], ?_, ?_⟩
      · intro u hnot
        have h0 := hframe_out dpf bcf hFframe u hnot
        have hunv : u ≠ v := by
          rintro rfl
          exact hnot (subP_self hpd u po hpo)
        constructor
        · rw [getD_set_other (Ne.symm hunv)]
          exact h0.1
        · rw [getD_set_other (Ne.symm hunv)]
          exact h0.2
      · have hvlt1 : v < dpf.length := by rw [hF1]; exact hv
        have hvlt2 : v < bcf.length := by rw [hF2]; exact hv
        have hsetv : (dpf.set v ((dpf.getD v (0, 0, 0)).1, basef + gainf,
            (dpf.getD v (0, 0, 0)).2.2)).getD v (0, 0, 0)
            = ((dpf.getD v (0, 0, 0)).1, basef + gainf, (dpf.getD v (0, 0, 0)).2.2) :=
          getD_set_self hvlt1 _ _
        have hsetc : ∀ x ∈ childNats adjL v po,
            (dpf.set v ((dpf.getD v (0, 0, 0)).1, basef + gainf,
              (dpf.getD v (0, 0, 0)).2.2)).getD x (0, 0, 0) = dpf.getD x (0, 0, 0) :=
          fun x hx => getD_set_other (fun he => (hchnv x hx) he.symm) _ _
        have hmap012L : (childNats adjL v po).map (fun x =>
              min012 ((dpf.set v ((dpf.getD v (0, 0, 0)).1, basef + gainf,
                (dpf.getD v (0, 0, 0)).2.2)).getD x (0, 0, 0)))
            = (childNats adjL v po).map (fun x => min012 (dpf.getD x (0, 0, 0))) :=
          List.map_congr_left (fun x hx => by rw [hsetc x hx])
        have hmap01L : (childNats adjL v po).map (fun x =>
              min01 ((dpf.set v ((dpf.getD v (0, 0, 0)).1, basef + gainf,
                (dpf.getD v (0, 0, 0)).2.2)).getD x (0, 0, 0)))
            = (childNats adjL v po).map (fun x => min01 (dpf.getD x (0, 0, 0))) :=
          List.map_congr_left (fun x hx => by rw [hsetc x hx])
        refine TableOK.mk v po ?_ ?_ ?_ ?_
        · intro c hc
          obtain ⟨hcn', hlc, hcpo'⟩ := hchel c hc
          refine tableOK_congr hpd hcnt (hFtabs c hc) hcn'
            (fun p hp => by injection hp with he; subst he; exact link_symm hlc) ?_
          intro u hu
          have hunv : u ≠ v := (subP_child_subset hpd hpo ⟨hlc, hcpo'⟩ hu).2
          exact ⟨getD_set_other (Ne.symm hunv) _ _, getD_set_other (Ne.symm hunv) _ _⟩
        · rw [hmap012L, hsetv]
          simp only []
          rw [hFv]
        · rw [hmap01L, hsetv]
          simp only []
          rw [hFv]
        · right
          have hcstmem : cstar ∈ childNats adjL v po := hget ▸ list_getD_mem hi 0
          refine ⟨i, cstar, hi, hget, getD_set_self hvlt2 _ _, ?_, ?_, ?_⟩
          · rw [hsetv, hsetc cstar hcstmem]
            simp only []
            rw [hFv]
            simp only []
            rw [hFbase, hge]
          · intro j hj
            rw [hsetc cstar hcstmem, hsetc _ (list_getD_mem hj 0)]
            rw [← hge]
            exact hle j hj
          · intro j hj
            rw [hsetc cstar hcstmem, hsetc _ (list_getD_mem (lt_trans hj hi) 0)]
            rw [← hge]
            exact hlt j hj

/-! ## Semantic cost of camera placements -/

/-- `u` is watched by the camera set `C`: it carries a camera or neighbours
one. -/
def Dominated (par : Nat → Option Nat) (C : Finset Nat) (u : Nat) : Prop :=
  u ∈ C ∨ ∃ w ∈ C, link par u w

/-- `C` is a camera placement achieving state `s` for the call `(v, po)`:
it lies inside the call's subtree; state 0 places a camera on `v` and
watches the whole subtree, state 1 watches the whole subtree without a
camera on `v`, state 2 watches everything except possibly `v` (which the
caller will watch). -/
def StOK (par : Nat → Option Nat) (v : Nat) (po : Option Nat) (s : Nat)
    (C : Finset Nat) : Prop :=
  (∀ x ∈ C, SubP par v po x) ∧
  (match s with
   | 0 => v ∈ C ∧ ∀ u, SubP par v po u → Dominated par C u
   | 1 => v ∉ C ∧ ∀ u, SubP par v po u → Dominated par C u
   | _ => v ∉ C ∧ ∀ u, SubP par v po u → u ≠ v → Dominated par C u)

theorem sum_map_eq_finset_sum [DecidableEq α] {l : List α} {f : α → Nat}
    (h : l.Nodup) : (l.map f).sum = ∑ x ∈ l.toFinset, f x := by
  induction l with
  | nil => simp
  | cons a l ih =>
    rw [List.nodup_cons] at h
    rw [List.map_cons, List.sum_cons, List.toFinset_cons,
      Finset.sum_insert (by simpa using h.1), ih h.2]

/-- A camera set inside the subtree of `(v, po)` splits, by cardinality,
into a possible camera at `v` plus its traces in each child subtree. -/
theorem card_children_partition {par : Nat → Option Nat} {depth : Nat → Nat} {n : Nat}
    {adjL : List (List Int)}
    (hpd : ∀ v p, par v = some p → depth p < depth v)
    (hdom : ∀ v p, par v = some p → v < n ∧ p < n)
    (hcnt : ∀ u, u < n → ∀ w : Int, (adjL.getD u []).count w
      = (if IsLinkEntry par n u w then 1 else 0))
    {v : Nat} {po : Option Nat} (hv : v < n) (hpo : ∀ p, po = some p → link par v p)
    (C : Finset Nat) (hC : ∀ x ∈ C, SubP par v po x)
    (F : Nat → Finset Nat)
    (hF : ∀ c x, x ∈ F c ↔ (x ∈ C ∧ SubP par c (some v) x)) :
    C.card = (if v ∈ C then 1 else 0)
      + ((childNats adjL v po).map (fun c => (F c).card)).sum := by
  have hchsem : ∀ c ∈ childNats adjL v po, c < n ∧ link par v c ∧ some c ≠ po :=
    fun c hc => (childNats_mem hcnt hv po c).mp hc
  have hbi : (childNats adjL v po).toFinset.biUnion F = C.erase v := by
    ext x
    simp only [Finset.mem_biUnion, List.mem_toFinset, Finset.mem_erase]
    constructor
    · rintro ⟨c, hc, hxF⟩
      obtain ⟨hxC, hxsub⟩ := (hF c x).mp hxF
      obtain ⟨hcn, hlc, hcpo⟩ := hchsem c hc
      exact ⟨(subP_child_subset hpd hpo ⟨hlc, hcpo⟩ hxsub).2, hxC⟩
    · rintro ⟨hxv, hxC⟩
      obtain ⟨c, hcChild, hcsub⟩ := subP_cover hpd hpo (hC x hxC) hxv
      have hcn : c < n := by
        rcases hcChild.1 with h | h
        · exact (hdom v c h).2
        · exact (hdom c v h).1
      exact ⟨c, (childNats_mem hcnt hv po c).mpr ⟨hcn, hcChild.1, hcChild.2⟩,
        (hF c x).mpr ⟨hxC, hcsub⟩⟩
  have hdisj : ∀ c₁ ∈ (childNats adjL v po).toFinset, ∀ c₂ ∈ (childNats adjL v po).toFinset,
      c₁ ≠ c₂ → Disjoint (F c₁) (F c₂) := by
    intro c₁ hc₁ c₂ hc₂ hne
    rw [List.mem_toFinset] at hc₁ hc₂
    obtain ⟨h1n, h1l, h1p⟩ := hchsem c₁ hc₁
    obtain ⟨h2n, h2l, h2p⟩ := hchsem c₂ hc₂
    rw [Finset.disjoint_left]
    intro x hx1 hx2
    exact subP_children_disjoint hpd ⟨h1l, h1p⟩ ⟨h2l, h2p⟩ hne
      ((hF c₁ x).mp hx1).2 ((hF c₂ x).mp hx2).2
  have hsum : ((childNats adjL v po).map (fun c => (F c).card)).sum
      = (C.erase v).card := by
    rw [sum_map_eq_finset_sum (childNats_nodup hcnt hv po), ← Finset.card_biUnion hdisj,
      hbi]
  rw [hsum]
  by_cases hvC : v ∈ C
  · rw [if_pos hvC, Finset.card_erase_of_mem hvC]
    have := Finset.card_pos.mpr ⟨v, hvC⟩
    omega
  · rw [if_neg hvC, Finset.erase_eq_of_not_mem hvC]
    omega

theorem cast_sum_map {l : List α} (f : α → Nat) :
    (((l.map f).sum : Nat) : ℕ∞) = (l.map (fun x => ((f x : Nat) : ℕ∞))).sum := by
  induction l with
  | nil => simp
  | cons a l ih => simp [ih]

/-- Lower bound: every placement achieving state `s` on the subtree of a
completed call costs at least the table value. -/
theorem tableOK_lb {par : Nat → Option Nat} {depth : Nat → Nat} {n : Nat}
    {adjL : List (List Int)}
    (hpd : ∀ v p, par v = some p → depth p < depth v)
    (hdom : ∀ v p, par v = some p → v < n ∧ p < n)
    (hcnt : ∀ u, u < n → ∀ w : Int, (adjL.getD u []).count w
      = (if IsLinkEntry par n u w then 1 else 0))
    {dp : List DpCell} {bc : List (Option Int)} {v : Nat} {po : Option Nat}
    (h : TableOK par adjL dp bc v po) :
    v < n → (∀ p, po = some p → link par v p) →
    ∀ s C, StOK par v po s C → stVal (dp.getD v (0, 0, 0)) s ≤ (C.card : ℕ∞) := by
  induction h with
  | mk v po hch hs0 hs2 hs1 ih =>
    intro hv hpo s C hC
    classical
    obtain ⟨hCsub, hCs⟩ := hC
    set F : Nat → Finset Nat := fun c => C.filter (fun u => SubP par c (some v) u)
      with hFdef
    have hF : ∀ c x, x ∈ F c ↔ (x ∈ C ∧ SubP par c (some v) x) := by
      intro c x
      rw [hFdef]
      exact Finset.mem_filter
    have hpart := card_children_partition hpd hdom hcnt hv hpo C hCsub F hF
    have hchsem : ∀ c ∈ childNats adjL v po, c < n ∧ link par v c ∧ some c ≠ po :=
      fun c hc => (childNats_mem hcnt hv po c).mp hc
    have hchval : ∀ c ∈ childNats adjL v po, (∀ p, some v = some p → link par c p) := by
      intro c hc p hp
      injection hp with he
      subst he
      exact link_symm (hchsem c hc).2.1
    have hFsub : ∀ c, ∀ x ∈ F c, SubP par c (some v) x :=
      fun c x hx => ((hF c x).mp hx).2
    have hdomin : v ∉ C →
        (∀ u, SubP par v po u → u ≠ v → Dominated par C u) →
        ∀ c ∈ childNats adjL v po, ∀ u, SubP par c (some v) u →
          Dominated par (F c) u := by
      intro hvC hdom2 c hc u hu
      obtain ⟨hcn, hlc, hcpo⟩ := hchsem c hc
      have hsubu := subP_child_subset hpd hpo ⟨hlc, hcpo⟩ hu
      rcases hdom2 u hsubu.1 hsubu.2 with huC | ⟨w, hwC, hlw⟩
      · exact Or.inl ((hF c u).mpr ⟨huC, hu⟩)
      · rcases subP_closure hpd hlc hu hlw with hws | ⟨hueq, hweq⟩
        · exact Or.inr ⟨w, (hF c w).mpr ⟨hwC, hws⟩, hlw⟩
        · subst hweq
          exact absurd hwC hvC
    have hmin01 : v ∉ C → (∀ u, SubP par v po u → u ≠ v → Dominated par C u) →
        ∀ c ∈ childNats adjL v po, min01 (dp.getD c (0, 0, 0)) ≤ ((F c).card : ℕ∞) := by
      intro hvC hdom2 c hc
      obtain ⟨hcn, hlc, hcpo⟩ := hchsem c hc
      have hcover := hdomin hvC hdom2 c hc
      by_cases hcC : c ∈ C
      · have hst : StOK par c (some v) 0 (F c) :=
          ⟨hFsub c, (hF c c).mpr ⟨hcC, subP_child_self hpd hlc⟩, hcover⟩
        calc min01 (dp.getD c (0, 0, 0)) ≤ stVal (dp.getD c (0, 0, 0)) 0 :=
              min_le_left _ _
          _ ≤ _ := ih c hc hcn (hchval c hc) 0 (F c) hst
      · have hcnotF : c ∉ F c := fun hcc => hcC ((hF c c).mp hcc).1
        have hst : StOK par c (some v) 1 (F c) := ⟨hFsub c, hcnotF, hcover⟩
        calc min01 (dp.getD c (0, 0, 0)) ≤ stVal (dp.getD c (0, 0, 0)) 1 :=
              min_le_right _ _
          _ ≤ _ := ih c hc hcn (hchval c hc) 1 (F c) hst
    have hmin012 : v ∈ C → (∀ u, SubP par v po u → Dominated par C u) →
        ∀ c ∈ childNats adjL v po, min012 (dp.getD c (0, 0, 0)) ≤ ((F c).card : ℕ∞) := by
      intro hvC hdom2 c hc
      obtain ⟨hcn, hlc, hcpo⟩ := hchsem c hc
      have hcov2 : ∀ u, SubP par c (some v) u → u ≠ c → Dominated par (F c) u := by
        intro u hu hune
        rcases hdom2 u (subP_child_subset hpd hpo ⟨hlc, hcpo⟩ hu).1 with
          huC | ⟨w, hwC, hlw⟩
        · exact Or.inl ((hF c u).mpr ⟨huC, hu⟩)
        · rcases subP_closure hpd hlc hu hlw with hws | ⟨hueq, hweq⟩
          · exact Or.inr ⟨w, (hF c w).mpr ⟨hwC, hws⟩, hlw⟩
          · exact absurd hueq hune
      by_cases hcC : c ∈ C
      · have hst : StOK par c (some v) 0 (F c) := by
          refine ⟨hFsub c, (hF c c).mpr ⟨hcC, subP_child_self hpd hlc⟩, ?_⟩
          intro u hu
          by_cases hune : u = c
          · subst hune
            exact Or.inl ((hF u u).mpr ⟨hcC, subP_child_self hpd hlc⟩)
          · exact hcov2 u hu hune
        calc min012 (dp.getD c (0, 0, 0)) ≤ stVal (dp.getD c (0, 0, 0)) 0 :=
              min_le_left _ _
          _ ≤ _ := ih c hc hcn (hchval c hc) 0 (F c) hst
      · have hcnotF : c ∉ F c := fun hcc => hcC ((hF c c).mp hcc).1
        by_cases hcd : Dominated par (F c) c
        · have hst : StOK par c (some v) 1 (F c) := by
            refine ⟨hFsub c, hcnotF, ?_⟩
            intro u hu
            by_cases hune : u = c
            · subst hune
              exact hcd
            · exact hcov2 u hu hune
          calc min012 (dp.getD c (0, 0, 0)) ≤ stVal (dp.getD c (0, 0, 0)) 1 :=
                le_trans (min_le_right _ _) (min_le_left _ _)
            _ ≤ _ := ih c hc hcn (hchval c hc) 1 (F c) hst
        · have hst : StOK par c (some v) 2 (F c) :=
            ⟨hFsub c, hcnotF, fun u hu hune => hcov2 u hu hune⟩
          calc min012 (dp.getD c (0, 0, 0)) ≤ stVal (dp.getD c (0, 0, 0)) 2 :=
                le_trans (min_le_right _ _) (min_le_right _ _)
            _ ≤ _ := ih c hc hcn (hchval c hc) 2 (F c) hst
    match s, hCs with
    | 0, ⟨hvC, hdom2⟩ =>
      have hgoal : stVal (dp.getD v (0, 0, 0)) 0
          = 1 + ((childNats adjL v po).map
              (fun c => min012 (dp.getD c (0, 0, 0)))).sum := hs0
      rw [hgoal, hpart, if_pos hvC]
      push_cast
      simp only [List.map_map, Function.comp_def]
      apply add_le_add_left
      exact List.sum_le_sum (fun c hc => hmin012 hvC hdom2 c hc)
    | 1, ⟨hvC, hdom2⟩ =>
      rcases hdom2 v (subP_self hpd v po hpo) with hvC' | ⟨c₀, hc₀C, hlvc₀⟩
      · exact absurd hvC' hvC
      have hc₀n : c₀ < n := by
        rcases hlvc₀ with h | h
        · exact (hdom v c₀ h).2
        · exact (hdom c₀ v h).1
      have hc₀po : some c₀ ≠ po := (subP_neighbor hpd hpo hlvc₀).mp (hCsub c₀ hc₀C)
      have hc₀chl : c₀ ∈ childNats adjL v po :=
        (childNats_mem hcnt hv po c₀).mpr ⟨hc₀n, hlvc₀, hc₀po⟩
      rcases hs1 with ⟨hnil, _⟩ | ⟨i, cstar, hi, hget, hbcv, hseq, hle, _⟩
      · rw [hnil] at hc₀chl
        exact absurd hc₀chl (by simp)
      have hcov₀ : ∀ u, SubP par c₀ (some v) u → Dominated par (F c₀) u :=
        hdomin hvC (fun u hsub _ => hdom2 u hsub) c₀ hc₀chl
      have hb₀ : stVal (dp.getD c₀ (0, 0, 0)) 0 ≤ ((F c₀).card : ℕ∞) :=
        ih c₀ hc₀chl hc₀n (hchval c₀ hc₀chl) 0 (F c₀)
          ⟨hFsub c₀, (hF c₀ c₀).mpr ⟨hc₀C, subP_child_self hpd (hchsem c₀ hc₀chl).2.1⟩,
            hcov₀⟩
      obtain ⟨j, hj, hjeq⟩ := List.mem_iff_getElem.mp hc₀chl
      have hgle : gainOf (dp.getD cstar (0, 0, 0)) ≤ gainOf (dp.getD c₀ (0, 0, 0)) := by
        have hx := hle j hj
        rwa [List.getD_eq_getElem _ _ hj, hjeq] at hx
      obtain ⟨l1, l2, hchl_eq⟩ := List.append_of_mem hc₀chl
      have hmem1 : ∀ x ∈ l1, x ∈ childNats adjL v po := by
        intro x hx
        rw [hchl_eq]
        simp [hx]
      have hmem2 : ∀ x ∈ l2, x ∈ childNats adjL v po := by
        intro x hx
        rw [hchl_eq]
        simp [hx]
      have hminAll := hmin01 hvC (fun u hsub _ => hdom2 u hsub)
      have hsplit₀ : min01 (dp.getD c₀ (0, 0, 0)) + gainOf (dp.getD c₀ (0, 0, 0))
          = stVal (dp.getD c₀ (0, 0, 0)) 0 :=
        add_tsub_cancel_of_le (min_le_left _ _)
      have hgoal : stVal (dp.getD v (0, 0, 0)) 1
          = (dp.getD v (0, 0, 0)).2.2 + gainOf (dp.getD cstar (0, 0, 0)) := hseq
      rw [hgoal, hs2, hpart, if_neg hvC, hchl_eq]
      push_cast
      simp only [List.map_append, List.map_cons, List.sum_append, List.sum_cons,
        List.map_map, Function.comp_def, zero_add]
      calc (l1.map (fun c => min01 (dp.getD c (0, 0, 0)))).sum
              + (min01 (dp.getD c₀ (0, 0, 0))
                + (l2.map (fun c => min01 (dp.getD c (0, 0, 0)))).sum)
              + gainOf (dp.getD cstar (0, 0, 0))
          ≤ (l1.map (fun c => min01 (dp.getD c (0, 0, 0)))).sum
              + (min01 (dp.getD c₀ (0, 0, 0))
                + (l2.map (fun c => min01 (dp.getD c (0, 0, 0)))).sum)
              + gainOf (dp.getD c₀ (0, 0, 0)) := add_le_add_left hgle _
        _ = (l1.map (fun c => min01 (dp.getD c (0, 0, 0)))).sum
              + ((min01 (dp.getD c₀ (0, 0, 0)) + gainOf (dp.getD c₀ (0, 0, 0)))
                + (l2.map (fun c => min01 (dp.getD c (0, 0, 0)))).sum) := by abel
        _ = (l1.map (fun c => min01 (dp.getD c (0, 0, 0)))).sum
              + (stVal (dp.getD c₀ (0, 0, 0)) 0
                + (l2.map (fun c => min01 (dp.getD c (0, 0, 0)))).sum) := by
              rw [hsplit₀]
        _ ≤ (l1.map (fun c => (((F c).card : Nat) : ℕ∞))).sum
              + (((F c₀).card : ℕ∞)
                + (l2.map (fun c => (((F c).card : Nat) : ℕ∞))).sum) := by
              refine add_le_add (List.sum_le_sum (fun c hc => hminAll c (hmem1 c hc)))
                (add_le_add hb₀ (List.sum_le_sum (fun c hc => hminAll c (hmem2 c hc))))
    | (s' + 2), ⟨hvC, hdom2⟩ =>
      have hgoal : stVal (dp.getD v (0, 0, 0)) (s' + 2)
          = ((childNats adjL v po).map (fun c => min01 (dp.getD c (0, 0, 0)))).sum :=
        hs2
      rw [hgoal, hpart, if_neg hvC]
      push_cast
      simp only [List.map_map, Function.comp_def, zero_add]
      exact List.sum_le_sum (fun c hc => hmin01 hvC hdom2 c hc)

theorem dominated_mono {par : Nat → Option Nat} {C C' : Finset Nat} (h : C ⊆ C')
    {u : Nat} (hd : Dominated par C u) : Dominated par C' u := by
  rcases hd with h1 | ⟨w, hw, hl⟩
  · exact Or.inl (h h1)
  · exact Or.inr ⟨w, h hw, hl⟩

theorem argmin_state_01_eq (cell : DpCell) :
    argmin_state cell [0, 1] = if cell.2.1 < cell.1 then 1 else 0 := by
  by_cases h : cell.2.1 < cell.1
  · simp [argmin_state, stVal, h]
  · simp [argmin_state, stVal, h]

theorem argmin_state_01_val (cell : DpCell) :
    stVal cell (argmin_state cell [0, 1]) = min01 cell := by
  rw [argmin_state_01_eq]
  by_cases h : cell.2.1 < cell.1
  · rw [if_pos h]
    exact (min_eq_right (le_of_lt h)).symm
  · rw [if_neg h]
    exact (min_eq_left (not_lt.mp h)).symm

theorem argmin_state_01_cases (cell : DpCell) :
    argmin_state cell [0, 1] = 0 ∨
      (argmin_state cell [0, 1] = 1 ∧ cell.2.1 < cell.1) := by
  rw [argmin_state_01_eq]
  by_cases h : cell.2.1 < cell.1
  · exact Or.inr ⟨if_pos h, h⟩
  · exact Or.inl (if_neg h)

theorem argmin_state_012_eq (cell : DpCell) :
    argmin_state cell [0, 1, 2]
      = if cell.2.2 < min01 cell then 2 else if cell.2.1 < cell.1 then 1 else 0 := by
  by_cases h1 : cell.2.1 < cell.1
  · have hm : min01 cell = cell.2.1 := min_eq_right (le_of_lt h1)
    by_cases h2 : cell.2.2 < cell.2.1
    · simp [argmin_state, stVal, h1, h2, hm]
    · simp [argmin_state, stVal, h1, h2, hm]
  · have hm : min01 cell = cell.1 := min_eq_left (not_lt.mp h1)
    by_cases h2 : cell.2.2 < cell.1
    · simp [argmin_state, stVal, h1, h2, hm]
    · simp [argmin_state, stVal, h1, h2, hm]

theorem argmin_state_012_val (cell : DpCell) :
    stVal cell (argmin_state cell [0, 1, 2]) = min012 cell := by
  rw [argmin_state_012_eq]
  by_cases h2 : cell.2.2 < min01 cell
  · rw [if_pos h2]
    show cell.2.2 = min012 cell
    have : min012 cell = min (min01 cell) cell.2.2 := by
      unfold min012 min01
      rw [min_assoc]
    rw [this, min_eq_right (le_of_lt h2)]
  · rw [if_neg h2]
    have hm : min012 cell = min01 cell := by
      have : min012 cell = min (min01 cell) cell.2.2 := by
        unfold min012 min01
        rw [min_assoc]
      rw [this, min_eq_left (not_lt.mp h2)]
    by_cases h1 : cell.2.1 < cell.1
    · rw [if_pos h1]
      show cell.2.1 = min012 cell
      rw [hm]
      exact (min_eq_right (le_of_lt h1)).symm
    · rw [if_neg h1]
      show cell.1 = min012 cell
      rw [hm]
      exact (min_eq_left (not_lt.mp h1)).symm

theorem argmin_state_012_cases (cell : DpCell) :
    argmin_state cell [0, 1, 2] = 0 ∨ argmin_state cell [0, 1, 2] = 2 ∨
      (argmin_state cell [0, 1, 2] = 1 ∧ cell.2.1 < cell.1) := by
  rw [argmin_state_012_eq]
  by_cases h2 : cell.2.2 < min01 cell
  · exact Or.inr (Or.inl (if_pos h2))
  · rw [if_neg h2]
    by_cases h1 : cell.2.1 < cell.1
    · exact Or.inr (Or.inr ⟨if_pos h1, h1⟩)
    · exact Or.inl (if_neg h1)

/-- Generic child-loop lemma for the reconstruction: if every non-parent
entry of the scanned slice admits a per-child camera set of the promised
state and size, the fold accumulates their disjoint union. -/
theorem recon_fold {par : Nat → Option Nat} {depth : Nat → Nat} {n : Nat}
    {adjL : List (List Int)} {dp : List DpCell}
    (hpd : ∀ v p, par v = some p → depth p < depth v)
    (hcnt : ∀ u, u < n → ∀ w : Int, (adjL.getD u []).count w
      = (if IsLinkEntry par n u w then 1 else 0))
    {v : Nat} {po : Option Nat} (hv : v < n)
    (hpo : ∀ p, po = some p → link par v p)
    (csF : Nat → Nat)
    (hcsF3 : ∀ c ∈ childNats adjL v po, csF c ≤ 2)
    (B : Finset Int → Int → Except PyErr (Finset Int))
    (hBskip : ∀ cams w, w = poInt po → B cams w = pure cams)
    (hBgo : ∀ (cams : Finset Int) (c : Nat), c ∈ childNats adjL v po →
      ∃ Cc : Finset Nat,
        B cams ((c : Nat) : Int)
          = .ok (cams ∪ Cc.image (fun x => ((x : Nat) : Int))) ∧
        StOK par c (some v) (csF c) Cc ∧
        ((Cc.card : ℕ∞)) = stVal (dp.getD c (0, 0, 0)) (csF c)) :
    ∀ (rest : List Int), (∀ w ∈ rest, w ∈ adjL.getD v []) →
      ∀ (procd : List Nat), childNats adjL v po = procd ++ stripPar po rest →
      ∀ (cams1 : Finset Int),
      ∃ Cr : Finset Nat,
        rest.foldlM B cams1
          = .ok (cams1 ∪ Cr.image (fun x => ((x : Nat) : Int))) ∧
        ((Cr.card : ℕ∞)) = ((stripPar po rest).map
          (fun c => stVal (dp.getD c (0, 0, 0)) (csF c))).sum ∧
        (∀ x ∈ Cr, ∃ c ∈ stripPar po rest, SubP par c (some v) x) ∧
        (∀ c ∈ stripPar po rest, (c ∈ Cr ↔ csF c = 0)) ∧
        (∀ u c, c ∈ stripPar po rest → SubP par c (some v) u →
          (csF c = 2 → u ≠ c) → Dominated par Cr u) := by
  intro rest
  induction rest with
  | nil =>
    intro _ procd _ cams1
    refine ⟨∅, by simp only [List.foldlM_nil, Finset.image_empty, Finset.union_empty]; rfl,
      by simp [stripPar], by simp, ?_, ?_⟩
    · intro c hc
      exact absurd hc (by simp [stripPar])
    · intro u c hc
      exact absurd hc (by simp [stripPar])
  | cons w rest ihR =>
    intro hmem procd hsplit cams1
    rw [List.foldlM_cons]
    by_cases hw : w = poInt po
    · rw [hBskip cams1 w hw, exceptBind_pure]
      rw [stripPar_cons_skip rest hw] at hsplit ⊢
      exact ihR (fun x hx => hmem x (by simp [hx])) procd hsplit cams1
    · have hwrow : w ∈ adjL.getD v [] := hmem w (by simp)
      obtain ⟨c, hcn, rfl, hlinkvc⟩ := (mem_adj_iff hcnt hv w).mp hwrow
      have hcpo : some c ≠ po := by
        intro hcp
        apply hw
        rw [← hcp]
        rfl
      have hcchl : c ∈ childNats adjL v po :=
        (childNats_mem hcnt hv po c).mpr ⟨hcn, hlinkvc, hcpo⟩
      have hsplit' : childNats adjL v po = procd ++ c :: stripPar po rest := by
        rw [hsplit, stripPar_cons_go rest hw (by omega), Int.toNat_natCast]
      have hcnotin : c ∉ stripPar po rest := by
        have hnd := childNats_nodup hcnt hv po
        rw [hsplit', List.nodup_append] at hnd
        have := hnd.2.1
        rw [List.nodup_cons] at this
        exact this.1
      obtain ⟨Cc, hBeq, hstok, hccard⟩ := hBgo cams1 c hcchl
      rw [hBeq, exceptBind_ok]
      obtain ⟨Cr, hfold, hcard, hmemr, hiff, hdomr⟩ :=
        ihR (fun x hx => hmem x (by simp [hx])) (procd ++ [c])
          (by rw [hsplit']; simp)
          (cams1 ∪ Cc.image (fun x => ((x : Nat) : Int)))
      have hrestmem : ∀ c' ∈ stripPar po rest, c' < n ∧ link par v c' ∧ some c' ≠ po := by
        intro c' hc'
        refine (childNats_mem hcnt hv po c').mp ?_
        rw [hsplit']
        simp [hc']
      have hdisj : Disjoint Cc Cr := by
        rw [Finset.disjoint_left]
        intro x hx1 hx2
        obtain ⟨c', hc', hsub'⟩ := hmemr x hx2
        obtain ⟨h1n, h1l, h1p⟩ := hrestmem c' hc'
        exact subP_children_disjoint hpd ⟨hlinkvc, hcpo⟩ ⟨h1l, h1p⟩
          (fun he => hcnotin (he ▸ hc')) (hstok.1 x hx1) hsub'
      refine ⟨Cc ∪ Cr, ?_, ?_, ?_, ?_, ?_⟩
      · rw [hfold]
        congr 1
        rw [Finset.image_union, Finset.union_assoc]
      · rw [stripPar_cons_go rest hw (by omega), Int.toNat_natCast, List.map_cons,
          List.sum_cons, Finset.card_union_of_disjoint hdisj]
        push_cast
        rw [hccard, hcard]
      · intro x hx
        rw [stripPar_cons_go rest hw (by omega), Int.toNat_natCast]
        rcases Finset.mem_union.mp hx with hx' | hx'
        · exact ⟨c, by simp, hstok.1 x hx'⟩
        · obtain ⟨c', hc', hsub'⟩ := hmemr x hx'
          exact ⟨c', by simp [hc'], hsub'⟩
      · intro c' hc'
        rw [stripPar_cons_go rest hw (by omega), Int.toNat_natCast] at hc'
        rcases List.mem_cons.mp hc' with rfl | hc''
        · constructor
          · intro hcin
            rcases Finset.mem_union.mp hcin with hcin' | hcin'
            · by_contra hne
              have hle2 := hcsF3 c' hcchl
              obtain ⟨hsub, hrest⟩ := hstok
              match hcs : csF c', hrest with
              | 0, _ => exact hne hcs
              | 1, ⟨hnotin, _⟩ => exact hnotin hcin'
              | s + 2, ⟨hnotin, _⟩ => exact hnotin hcin'
            · obtain ⟨c'', hc'', hsub''⟩ := hmemr c' hcin'
              obtain ⟨h1n, h1l, h1p⟩ := hrestmem c'' hc''
              exact absurd hsub''
                (fun hs => subP_children_disjoint hpd ⟨hlinkvc, hcpo⟩ ⟨h1l, h1p⟩
                  (fun he => hcnotin (he ▸ hc'')) (subP_child_self hpd hlinkvc) hs)
          · intro hcs0
            apply Finset.mem_union_left
            obtain ⟨hsub, hrest⟩ := hstok
            rw [hcs0] at hrest
            exact hrest.1
        · have hc'ne : c' ≠ c := fun he => hcnotin (he ▸ hc'')
          obtain ⟨h1n, h1l, h1p⟩ := hrestmem c' hc''
          have hnotCc : c' ∉ Cc := fun hin =>
            subP_children_disjoint hpd ⟨hlinkvc, hcpo⟩ ⟨h1l, h1p⟩ (Ne.symm hc'ne)
              (hstok.1 c' hin) (subP_child_self hpd h1l)
          constructor
          · intro hin
            rcases Finset.mem_union.mp hin with h | h
            · exact absurd h hnotCc
            · exact (hiff c' hc'').mp h
          · intro h0
            exact Finset.mem_union_right _ ((hiff c' hc'').mpr h0)
      · intro u c' hc' hsub' hne2
        rw [stripPar_cons_go rest hw (by omega), Int.toNat_natCast] at hc'
        rcases List.mem_cons.mp hc' with rfl | hc''
        · obtain ⟨hsub, hrest⟩ := hstok
          have hdomCc : Dominated par Cc u := by
            have hle2 := hcsF3 c' hcchl
            match hcs : csF c', hrest with
            | 0, ⟨_, hcov⟩ => exact hcov u hsub'
            | 1, ⟨_, hcov⟩ => exact hcov u hsub'
            | s + 2, ⟨_, hcov⟩ =>
              have hs2 : s = 0 := by rw [hcs] at hle2; omega
              subst hs2
              exact hcov u hsub' (hne2 (by omega))
          exact dominated_mono Finset.subset_union_left hdomCc
        · exact dominated_mono Finset.subset_union_right
            (hdomr u c' hc'' hsub' hne2)

theorem childNat_ne_poInt {c : Nat} {po : Option Nat} (h : some c ≠ po) :
    ((c : Nat) : Int) ≠ poInt po := by
  intro he
  match po, h with
  | none, _ =>
    rw [show poInt none = -1 from rfl] at he
    omega
  | some p, h =>
    rw [show poInt (some p) = ((p : Nat) : Int) from rfl] at he
    exact h (by rw [Int.natCast_inj.mp he])

/-- Correctness of the reconstruction: called on a completed table with a
legitimate state, it extends the accumulator by a camera set of that state
whose size is exactly the table value. -/
theorem recon_main {par : Nat → Option Nat} {depth : Nat → Nat} {n : Nat}
    {adjL : List (List Int)} {dp : List DpCell} {bc : List (Option Int)}
    (hpd : ∀ v p, par v = some p → depth p < depth v)
    (hdom : ∀ v p, par v = some p → v < n ∧ p < n)
    (hcnt : ∀ u, u < n → ∀ w : Int, (adjL.getD u []).count w
      = (if IsLinkEntry par n u w then 1 else 0))
    (hlenA : adjL.length = n) (hlen1 : dp.length = n) (hlen2 : bc.length = n) :
    ∀ (fuel : Nat) (S : Finset Nat) (v : Nat) (po : Option Nat) (s : Nat)
      (cams0 : Finset Int),
      TableOK par adjL dp bc v po →
      S.card < fuel → v < n → (∀ p, po = some p → link par v p) →
      (∀ u, u ∈ S ↔ SubP par v po u) →
      (s = 0 ∨ s = 2 ∨ (s = 1 ∧ stVal (dp.getD v (0, 0, 0)) 1 ≠ ⊤)) →
      ∃ C : Finset Nat,
        recon fuel adjL dp bc ((v : Nat) : Int) (poInt po) s cams0
          = .ok (cams0 ∪ C.image (fun x => ((x : Nat) : Int))) ∧
        StOK par v po s C ∧ ((C.card : ℕ∞)) = stVal (dp.getD v (0, 0, 0)) s := by
  intro fuel
  induction fuel with
  | zero =>
    intro S v po s cams0 _ hfuel
    exact absurd hfuel (by omega)
  | succ fuel IH =>
    intro S v po s cams0 htab hfuel hv hpo hS hsval
    have hka : pyIdx adjL.length ((v : Nat) : Int) = some v := by
      rw [hlenA]; exact pyIdx_nonneg (by omega) (by exact_mod_cast hv)
    have hchsem : ∀ x ∈ childNats adjL v po, x < n ∧ link par v x ∧ some x ≠ po :=
      fun x hx => (childNats_mem hcnt hv po x).mp hx
    have hvS : v ∈ S := (hS v).mpr (subP_self hpd v po hpo)
    rcases htab with ⟨_, _, hch, hs0, hs2, hs1⟩
    have hrecgo : ∀ (cams : Finset Int) (c : Nat), c ∈ childNats adjL v po →
        ∀ cs, (cs = 0 ∨ cs = 2 ∨ (cs = 1 ∧ stVal (dp.getD c (0, 0, 0)) 1 ≠ ⊤)) →
        ∃ Cc : Finset Nat,
          recon fuel adjL dp bc ((c : Nat) : Int) ((v : Nat) : Int) cs cams
            = .ok (cams ∪ Cc.image (fun x => ((x : Nat) : Int))) ∧
          StOK par c (some v) cs Cc ∧
          ((Cc.card : ℕ∞)) = stVal (dp.getD c (0, 0, 0)) cs := by
      intro cams c hc cs hcsv
      obtain ⟨hcn, hlc, hcpo⟩ := hchsem c hc
      classical
      have hS_c : ∀ u, u ∈ S.filter (fun u => SubP par c (some v) u)
          ↔ SubP par c (some v) u := by
        intro u
        rw [Finset.mem_filter]
        exact ⟨fun h => h.2,
          fun h => ⟨(hS u).mpr (subP_child_subset hpd hpo ⟨hlc, hcpo⟩ h).1, h⟩⟩
      have hcard : (S.filter (fun u => SubP par c (some v) u)).card < fuel := by
        have hsub_e : S.filter (fun u => SubP par c (some v) u) ⊆ S.erase v := by
          intro u hu
          have h2 := (hS_c u).mp hu
          rw [Finset.mem_erase]
          exact ⟨(subP_child_subset hpd hpo ⟨hlc, hcpo⟩ h2).2,
            (hS u).mpr (subP_child_subset hpd hpo ⟨hlc, hcpo⟩ h2).1⟩
        have h1 := Finset.card_le_card hsub_e
        rw [Finset.card_erase_of_mem hvS] at h1
        have h2 := Finset.card_pos.mpr ⟨v, hvS⟩
        omega
      exact IH (S.filter (fun u => SubP par c (some v) u)) c (some v) cs cams
        (hch c hc) hcard hcn
        (fun p hp => by injection hp with he; subst he; exact link_symm hlc)
        hS_c hcsv
    have hval012 : ∀ c ∈ childNats adjL v po,
        (argmin_state (dp.getD c (0, 0, 0)) [0, 1, 2] = 0 ∨
         argmin_state (dp.getD c (0, 0, 0)) [0, 1, 2] = 2 ∨
         (argmin_state (dp.getD c (0, 0, 0)) [0, 1, 2] = 1 ∧
           stVal (dp.getD c (0, 0, 0)) 1 ≠ ⊤)) := by
      intro c hc
      rcases argmin_state_012_cases (dp.getD c (0, 0, 0)) with h | h | ⟨h, hlt⟩
      · exact Or.inl h
      · exact Or.inr (Or.inl h)
      · refine Or.inr (Or.inr ⟨h, ?_⟩)
        intro he
        have hfin := (tableOK_fin (hch c hc)).1
        rw [show stVal (dp.getD c (0, 0, 0)) 1 = (dp.getD c (0, 0, 0)).2.1 from rfl]
          at he
        rw [he] at hlt
        exact hfin (top_le_iff.mp (le_of_lt hlt))
    have hval01 : ∀ c ∈ childNats adjL v po,
        (argmin_state (dp.getD c (0, 0, 0)) [0, 1] = 0 ∨
         argmin_state (dp.getD c (0, 0, 0)) [0, 1] = 2 ∨
         (argmin_state (dp.getD c (0, 0, 0)) [0, 1] = 1 ∧
           stVal (dp.getD c (0, 0, 0)) 1 ≠ ⊤)) := by
      intro c hc
      rcases argmin_state_01_cases (dp.getD c (0, 0, 0)) with h | ⟨h, hlt⟩
      · exact Or.inl h
      · refine Or.inr (Or.inr ⟨h, ?_⟩)
        intro he
        have hfin := (tableOK_fin (hch c hc)).1
        rw [show stVal (dp.getD c (0, 0, 0)) 1 = (dp.getD c (0, 0, 0)).2.1 from rfl]
          at he
        rw [he] at hlt
        exact hfin (top_le_iff.mp (le_of_lt hlt))
    unfold recon
    rw [hka]
    simp only []
    rw [exceptBind_ok]
    rcases hsval with rfl | rfl | ⟨rfl, hfin1⟩
    · -- state 0
      rw [if_pos rfl]
      obtain ⟨Cr, hfold, hcardr, hmemr, hiff, hdomr⟩ :=
        recon_fold hpd hcnt hv hpo
          (fun c => argmin_state (dp.getD c (0, 0, 0)) [0, 1, 2])
          (by
            intro c hc
            show argmin_state (dp.getD c (0, 0, 0)) [0, 1, 2] ≤ 2
            rcases argmin_state_012_cases (dp.getD c (0, 0, 0)) with h | h | ⟨h, _⟩ <;>
              omega)
          (fun cams c =>
            if c = poInt po then pure cams
            else
              match pyIdx dp.length c with
              | none => (Except.error PyErr.indexError : Except PyErr Nat) >>= fun y =>
                  recon fuel adjL dp bc c ((v : Nat) : Int)
                    (argmin_state (dp.getD y (0, 0, 0)) [0, 1, 2]) cams
              | some k => (pure k : Except PyErr Nat) >>= fun y =>
                  recon fuel adjL dp bc c ((v : Nat) : Int)
                    (argmin_state (dp.getD y (0, 0, 0)) [0, 1, 2]) cams)
          (by
            intro cams w hw
            simp only []
            rw [if_pos hw])
          (by
            intro cams c hc
            simp only []
            obtain ⟨hcn, hlc, hcpo⟩ := hchsem c hc
            have hkc : pyIdx dp.length ((c : Nat) : Int) = some c := by
              rw [hlen1]; exact pyIdx_nonneg (by omega) (by exact_mod_cast hcn)
            rw [if_neg (childNat_ne_poInt hcpo), hkc]
            simp only [exceptBind_pure]
            exact hrecgo cams c hc _ (hval012 c hc))
          (adjL.getD v []) (fun _ hx => hx) [] (by rw [List.nil_append]; rfl)
          (insert ((v : Nat) : Int) cams0)
      rw [show stripPar po (adjL.getD v []) = childNats adjL v po from rfl]
        at hcardr hmemr hiff hdomr
      have hvnotin : v ∉ Cr := by
        intro hvin
        obtain ⟨c, hc, hsub⟩ := hmemr v hvin
        obtain ⟨hcn, hlc, hcpo⟩ := hchsem c hc
        exact (subP_child_subset hpd hpo ⟨hlc, hcpo⟩ hsub).2 rfl
      refine ⟨insert v Cr, ?_, ⟨?_, ?_, ?_⟩, ?_⟩
      · refine hfold.trans (congrArg Except.ok ?_)
        ext x
        simp only [Finset.mem_union, Finset.mem_insert, Finset.mem_image]
        constructor
        · rintro (⟨h | h⟩ | ⟨y, hy, rfl⟩)
          · exact Or.inr ⟨v, Or.inl rfl, h.symm⟩
          · exact Or.inl h
          · exact Or.inr ⟨y, Or.inr hy, rfl⟩
        · rintro (h | ⟨y, hy | hy, rfl⟩)
          · exact Or.inl (Or.inr h)
          · exact Or.inl (Or.inl (by rw [hy]))
          · exact Or.inr ⟨y, hy, rfl⟩
      · intro x hx
        rcases Finset.mem_insert.mp hx with rfl | hx'
        · exact subP_self hpd x po hpo
        · obtain ⟨c, hc, hsub⟩ := hmemr x hx'
          obtain ⟨hcn, hlc, hcpo⟩ := hchsem c hc
          exact (subP_child_subset hpd hpo ⟨hlc, hcpo⟩ hsub).1
      · exact Finset.mem_insert_self v Cr
      · intro u hu
        by_cases huv : u = v
        · subst huv
          exact Or.inl (Finset.mem_insert_self u Cr)
        · obtain ⟨c, hchild, hsub⟩ := subP_cover hpd hpo hu huv
          have hcn : c < n := by
            rcases hchild.1 with h | h
            · exact (hdom v c h).2
            · exact (hdom c v h).1
          have hc : c ∈ childNats adjL v po :=
            (childNats_mem hcnt hv po c).mpr ⟨hcn, hchild.1, hchild.2⟩
          by_cases hspec : argmin_state (dp.getD c (0, 0, 0)) [0, 1, 2] = 2 ∧ u = c
          · refine Or.inr ⟨v, Finset.mem_insert_self v Cr, ?_⟩
            rw [hspec.2]
            exact link_symm hchild.1
          · have hd := hdomr u c hc hsub (fun h2 => by
              intro hue
              exact hspec ⟨h2, hue⟩)
            exact dominated_mono (Finset.subset_insert v Cr) hd
      · rw [Finset.card_insert_of_not_mem hvnotin]
        push_cast
        rw [hcardr]
        rw [show stVal (dp.getD v (0, 0, 0)) 0 = (dp.getD v (0, 0, 0)).1 from rfl, hs0]
        rw [List.map_congr_left (fun c hc => argmin_state_012_val (dp.getD c (0, 0, 0)))]
        rw [add_comm]
    · -- state 2
      rw [if_neg (by omega), if_pos rfl]
      obtain ⟨Cr, hfold, hcardr, hmemr, hiff, hdomr⟩ :=
        recon_fold hpd hcnt hv hpo
          (fun c => argmin_state (dp.getD c (0, 0, 0)) [0, 1])
          (by
            intro c hc
            show argmin_state (dp.getD c (0, 0, 0)) [0, 1] ≤ 2
            rcases argmin_state_01_cases (dp.getD c (0, 0, 0)) with h | ⟨h, _⟩ <;> omega)
          (fun cams c =>
            if c = poInt po then pure cams
            else
              match pyIdx dp.length c with
              | none => (Except.error PyErr.indexError : Except PyErr Nat) >>= fun y =>
                  recon fuel adjL dp bc c ((v : Nat) : Int)
                    (argmin_state (dp.getD y (0, 0, 0)) [0, 1]) cams
              | some k => (pure k : Except PyErr Nat) >>= fun y =>
                  recon fuel adjL dp bc c ((v : Nat) : Int)
                    (argmin_state (dp.getD y (0, 0, 0)) [0, 1]) cams)
          (by
            intro cams w hw
            simp only []
            rw [if_pos hw])
          (by
            intro cams c hc
            simp only []
            obtain ⟨hcn, hlc, hcpo⟩ := hchsem c hc
            have hkc : pyIdx dp.length ((c : Nat) : Int) = some c := by
              rw [hlen1]; exact pyIdx_nonneg (by omega) (by exact_mod_cast hcn)
            rw [if_neg (childNat_ne_poInt hcpo), hkc]
            simp only [exceptBind_pure]
            exact hrecgo cams c hc _ (hval01 c hc))
          (adjL.getD v []) (fun _ hx => hx) [] (by rw [List.nil_append]; rfl) cams0
      rw [show stripPar po (adjL.getD v []) = childNats adjL v po from rfl]
        at hcardr hmemr hiff hdomr
      have hvnotin : v ∉ Cr := by
        intro hvin
        obtain ⟨c, hc, hsub⟩ := hmemr v hvin
        obtain ⟨hcn, hlc, hcpo⟩ := hchsem c hc
        exact (subP_child_subset hpd hpo ⟨hlc, hcpo⟩ hsub).2 rfl
      refine ⟨Cr, hfold, ⟨?_, hvnotin, ?_⟩, ?_⟩
      · intro x hx
        obtain ⟨c, hc, hsub⟩ := hmemr x hx
        obtain ⟨hcn, hlc, hcpo⟩ := hchsem c hc
        exact (subP_child_subset hpd hpo ⟨hlc, hcpo⟩ hsub).1
      · intro u hu hune
        obtain ⟨c, hchild, hsub⟩ := subP_cover hpd hpo hu hune
        have hcn : c < n := by
          rcases hchild.1 with h | h
          · exact (hdom v c h).2
          · exact (hdom c v h).1
        have hc : c ∈ childNats adjL v po :=
          (childNats_mem hcnt hv po c).mpr ⟨hcn, hchild.1, hchild.2⟩
        have hne2 : argmin_state (dp.getD c (0, 0, 0)) [0, 1] ≠ 2 := by
          rcases argmin_state_01_cases (dp.getD c (0, 0, 0)) with h | ⟨h, _⟩ <;> omega
        exact hdomr u c hc hsub (fun h2 => absurd h2 hne2)
      · rw [hcardr,
          show stVal (dp.getD v (0, 0, 0)) 2 = (dp.getD v (0, 0, 0)).2.2 from rfl, hs2]
        congr 1
        exact List.map_congr_left
          (fun c hc => argmin_state_01_val (dp.getD c (0, 0, 0)))
    · -- state 1
      rw [if_neg (by omega), if_neg (by omega)]
      have hkb : pyIdx bc.length ((v : Nat) : Int) = some v := by
        rw [hlen2]; exact pyIdx_nonneg (by omega) (by exact_mod_cast hv)
      rw [hkb]
      simp only [exceptBind_pure]
      rcases hs1 with ⟨_, htop⟩ | ⟨i, cstar, hi, hget, hbcv, hseq, hle, hlt⟩
      · exact absurd htop hfin1
      rw [hbcv]
      have hcstmem : cstar ∈ childNats adjL v po := by
        rw [← hget]
        exact list_getD_mem hi 0
      obtain ⟨hcsn, hcsl, hcspo⟩ := hchsem cstar hcstmem
      obtain ⟨Cr, hfold, hcardr, hmemr, hiff, hdomr⟩ :=
        recon_fold hpd hcnt hv hpo
          (fun c => if c = cstar then 0
            else argmin_state (dp.getD c (0, 0, 0)) [0, 1])
          (by
            intro c hc
            show (if c = cstar then 0
              else argmin_state (dp.getD c (0, 0, 0)) [0, 1]) ≤ 2
            by_cases hc' : c = cstar
            · rw [if_pos hc']
              omega
            · rw [if_neg hc']
              rcases argmin_state_01_cases (dp.getD c (0, 0, 0)) with h | ⟨h, _⟩ <;>
                omega)
          (fun cams c =>
            if c = poInt po then pure cams
            else
              if (some ((cstar : Nat) : Int)).isSome ∧ some c = some ((cstar : Nat) : Int)
              then recon fuel adjL dp bc c ((v : Nat) : Int) 0 cams
              else
                match pyIdx dp.length c with
                | none => (Except.error PyErr.indexError : Except PyErr Nat) >>= fun y =>
                    recon fuel adjL dp bc c ((v : Nat) : Int)
                      (argmin_state (dp.getD y (0, 0, 0)) [0, 1]) cams
                | some k => (pure k : Except PyErr Nat) >>= fun y =>
                    recon fuel adjL dp bc c ((v : Nat) : Int)
                      (argmin_state (dp.getD y (0, 0, 0)) [0, 1]) cams)
          (by
            intro cams w hw
            simp only []
            rw [if_pos hw])
          (by
            intro cams c hc
            simp only []
            obtain ⟨hcn, hlc, hcpo⟩ := hchsem c hc
            by_cases hceq : c = cstar
            · subst hceq
              rw [if_neg (childNat_ne_poInt hcpo), if_pos ⟨rfl, rfl⟩]
              have hred : (if c = c then (0 : Nat)
                  else argmin_state (dp.getD c (0, 0, 0)) [0, 1]) = 0 := if_pos rfl
              rw [hred]
              exact hrecgo cams c hc 0 (Or.inl rfl)
            · rw [if_neg (childNat_ne_poInt hcpo),
                if_neg (fun hand => hceq (by
                  injection hand.2 with h2
                  exact Int.natCast_inj.mp h2))]
              have hred : (if c = cstar then (0 : Nat)
                  else argmin_state (dp.getD c (0, 0, 0)) [0, 1])
                  = argmin_state (dp.getD c (0, 0, 0)) [0, 1] := if_neg hceq
              rw [hred]
              have hkc : pyIdx dp.length ((c : Nat) : Int) = some c := by
                rw [hlen1]; exact pyIdx_nonneg (by omega) (by exact_mod_cast hcn)
              rw [hkc]
              simp only [exceptBind_pure]
              exact hrecgo cams c hc _ (hval01 c hc))
          (adjL.getD v []) (fun _ hx => hx) [] (by rw [List.nil_append]; rfl) cams0
      rw [show stripPar po (adjL.getD v []) = childNats adjL v po from rfl]
        at hcardr hmemr hiff hdomr
      have hvnotin : v ∉ Cr := by
        intro hvin
        obtain ⟨c, hc, hsub⟩ := hmemr v hvin
        obtain ⟨hcn, hlc, hcpo⟩ := hchsem c hc
        exact (subP_child_subset hpd hpo ⟨hlc, hcpo⟩ hsub).2 rfl
      refine ⟨Cr, hfold, ⟨?_, hvnotin, ?_⟩, ?_⟩
      · intro x hx
        obtain ⟨c, hc, hsub⟩ := hmemr x hx
        obtain ⟨hcn, hlc, hcpo⟩ := hchsem c hc
        exact (subP_child_subset hpd hpo ⟨hlc, hcpo⟩ hsub).1
      · intro u hu
        by_cases huv : u = v
        · subst huv
          refine Or.inr ⟨cstar, (hiff cstar hcstmem).mpr (if_pos rfl), hcsl⟩
        · obtain ⟨c, hchild, hsub⟩ := subP_cover hpd hpo hu huv
          have hcn : c < n := by
            rcases hchild.1 with h | h
            · exact (hdom v c h).2
            · exact (hdom c v h).1
          have hc : c ∈ childNats adjL v po :=
            (childNats_mem hcnt hv po c).mpr ⟨hcn, hchild.1, hchild.2⟩
          have hne2 : (if c = cstar then (0 : Nat)
              else argmin_state (dp.getD c (0, 0, 0)) [0, 1]) ≠ 2 := by
            by_cases hc' : c = cstar
            · rw [if_pos hc']
              omega
            · rw [if_neg hc']
              rcases argmin_state_01_cases (dp.getD c (0, 0, 0)) with h | ⟨h, _⟩ <;>
                omega
          exact hdomr u c hc hsub (fun h2 => absurd h2 hne2)
      · obtain ⟨l1, l2, hsplitl⟩ := List.append_of_mem hcstmem
        have hnd := childNats_nodup hcnt hv po
        rw [hsplitl, List.nodup_append] at hnd
        have hnotl1 : ∀ x ∈ l1, x ≠ cstar := by
          intro x hx he
          exact hnd.2.2 hx (by rw [he]; simp)
        have hnotl2 : cstar ∉ l2 := by
          have := hnd.2.1
          rw [List.nodup_cons] at this
          exact this.1
        rw [hcardr, hsplitl]
        simp only [List.map_append, List.map_cons, List.sum_append, List.sum_cons]
        have hm1 : l1.map (fun c => stVal (dp.getD c (0, 0, 0))
              (if c = cstar then 0 else argmin_state (dp.getD c (0, 0, 0)) [0, 1]))
            = l1.map (fun c => min01 (dp.getD c (0, 0, 0))) := by
          refine List.map_congr_left (fun c hc => ?_)
          rw [if_neg (hnotl1 c hc)]
          exact argmin_state_01_val (dp.getD c (0, 0, 0))
        have hm2 : l2.map (fun c => stVal (dp.getD c (0, 0, 0))
              (if c = cstar then 0 else argmin_state (dp.getD c (0, 0, 0)) [0, 1]))
            = l2.map (fun c => min01 (dp.getD c (0, 0, 0))) := by
          refine List.map_congr_left (fun c hc => ?_)
          rw [if_neg (fun he : c = cstar => hnotl2 (he ▸ hc))]
          exact argmin_state_01_val (dp.getD c (0, 0, 0))
        rw [hm1, hm2]
        simp only [if_true]
        rw [show stVal (dp.getD cstar (0, 0, 0)) 0 = (dp.getD cstar (0, 0, 0)).1
          from rfl]
        have hsplit0 : (dp.getD cstar (0, 0, 0)).1
            = min01 (dp.getD cstar (0, 0, 0)) + gainOf (dp.getD cstar (0, 0, 0)) :=
          (add_tsub_cancel_of_le (min_le_left _ _)).symm
        rw [hsplit0]
        have hgoal1 : stVal (dp.getD v (0, 0, 0)) 1
            = (dp.getD v (0, 0, 0)).2.2 + gainOf (dp.getD cstar (0, 0, 0)) := hseq
        rw [hgoal1, hs2, hsplitl]
        simp only [List.map_append, List.map_cons, List.sum_append, List.sum_cons]
        abel

/-! ## Correctness of the component collection loop -/

/-- Behaviour of the neighbour-push fold of one `collectLoop` iteration. -/
theorem collectPush : ∀ (row : List Int) (st0 : Finset Int × List Int),
    (st0.1 ⊆ (row.foldl
      (fun (st : Finset Int × List Int) nb =>
        if nb ∈ st.1 then st else (insert nb st.1, nb :: st.2)) st0).1) ∧
    (∀ x ∈ (row.foldl
      (fun (st : Finset Int × List Int) nb =>
        if nb ∈ st.1 then st else (insert nb st.1, nb :: st.2)) st0).2,
      x ∈ st0.2 ∨ (x ∈ row ∧ x ∉ st0.1)) ∧
    (∀ x ∈ row, x ∈ (row.foldl
      (fun (st : Finset Int × List Int) nb =>
        if nb ∈ st.1 then st else (insert nb st.1, nb :: st.2)) st0).1) ∧
    (∀ x ∈ (row.foldl
      (fun (st : Finset Int × List Int) nb =>
        if nb ∈ st.1 then st else (insert nb st.1, nb :: st.2)) st0).1,
      x ∈ st0.1 ∨ x ∈ row) ∧
    (∀ x ∈ st0.2, x ∈ (row.foldl
      (fun (st : Finset Int × List Int) nb =>
        if nb ∈ st.1 then st else (insert nb st.1, nb :: st.2)) st0).2) ∧
    (∀ U : Finset Int, (∀ x ∈ row, x ∈ U) →
      ((row.foldl
        (fun (st : Finset Int × List Int) nb =>
          if nb ∈ st.1 then st else (insert nb st.1, nb :: st.2)) st0).2.length
        + 2 * (U \ (row.foldl
          (fun (st : Finset Int × List Int) nb =>
            if nb ∈ st.1 then st else (insert nb st.1, nb :: st.2)) st0).1).card
        ≤ st0.2.length + 2 * (U \ st0.1).card)) := by
  intro row
  induction row with
  | nil =>
    intro st0
    exact ⟨fun x hx => hx, fun x hx => Or.inl hx, by simp, fun x hx => Or.inl hx,
      fun x hx => hx, fun U _ => le_refl _⟩
  | cons nb row ih =>
    intro st0
    rw [List.foldl_cons]
    by_cases hin : nb ∈ st0.1
    · rw [if_pos hin]
      obtain ⟨h1, h2, h3, h4, h5, h6⟩ := ih st0
      refine ⟨h1, ?_, ?_, ?_, h5, ?_⟩
      · intro x hx
        rcases h2 x hx with h | ⟨hr, hn⟩
        · exact Or.inl h
        · exact Or.inr ⟨by simp [hr], hn⟩
      · intro x hx
        rcases List.mem_cons.mp hx with rfl | hx'
        · exact h1 hin
        · exact h3 x hx'
      · intro x hx
        rcases h4 x hx with h | h
        · exact Or.inl h
        · exact Or.inr (by simp [h])
      · intro U hU
        exact h6 U (fun x hx => hU x (by simp [hx]))
    · rw [if_neg hin]
      obtain ⟨h1, h2, h3, h4, h5, h6⟩ := ih (insert nb st0.1, nb :: st0.2)
      refine ⟨?_, ?_, ?_, ?_, ?_, ?_⟩
      · exact fun x hx => h1 (by simp [hx])
      · intro x hx
        rcases h2 x hx with h | ⟨hr, hn⟩
        · rcases List.mem_cons.mp h with rfl | h'
          · exact Or.inr ⟨by simp, hin⟩
          · exact Or.inl h'
        · refine Or.inr ⟨by simp [hr], fun hx0 => hn (by simp [hx0])⟩
      · intro x hx
        rcases List.mem_cons.mp hx with rfl | hx'
        · exact h1 (by simp)
        · exact h3 x hx'
      · intro x hx
        rcases h4 x hx with h | h
        · rcases Finset.mem_insert.mp h with rfl | h'
          · exact Or.inr (by simp)
          · exact Or.inl h'
        · exact Or.inr (by simp [h])
      · intro x hx
        exact h5 x (by simp [hx])
      · intro U hU
        have hb := h6 U (fun x hx => hU x (by simp [hx]))
        have hnbU : nb ∈ U := hU nb (by simp)
        have hcard : (U \ insert nb st0.1).card + 1 = (U \ st0.1).card := by
          have : U \ insert nb st0.1 = (U \ st0.1).erase nb := by
            ext y
            simp only [Finset.mem_sdiff, Finset.mem_insert, Finset.mem_erase]
            tauto
          rw [this, Finset.card_erase_of_mem (Finset.mem_sdiff.mpr ⟨hnbU, hin⟩)]
          have hpos : 0 < (U \ st0.1).card :=
            Finset.card_pos.mpr ⟨nb, Finset.mem_sdiff.mpr ⟨hnbU, hin⟩⟩
          omega
        calc _ ≤ (nb :: st0.2).length + 2 * (U \ insert nb st0.1).card := hb
          _ ≤ st0.2.length + 2 * (U \ st0.1).card := by
            simp only [List.length_cons]
            omega

/-- Fresh entries of the scanned row are pushed onto the stack. -/
theorem collectPush_fresh : ∀ (row : List Int) (st0 : Finset Int × List Int),
    ∀ x ∈ row, x ∉ st0.1 → x ∈ (row.foldl
      (fun (st : Finset Int × List Int) nb =>
        if nb ∈ st.1 then st else (insert nb st.1, nb :: st.2)) st0).2 := by
  intro row
  induction row with
  | nil =>
    intro st0 x hx
    exact absurd hx (by simp)
  | cons nb row ih =>
    intro st0 x hx hnot
    rw [List.foldl_cons]
    by_cases hin : nb ∈ st0.1
    · rw [if_pos hin]
      rcases List.mem_cons.mp hx with rfl | hx'
      · exact absurd hin hnot
      · exact ih st0 x hx' hnot
    · rw [if_neg hin]
      rcases List.mem_cons.mp hx with rfl | hx'
      · exact (collectPush row (insert x st0.1, x :: st0.2)).2.2.2.2.1 x (by simp)
      · by_cases hxnb : x = nb
        · subst hxnb
          exact (collectPush row (insert x st0.1, x :: st0.2)).2.2.2.2.1 x (by simp)
        · exact ih (insert nb st0.1, nb :: st0.2) x hx'
            (by simp only [Finset.mem_insert]; tauto)

/-- All adjacency entries, as a finite set. -/
def allEntries (adjL : List (List Int)) : Finset Int :=
  (adjL.map List.toFinset).foldr (· ∪ ·) ∅

theorem allEntries_card_le (adjL : List (List Int)) :
    (allEntries adjL).card ≤ (adjL.map List.length).sum := by
  unfold allEntries
  induction adjL with
  | nil => simp
  | cons row adjL ih =>
    simp only [List.map_cons, List.foldr_cons, List.sum_cons]
    calc (row.toFinset ∪ _).card ≤ row.toFinset.card + _ := Finset.card_union_le _ _
      _ ≤ row.length + (adjL.map List.length).sum :=
        Nat.add_le_add row.toFinset_card_le ih

theorem mem_allEntries {adjL : List (List Int)} : ∀ {k : Nat}, k < adjL.length →
    ∀ {x : Int}, x ∈ adjL.getD k [] → x ∈ allEntries adjL := by
  unfold allEntries
  induction adjL with
  | nil => intro k hk; simp at hk
  | cons row adjL ih =>
    intro k hk x hx
    simp only [List.map_cons, List.foldr_cons, Finset.mem_union]
    match k with
    | 0 => exact Or.inl (by simpa using hx)
    | k + 1 => exact Or.inr (ih (by simpa using hk) hx)

/-- Link-path reachability inside the forest. -/
inductive Reach (par : Nat → Option Nat) : Nat → Nat → Prop where
  | refl (x : Nat) : Reach par x x
  | step {x y z : Nat} : link par x y → Reach par y z → Reach par x z

theorem reach_trans {par : Nat → Option Nat} {x y z : Nat}
    (h1 : Reach par x y) (h2 : Reach par y z) : Reach par x z := by
  induction h1 with
  | refl => exact h2
  | step hl _ ih => exact Reach.step hl (ih h2)

theorem reach_of_anc {par : Nat → Option Nat} {x y : Nat} (h : Anc par x y) :
    Reach par x y := by
  induction h with
  | refl => exact Reach.refl _
  | step hp _ ih => exact Reach.step (Or.inl hp) ih

theorem reach_symm {par : Nat → Option Nat} {x y : Nat} (h : Reach par x y) :
    Reach par y x := by
  induction h with
  | refl => exact Reach.refl _
  | step hl _ ih => exact reach_trans ih (Reach.step (link_symm hl) (Reach.refl _))

theorem reach_of_sameTree {par : Nat → Option Nat} {x y : Nat}
    (h : SameTree par x y) : Reach par x y := by
  obtain ⟨a, h1, h2⟩ := h
  exact reach_trans (reach_of_anc h1) (reach_symm (reach_of_anc h2))

theorem sameTree_of_reach {par : Nat → Option Nat} {x y : Nat}
    (h : Reach par x y) : SameTree par x y := by
  induction h with
  | refl => exact sameTree_refl _ _
  | step hl _ ih => exact sameTree_trans (sameTree_of_link hl) ih

/-- Master invariant lemma for the stack loop of `collect_component`. -/
theorem collectLoop_main {par : Nat → Option Nat} {depth : Nat → Nat} {n : Nat}
    {adjL : List (List Int)}
    (hpd : ∀ v p, par v = some p → depth p < depth v)
    (hdom : ∀ v p, par v = some p → v < n ∧ p < n)
    (hlenA : adjL.length = n)
    (hcnt : ∀ u, u < n → ∀ w : Int, (adjL.getD u []).count w
      = (if IsLinkEntry par n u w then 1 else 0))
    {start : Nat} {seen0 : Finset Int} :
    ∀ (fuel : Nat) (stack : List Int) (seen : Finset Int) (comp : List Int),
      stack.length + 2 * ((allEntries adjL) \ seen).card < fuel →
      (∀ x ∈ stack, ∃ u, u < n ∧ x = ((u : Nat) : Int) ∧ SameTree par start u) →
      (∀ x ∈ comp, ∃ u, u < n ∧ x = ((u : Nat) : Int) ∧ SameTree par start u) →
      seen0 ⊆ seen →
      (∀ x ∈ seen, x ∈ seen0 ∨ x ∈ comp ∨ x ∈ stack) →
      (∀ x ∈ stack, x ∈ seen) →
      (∀ x ∈ comp, x ∈ seen) →
      (∀ u c, ((u : Nat) : Int) ∈ comp → u < n → link par u c →
        ((c : Nat) : Int) ∈ seen) →
      ∃ comp' seen',
        collectLoop adjL fuel stack seen comp = .ok (comp', seen') ∧
        (∃ tail, comp' = comp ++ tail) ∧
        (∀ v stack0, stack = v :: stack0 → ∃ tail, comp' = comp ++ v :: tail) ∧
        (∀ x ∈ comp', ∃ u, u < n ∧ x = ((u : Nat) : Int) ∧ SameTree par start u) ∧
        (∀ x ∈ seen', x ∈ seen0 ∨ x ∈ comp') ∧
        seen ⊆ seen' ∧
        (∀ x ∈ comp', x ∈ seen') ∧
        (∀ u c, ((u : Nat) : Int) ∈ comp' → u < n → link par u c →
          ((c : Nat) : Int) ∈ seen') := by
  intro fuel
  induction fuel with
  | zero =>
    intro stack seen comp hm
    exact absurd hm (by omega)
  | succ fuel ih =>
    intro stack seen comp hm h1 h2 h3 h4 h5 h6 h7
    match stack, hm, h1, h4, h5 with
    | [], hm, h1, h4, h5 =>
      refine ⟨comp, seen, rfl, ⟨[], by simp⟩, ?_, h2, ?_, fun x hx => hx, h6, h7⟩
      · intro v stack0 h
        exact absurd h (by simp)
      · intro x hx
        rcases h4 x hx with h | h | h
        · exact Or.inl h
        · exact Or.inr h
        · exact absurd h (by simp)
    | v :: stack', hm, h1, h4, h5 =>
      obtain ⟨u, hun, rfl, hust⟩ := h1 v (by simp)
      have hkv : pyIdx adjL.length ((u : Nat) : Int) = some u := by
        rw [hlenA]; exact pyIdx_nonneg (by omega) (by exact_mod_cast hun)
      have hrow : ∀ x ∈ adjL.getD u [], ∃ c, c < n ∧ x = ((c : Nat) : Int) ∧
          link par u c := fun x hx => (mem_adj_iff hcnt hun x).mp hx
      have hrowU : ∀ x ∈ adjL.getD u [], x ∈ allEntries adjL :=
        fun x hx => mem_allEntries (by omega) hx
      obtain ⟨p1, p2, p3, p4, p5, p6⟩ := collectPush (adjL.getD u []) (seen, stack')
      have hfresh := collectPush_fresh (adjL.getD u []) (seen, stack')
      have hm' : ((adjL.getD u []).foldl
            (fun (st : Finset Int × List Int) nb =>
              if nb ∈ st.1 then st else (insert nb st.1, nb :: st.2))
            (seen, stack')).2.length
          + 2 * ((allEntries adjL) \ ((adjL.getD u []).foldl
            (fun (st : Finset Int × List Int) nb =>
              if nb ∈ st.1 then st else (insert nb st.1, nb :: st.2))
            (seen, stack')).1).card < fuel := by
        have hple := p6 (allEntries adjL) hrowU
        simp only [] at hple
        simp only [List.length_cons] at hm
        omega
      obtain ⟨comp', seen', heq, ⟨tail, htail⟩, _, o4, o5, o6, o7, o8⟩ :=
        ih _ _ (comp ++ [((u : Nat) : Int)]) hm'
          (by
            intro x hx
            rcases p2 x hx with h | ⟨hr, _⟩
            · exact h1 x (by simp [h])
            · obtain ⟨c, hcn, rfl, hlc⟩ := hrow x hr
              exact ⟨c, hcn, rfl, sameTree_trans hust (sameTree_of_link hlc)⟩)
          (by
            intro x hx
            rcases List.mem_append.mp hx with h | h
            · exact h2 x h
            · rw [List.mem_singleton] at h
              subst h
              exact ⟨u, hun, rfl, hust⟩)
          (fun x hx => p1 (h3 hx))
          (by
            intro x hx
            rcases p4 x hx with h | h
            · rcases h4 x h with h' | h' | h'
              · exact Or.inl h'
              · exact Or.inr (Or.inl (by simp [h']))
              · rcases List.mem_cons.mp h' with rfl | h''
                · exact Or.inr (Or.inl (by simp))
                · exact Or.inr (Or.inr (p5 x h''))
            · by_cases hxs : x ∈ seen
              · rcases h4 x hxs with h' | h' | h'
                · exact Or.inl h'
                · exact Or.inr (Or.inl (by simp [h']))
                · rcases List.mem_cons.mp h' with rfl | h''
                  · exact Or.inr (Or.inl (by simp))
                  · exact Or.inr (Or.inr (p5 x h''))
              · exact Or.inr (Or.inr (hfresh x h hxs)))
          (by
            intro x hx
            rcases p2 x hx with h | ⟨hr, _⟩
            · exact p1 (h5 x (by simp [h]))
            · exact p3 x hr)
          (by
            intro x hx
            rcases List.mem_append.mp hx with h | h
            · exact p1 (h6 x h)
            · rw [List.mem_singleton] at h
              subst h
              exact p1 (h5 _ (by simp)))
          (by
            intro w c hw hwn hlc
            rcases List.mem_append.mp hw with h | h
            · exact p1 (h7 w c h hwn hlc)
            · rw [List.mem_singleton] at h
              have hwu : w = u := by exact_mod_cast h
              subst hwu
              have hcn : c < n := by
                rcases hlc with hh | hh
                · exact (hdom w c hh).2
                · exact (hdom c w hh).1
              refine p3 _ ?_
              rw [mem_adj_iff hcnt hwn]
              exact ⟨c, hcn, rfl, hlc⟩)
      refine ⟨comp', seen', ?_, ?_, ?_, o4, o5, fun x hx => o6 (p1 hx), o7, o8⟩
      · show collectLoop adjL (fuel + 1) (((u : Nat) : Int) :: stack') seen comp
          = .ok (comp', seen')
        unfold collectLoop
        simp only []
        rw [hkv]
        exact heq
      · exact ⟨((u : Nat) : Int) :: tail, by rw [htail]; simp⟩
      · intro v0 stack0 hsteq
        injection hsteq with he1 he2
        subst he1
        exact ⟨tail, by rw [htail]; simp⟩

/-! ## Spec-side brute-force minimum dominating set -/

/-- `S` dominates every vertex of the listed graph under closed
neighbourhoods: each vertex is in `S` or has an edge to a member of `S`. -/
def dominatesB (n : Nat) (en : List (Nat × Nat)) (S : Finset Nat) : Bool :=
  decide (∀ v ∈ Finset.range n, v ∈ S ∨ ∃ w ∈ S, edgePresent en v w = true)

theorem minDom_filter_nonempty (n : Nat) (en : List (Nat × Nat)) :
    ((Finset.range n).powerset.filter (fun S => dominatesB n en S = true)).Nonempty := by
  refine ⟨Finset.range n, Finset.mem_filter.mpr ⟨Finset.mem_powerset_self _, ?_⟩⟩
  unfold dominatesB
  rw [decide_eq_true_eq]
  exact fun v hv => Or.inl hv

/-- Brute-force minimum size of a dominating set of the listed graph. -/
def minDom (n : Nat) (en : List (Nat × Nat)) : Nat :=
  ((Finset.range n).powerset.filter (fun S => dominatesB n en S = true)).inf'
    (minDom_filter_nonempty n en) (fun S => S.card)

theorem minDom_le {n : Nat} {en : List (Nat × Nat)} {S : Finset Nat}
    (hsub : S ⊆ Finset.range n)
    (hdom : ∀ v, v < n → v ∈ S ∨ ∃ w ∈ S, edgePresent en v w = true) :
    minDom n en ≤ S.card := by
  apply Finset.inf'_le
  rw [Finset.mem_filter, Finset.mem_powerset]
  refine ⟨hsub, ?_⟩
  unfold dominatesB
  rw [decide_eq_true_eq]
  intro v hv
  exact hdom v (Finset.mem_range.mp hv)

theorem minDom_attained (n : Nat) (en : List (Nat × Nat)) :
    ∃ S : Finset Nat, S ⊆ Finset.range n ∧
      (∀ v, v < n → v ∈ S ∨ ∃ w ∈ S, edgePresent en v w = true) ∧
      S.card = minDom n en := by
  obtain ⟨S, hmem, hcard⟩ := Finset.exists_mem_eq_inf'
    (minDom_filter_nonempty n en) (fun S => S.card)
  rw [Finset.mem_filter, Finset.mem_powerset] at hmem
  refine ⟨S, hmem.1, ?_, hcard.symm⟩
  have := hmem.2
  unfold dominatesB at this
  rw [decide_eq_true_eq] at this
  intro v hv
  exact this v (Finset.mem_range.mpr hv)

/-- Unpacking an `IsForest` witness into a total parent function. -/
theorem isForest_extract {n : Nat} {en : List (Nat × Nat)} (h : IsForest n en) :
    ∃ (par : Nat → Option Nat) (depth : Nat → Nat),
      (∀ v p, par v = some p → depth p < depth v) ∧
      (∀ v p, par v = some p → v < n ∧ p < n) ∧
      (∀ e ∈ en, e.1 ≠ e.2) ∧
      (∀ a b : Nat, a < n → b < n → a ≠ b →
        en.count (a, b) + en.count (b, a) = (if link par a b then 1 else 0)) := by
  obtain ⟨parL, depthL, hl1, hl2, hstep, hself, hcount⟩ := h
  refine ⟨fun v => if v < n then parL.getD v none else none, fun v => depthL.getD v 0,
    ?_, ?_, hself, ?_⟩
  · intro v p hp
    simp only [] at hp ⊢
    by_cases hv : v < n
    · rw [if_pos hv] at hp
      exact (hstep v hv p hp).2
    · rw [if_neg hv] at hp
      exact absurd hp (by simp)
  · intro v p hp
    simp only [] at hp
    by_cases hv : v < n
    · rw [if_pos hv] at hp
      exact ⟨hv, (hstep v hv p hp).1⟩
    · rw [if_neg hv] at hp
      exact absurd hp (by simp)
  · intro a b ha hb hne
    rw [hcount a b ha hb hne]
    have hiff : ((if a < n then parL.getD a none else none) = some b ∨
        (if b < n then parL.getD b none else none) = some a)
        ↔ (parL.getD a none = some b ∨ parL.getD b none = some a) := by
      rw [if_pos ha, if_pos hb]
    by_cases hc : parL.getD a none = some b ∨ parL.getD b none = some a
    · rw [if_pos hc, if_pos (show link (fun v => if v < n then parL.getD v none
        else none) a b from hiff.mpr hc)]
    · rw [if_neg hc, if_neg (show ¬ link (fun v => if v < n then parL.getD v none
        else none) a b from fun hh => hc (hiff.mp hh))]

/-- Edge presence in the list coincides with the rooted-forest link
relation on valid vertices. -/
theorem edgePresent_iff_link {n : Nat} {en : List (Nat × Nat)}
    {par : Nat → Option Nat} {depth : Nat → Nat}
    (hpd : ∀ v p, par v = some p → depth p < depth v)
    (hself : ∀ e ∈ en, e.1 ≠ e.2)
    (hcount : ∀ a b : Nat, a < n → b < n → a ≠ b →
      en.count (a, b) + en.count (b, a) = (if link par a b then 1 else 0))
    {u w : Nat} (hu : u < n) (hw : w < n) :
    edgePresent en u w = true ↔ link par u w := by
  have hmemform : edgePresent en u w = true ↔ ((u, w) ∈ en ∨ (w, u) ∈ en) := by
    unfold edgePresent
    rw [List.any_eq_true]
    constructor
    · rintro ⟨e, he, hcond⟩
      rcases Bool.or_eq_true_iff.mp hcond with h | h
      · obtain ⟨h1, h2⟩ := Bool.and_eq_true_iff.mp h
        rw [decide_eq_true_eq] at h1 h2
        left
        have : e = (u, w) := Prod.ext h1 h2
        rw [← this]
        exact he
      · obtain ⟨h1, h2⟩ := Bool.and_eq_true_iff.mp h
        rw [decide_eq_true_eq] at h1 h2
        right
        have : e = (w, u) := Prod.ext h1 h2
        rw [← this]
        exact he
    · rintro (h | h)
      · exact ⟨(u, w), h, by simp⟩
      · exact ⟨(w, u), h, by simp⟩
  rw [hmemform]
  by_cases hne : u = w
  · subst hne
    constructor
    · rintro (h | h) <;> exact absurd rfl (hself _ h)
    · intro h
      exact absurd h (link_irrefl hpd u)
  · have hcnt := hcount u w hu hw hne
    constructor
    · rintro (h | h)
      · by_contra hnl
        rw [if_neg hnl] at hcnt
        have := List.count_pos_iff.mpr h
        omega
      · by_contra hnl
        rw [if_neg hnl] at hcnt
        have := List.count_pos_iff.mpr h
        omega
    · intro hl
      rw [if_pos hl] at hcnt
      by_contra hmem
      push_neg at hmem
      have h1 : en.count (u, w) = 0 := by
        rw [List.count_eq_zero]
        exact hmem.1
      have h2 : en.count (w, u) = 0 := by
        rw [List.count_eq_zero]
        exact hmem.2
      omega

/-- On valid forest edges `build_adj` succeeds and each adjacency row
counts exactly the forest links of its vertex. -/
theorem build_adj_forest {n : Nat} {en : List (Nat × Nat)}
    {par : Nat → Option Nat} {depth : Nat → Nat}
    (hpd : ∀ v p, par v = some p → depth p < depth v)
    (hself : ∀ e ∈ en, e.1 ≠ e.2)
    (hcount : ∀ a b : Nat, a < n → b < n → a ≠ b →
      en.count (a, b) + en.count (b, a) = (if link par a b then 1 else 0))
    (hval : ∀ e ∈ en, e.1 < n ∧ e.2 < n) :
    ∃ adjL, build_adj ((n : Nat) : Int)
        (en.map (fun e => ((e.1 : Int), (e.2 : Int)))) = .ok adjL ∧
      adjL.length = n ∧
      (∀ u, u < n → ∀ w : Int, (adjL.getD u []).count w
        = (if IsLinkEntry par n u w then 1 else 0)) := by
  obtain ⟨adjL, hbuild, hlen, hcnt0⟩ := build_adj_count_fold en
    (List.replicate ((n : Nat) : Int).toNat []) (by simp) hval
  refine ⟨adjL, ?_, hlen, ?_⟩
  · unfold build_adj
    exact hbuild
  · intro u hu w
    rw [hcnt0 u hu w]
    have hrep : ((List.replicate ((n : Nat) : Int).toNat
        ([] : List Int)).getD u []).count w = 0 := by
      rcases Nat.lt_or_ge u n with h | h
      · rw [List.getD_eq_getElem _ _ (by simpa using h), List.getElem_replicate]
        rfl
      · rw [List.getD_eq_default _ _ (by simpa using h)]
        rfl
    rw [hrep]
    have hcp1 : en.countP (fun e => decide (u = e.1 ∧ w = ((e.2 : Nat) : Int)))
        = (if 0 ≤ w ∧ w.toNat < n then en.count (u, w.toNat) else 0) := by
      by_cases hw : 0 ≤ w ∧ w.toNat < n
      · rw [if_pos hw, List.count]
        apply List.countP_congr
        intro e he
        obtain ⟨he1, he2⟩ := hval e he
        simp only [decide_eq_true_eq, beq_iff_eq]
        constructor
        · rintro ⟨rfl, rfl⟩
          have : ((e.2 : Nat) : Int).toNat = e.2 := by omega
          rw [this]
        · intro hee
          have h1 : e.1 = u := congrArg Prod.fst hee
          have h2 : e.2 = w.toNat := congrArg Prod.snd hee
          subst h1
          refine ⟨rfl, ?_⟩
          rw [h2]
          omega
      · rw [if_neg hw]
        rw [List.countP_eq_zero]
        intro e he
        obtain ⟨he1, he2⟩ := hval e he
        simp only [decide_eq_true_eq, not_and]
        rintro rfl hwe
        apply hw
        rw [hwe]
        constructor
        · omega
        · simpa using he2
    have hcp2 : en.countP (fun e => decide (u = e.2 ∧ w = ((e.1 : Nat) : Int)))
        = (if 0 ≤ w ∧ w.toNat < n then en.count (w.toNat, u) else 0) := by
      by_cases hw : 0 ≤ w ∧ w.toNat < n
      · rw [if_pos hw, List.count]
        apply List.countP_congr
        intro e he
        obtain ⟨he1, he2⟩ := hval e he
        simp only [decide_eq_true_eq, beq_iff_eq]
        constructor
        · rintro ⟨rfl, rfl⟩
          have : ((e.1 : Nat) : Int).toNat = e.1 := by omega
          rw [this]
        · intro hee
          have h1 : e.1 = w.toNat := congrArg Prod.fst hee
          have h2 : e.2 = u := congrArg Prod.snd hee
          subst h2
          refine ⟨rfl, ?_⟩
          rw [h1]
          omega
      · rw [if_neg hw]
        rw [List.countP_eq_zero]
        intro e he
        obtain ⟨he1, he2⟩ := hval e he
        simp only [decide_eq_true_eq, not_and]
        rintro rfl hwe
        apply hw
        rw [hwe]
        constructor
        · omega
        · simpa using he1
    rw [hcp1, hcp2, Nat.zero_add]
    by_cases hw : 0 ≤ w ∧ w.toNat < n
    · rw [if_pos hw, if_pos hw]
      by_cases hne : u = w.toNat
      · have hz1 : en.count (u, w.toNat) = 0 := by
          rw [List.count_eq_zero]
          intro hmem
          exact hself _ hmem (by simpa using hne)
        have hz2 : en.count (w.toNat, u) = 0 := by
          rw [List.count_eq_zero]
          intro hmem
          exact hself _ hmem (by simpa using hne.symm)
        rw [hz1, hz2, if_neg ?_]
        · rintro ⟨c, hcn, hwc, hlc⟩
          have hcu : c = u := by omega
          subst hcu
          exact link_irrefl hpd c hlc
      · rw [hcount u w.toNat hu hw.2 hne]
        by_cases hl : link par u w.toNat
        · rw [if_pos hl, if_pos ⟨w.toNat, hw.2, by omega, hl⟩]
        · rw [if_neg hl, if_neg ?_]
          · rintro ⟨c, hcn, hwc, hlc⟩
            have hcw : c = w.toNat := by omega
            subst hcw
            exact hl hlc
    · rw [if_neg hw, if_neg hw, if_neg ?_]
      · rintro ⟨c, hcn, hwc, hlc⟩
        apply hw
        subst hwc
        constructor
        · omega
        · simpa using hcn

/-- Full specification of both per-tree solvers on a forest component: they
succeed, agree, return a dominating set of the component of minimum size,
and the count is its cardinality. -/
theorem tree_spec {par : Nat → Option Nat} {depth : Nat → Nat} {n : Nat}
    {adjL : List (List Int)}
    (hpd : ∀ v p, par v = some p → depth p < depth v)
    (hdom : ∀ v p, par v = some p → v < n ∧ p < n)
    (hlenA : adjL.length = n)
    (hcnt : ∀ u, u < n → ∀ w : Int, (adjL.getD u []).count w
      = (if IsLinkEntry par n u w then 1 else 0))
    {rt : Nat} (hrt : rt < n) {fuel : Nat} (hfuel : n < fuel) :
    ∃ (C : Finset Nat),
      min_cameras_for_tree adjL ((rt : Nat) : Int) fuel = .ok ((C.card : ℕ∞)) ∧
      min_cameras_for_tree_with_solution adjL ((rt : Nat) : Int) fuel
        = .ok (C.card, C.image (fun x => ((x : Nat) : Int))) ∧
      (∀ x ∈ C, x < n ∧ SameTree par rt x) ∧
      (∀ u, u < n → SameTree par rt u → Dominated par C u) ∧
      (∀ D : Finset Nat, (∀ x ∈ D, SameTree par rt x) →
        (∀ u, u < n → SameTree par rt u → Dominated par D u) →
        C.card ≤ D.card) := by
  classical
  have hpo : ∀ p : Nat, (none : Option Nat) = some p → link par rt p := by
    intro p hp
    exact absurd hp (by simp)
  have hS : ∀ u, u ∈ (Finset.range n).filter (fun u => SameTree par rt u)
      ↔ SubP par rt none u := by
    intro u
    rw [Finset.mem_filter, Finset.mem_range]
    constructor
    · intro h
      exact h.2
    · intro h
      exact ⟨subP_lt hdom hrt h, h⟩
  have hcard : ((Finset.range n).filter (fun u => SameTree par rt u)).card < fuel := by
    have h1 : (Finset.range n).filter (fun u => SameTree par rt u) ⊆ Finset.range n :=
      Finset.filter_subset _ _
    have := Finset.card_le_card h1
    rw [Finset.card_range] at this
    omega
  obtain ⟨dp', bc', hdfs2, hlen1', hlen2', hframe, htab⟩ :=
    dfs2_main hpd hlenA hcnt fuel ((Finset.range n).filter (fun u => SameTree par rt u))
      rt none (List.replicate adjL.length ((0 : ℕ∞), (0 : ℕ∞), (0 : ℕ∞)))
      (List.replicate adjL.length (none : Option Int)) hcard hrt hpo hS
      (by simpa using hlenA) (by simpa using hlenA)
  have hdfs2' : dfs2 fuel adjL
      (List.replicate adjL.length ((0 : ℕ∞), (0 : ℕ∞), (0 : ℕ∞)))
      (List.replicate adjL.length (none : Option Int)) ((rt : Nat) : Int) (-1)
      = .ok (dp', bc') := hdfs2
  have hkr : pyIdx dp'.length ((rt : Nat) : Int) = some rt := by
    rw [hlen1']; exact pyIdx_nonneg (by omega) (by exact_mod_cast hrt)
  have hfin := tableOK_fin htab
  have hrsval : (argmin_state (dp'.getD rt (0, 0, 0)) [0, 1] = 0 ∨
      argmin_state (dp'.getD rt (0, 0, 0)) [0, 1] = 2 ∨
      (argmin_state (dp'.getD rt (0, 0, 0)) [0, 1] = 1 ∧
        stVal (dp'.getD rt (0, 0, 0)) 1 ≠ ⊤)) := by
    rcases argmin_state_01_cases (dp'.getD rt (0, 0, 0)) with h | ⟨h, hlt⟩
    · exact Or.inl h
    · refine Or.inr (Or.inr ⟨h, ?_⟩)
      intro he
      rw [show stVal (dp'.getD rt (0, 0, 0)) 1 = (dp'.getD rt (0, 0, 0)).2.1 from rfl]
        at he
      rw [he] at hlt
      exact hfin.1 (top_le_iff.mp (le_of_lt hlt))
  obtain ⟨C, hrec, hstok, hccard⟩ :=
    recon_main hpd hdom hcnt hlenA hlen1' hlen2' fuel
      ((Finset.range n).filter (fun u => SameTree par rt u)) rt none
      (argmin_state (dp'.getD rt (0, 0, 0)) [0, 1]) ∅ htab hcard hrt hpo hS hrsval
  have hrec' : recon fuel adjL dp' bc' ((rt : Nat) : Int) (-1)
      (argmin_state (dp'.getD rt (0, 0, 0)) [0, 1]) ∅
      = .ok (∅ ∪ C.image (fun x => ((x : Nat) : Int))) := hrec
  rw [argmin_state_01_val] at hccard
  have hmin : min (dp'.getD rt (0, 0, 0)).1 (dp'.getD rt (0, 0, 0)).2.1
      = ((C.card : Nat) : ℕ∞) := hccard.symm
  have hdomC : ∀ u, u < n → SameTree par rt u → Dominated par C u := by
    intro u hu hst
    rcases argmin_state_01_cases (dp'.getD rt (0, 0, 0)) with h | ⟨h, _⟩ <;>
      rw [h] at hstok
    · exact hstok.2.2 u hst
    · exact hstok.2.2 u hst
  refine ⟨C, ?_, ?_, ?_, hdomC, ?_⟩
  · unfold min_cameras_for_tree
    rw [dfs1_eq_dfs2 fuel adjL _ (List.replicate adjL.length (none : Option Int)) _ _,
      hdfs2']
    show (Except.ok dp' >>= fun dp => _) = _
    rw [exceptBind_ok]
    rw [hkr]
    simp only []
    rw [hmin]
    rfl
  · unfold min_cameras_for_tree_with_solution
    rw [hdfs2', exceptBind_ok]
    simp only []
    rw [hkr]
    simp only []
    rw [hrec', exceptBind_ok]
    rw [hmin]
    rw [Finset.empty_union]
    rfl
  · intro x hx
    have hsub := hstok.1 x hx
    exact ⟨subP_lt hdom hrt hsub, hsub⟩
  · intro D hDst hDdom
    have hDsub : ∀ x ∈ D, SubP par rt none x := fun x hx => hDst x hx
    have hDdom' : ∀ u, SubP par rt none u → Dominated par D u :=
      fun u hu => hDdom u (subP_lt hdom hrt hu) hu
    by_cases hrtD : rt ∈ D
    · have hst0 : StOK par rt none 0 D := ⟨hDsub, hrtD, hDdom'⟩
      have := tableOK_lb hpd hdom hcnt htab hrt hpo 0 D hst0
      have hle : min (dp'.getD rt (0, 0, 0)).1 (dp'.getD rt (0, 0, 0)).2.1
          ≤ (D.card : ℕ∞) :=
        le_trans (min_le_left _ _) this
      rw [hmin] at hle
      exact_mod_cast hle
    · have hst1 : StOK par rt none 1 D := ⟨hDsub, hrtD, hDdom'⟩
      have := tableOK_lb hpd hdom hcnt htab hrt hpo 1 D hst1
      have hle : min (dp'.getD rt (0, 0, 0)).1 (dp'.getD rt (0, 0, 0)).2.1
          ≤ (D.card : ℕ∞) :=
        le_trans (min_le_right _ _) this
      rw [hmin] at hle
      exact_mod_cast hle

/-- Specification of `collect_component` on a forest: it returns the
discovery list of the start vertex's component, headed by the start, and
marks exactly that component as seen. -/
theorem collect_component_spec {par : Nat → Option Nat} {depth : Nat → Nat} {n : Nat}
    {adjL : List (List Int)}
    (hpd : ∀ v p, par v = some p → depth p < depth v)
    (hdom : ∀ v p, par v = some p → v < n ∧ p < n)
    (hlenA : adjL.length = n)
    (hcnt : ∀ u, u < n → ∀ w : Int, (adjL.getD u []).count w
      = (if IsLinkEntry par n u w then 1 else 0))
    {start : Nat} (hstart : start < n) {seen0 : Finset Int}
    (hseen0 : ∀ u, u < n → SameTree par start u → ((u : Nat) : Int) ∉ seen0) :
    ∃ comp tail,
      collect_component adjL seen0 ((start : Nat) : Int)
        = .ok (comp, seen0 ∪ comp.toFinset) ∧
      comp = ((start : Nat) : Int) :: tail ∧
      (∀ x ∈ comp, ∃ u, u < n ∧ x = ((u : Nat) : Int) ∧ SameTree par start u) ∧
      (∀ u, u < n → SameTree par start u → ((u : Nat) : Int) ∈ comp) := by
  have hm : (1 : Nat) + 2 * ((allEntries adjL) \ insert ((start : Nat) : Int) seen0).card
      < collectFuel adjL := by
    unfold collectFuel
    have h1 : ((allEntries adjL) \ insert ((start : Nat) : Int) seen0).card
        ≤ (allEntries adjL).card := Finset.card_le_card (Finset.sdiff_subset)
    have h2 := allEntries_card_le adjL
    omega
  obtain ⟨comp, seen', heq, _, ho3, o4, o5, o6, o7, o8⟩ :=
    @collectLoop_main par depth n adjL hpd hdom hlenA hcnt start seen0
      (collectFuel adjL) [((start : Nat) : Int)]
      (insert ((start : Nat) : Int) seen0) []
      (by simpa using hm)
      (by
        intro x hx
        rw [List.mem_singleton] at hx
        subst hx
        exact ⟨start, hstart, rfl, sameTree_refl par start⟩)
      (by simp)
      (Finset.subset_insert _ _)
      (by
        intro x hx
        rcases Finset.mem_insert.mp hx with rfl | h
        · exact Or.inr (Or.inr (by simp))
        · exact Or.inl h)
      (by
        intro x hx
        rw [List.mem_singleton] at hx
        subst hx
        exact Finset.mem_insert_self _ _)
      (by simp)
      (by simp)
  obtain ⟨tail, htail⟩ := ho3 _ _ rfl
  rw [List.nil_append] at htail
  have hstartmem : ((start : Nat) : Int) ∈ comp := by
    rw [htail]
    simp
  have hreach : ∀ a b, Reach par a b →
      ((a : Nat) : Int) ∈ comp → a < n → ((b : Nat) : Int) ∈ comp ∧ b < n := by
    intro a b hr
    induction hr with
    | refl => exact fun h1 h2 => ⟨h1, h2⟩
    | step hl hrest ih =>
      rename_i x y z
      intro hx hxn
      have hyn : y < n := by
        rcases hl with h | h
        · exact (hdom x y h).2
        · exact (hdom y x h).1
      have hyseen : ((y : Nat) : Int) ∈ seen' := o8 x y hx hxn hl
      have hymem : ((y : Nat) : Int) ∈ comp := by
        rcases o5 _ hyseen with h | h
        · exfalso
          have hxst : SameTree par start x := by
            obtain ⟨u, hun, hxeq, hust⟩ := o4 _ hx
            have : x = u := by exact_mod_cast hxeq
            subst this
            exact hust
          exact hseen0 y hyn (sameTree_trans hxst (sameTree_of_link hl)) h
        · exact h
      exact ih hymem hyn
  have hcover : ∀ u, u < n → SameTree par start u → ((u : Nat) : Int) ∈ comp := by
    intro u hu hst
    exact (hreach start u (reach_of_sameTree hst) hstartmem hstart).1
  have hseen'eq : seen' = seen0 ∪ comp.toFinset := by
    ext x
    rw [Finset.mem_union, List.mem_toFinset]
    constructor
    · intro hx
      exact o5 x hx
    · rintro (hx | hx)
      · exact o6 (Finset.mem_insert_of_mem hx)
      · exact o7 x hx
  refine ⟨comp, tail, ?_, htail, o4, hcover⟩
  show collectLoop adjL (collectFuel adjL) [((start : Nat) : Int)]
    (insert ((start : Nat) : Int) seen0) [] = _
  rw [heq, hseen'eq]

theorem exceptBind_id (x : Except ε α) : x >>= pure = x := by
  cases x <;> rfl

/-- `chooseRoot` succeeds on a nonempty component and returns a member. -/
theorem chooseRoot_mem {rootSet : Finset Int} {c : Int} {tail : List Int} :
    ∃ r, chooseRoot rootSet (c :: tail) = .ok r ∧ r ∈ c :: tail := by
  unfold chooseRoot
  match hf : (c :: tail).find? (fun r => decide (r ∈ rootSet)) with
  | some r => exact ⟨r, rfl, List.mem_of_find?_eq_some hf⟩
  | none => exact ⟨c, rfl, by simp⟩

/-- Joint fold invariant for both forest drivers: after scanning `[0, k)`,
both succeed with the same seen set; the accumulated count is the size of
an optimal camera set for the region scanned so far. -/
theorem forest_fold_spec {par : Nat → Option Nat} {depth : Nat → Nat} {n : Nat}
    {adjL : List (List Int)}
    (hpd : ∀ v p, par v = some p → depth p < depth v)
    (hdom : ∀ v p, par v = some p → v < n ∧ p < n)
    (hlenA : adjL.length = n)
    (hcnt : ∀ u, u < n → ∀ w : Int, (adjL.getD u []).count w
      = (if IsLinkEntry par n u w then 1 else 0))
    (rootSet : Finset Int) {fuel : Nat} (hfuel : n < fuel) :
    ∀ k, k ≤ n →
    ∃ (seen : Finset Int) (Cacc : Finset Nat),
      (List.range k).foldlM (forestStep adjL rootSet fuel)
        ((∅ : Finset Int), (0 : ℕ∞)) = .ok (seen, ((Cacc.card : Nat) : ℕ∞)) ∧
      (List.range k).foldlM (forestSolStep adjL rootSet fuel)
        ((∅ : Finset Int), (0 : Nat), (∅ : Finset Int))
        = .ok (seen, Cacc.card, Cacc.image (fun x => ((x : Nat) : Int))) ∧
      (∀ x, x ∈ seen ↔ ∃ u, u < n ∧ x = ((u : Nat) : Int) ∧
        ∃ m, m < k ∧ SameTree par u m) ∧
      (∀ u ∈ Cacc, u < n ∧ ∃ m, m < k ∧ SameTree par u m) ∧
      (∀ u, u < n → (∃ m, m < k ∧ SameTree par u m) → Dominated par Cacc u) ∧
      (∀ D : Finset Nat, (∀ x ∈ D, x < n ∧ ∃ m, m < k ∧ SameTree par x m) →
        (∀ u, u < n → (∃ m, m < k ∧ SameTree par u m) → Dominated par D u) →
        Cacc.card ≤ D.card) := by
  intro k
  induction k with
  | zero =>
    intro _
    refine ⟨∅, ∅, by simp; rfl, by simp; rfl, ?_, by simp, ?_, ?_⟩
    · intro x
      simp
    · intro u _ ⟨m, hm, _⟩
      omega
    · intro D _ _
      simp
  | succ k ihk =>
    intro hk1
    obtain ⟨seen, Cacc, heq1, heq2, hA, hC, hD, hE⟩ := ihk (by omega)
    have hkn : k < n := by omega
    simp only [List.range_succ]
    rw [List.foldlM_append, heq1, exceptBind_ok, List.foldlM_cons]
    rw [List.foldlM_append, heq2, exceptBind_ok, List.foldlM_cons]
    by_cases hseen : ((k : Nat) : Int) ∈ seen
    · -- the scan vertex was already collected: both drivers skip it
      have hstep1 : forestStep adjL rootSet fuel (seen, ((Cacc.card : Nat) : ℕ∞)) k
          = pure (seen, ((Cacc.card : Nat) : ℕ∞)) := by
        unfold forestStep
        rw [if_pos hseen]
      have hstep2 : forestSolStep adjL rootSet fuel
          (seen, Cacc.card, Cacc.image (fun x => ((x : Nat) : Int))) k
          = pure (seen, Cacc.card, Cacc.image (fun x => ((x : Nat) : Int))) := by
        unfold forestSolStep
        rw [if_pos hseen]
      rw [hstep1, exceptBind_pure, List.foldlM_nil]
      rw [hstep2, exceptBind_pure, List.foldlM_nil]
      have hreg : ∀ u, (∃ m, m < k + 1 ∧ SameTree par u m) ↔
          (∃ m, m < k ∧ SameTree par u m) := by
        intro u
        constructor
        · rintro ⟨m, hm, hst⟩
          rcases Nat.lt_succ_iff_lt_or_eq.mp hm with h | rfl
          · exact ⟨m, h, hst⟩
          · obtain ⟨u', hu'n, hu'e, m0, hm0, hst0⟩ := (hA _).mp hseen
            have : m = u' := by exact_mod_cast hu'e
            subst this
            exact ⟨m0, hm0, sameTree_trans hst hst0⟩
        · rintro ⟨m, hm, hst⟩
          exact ⟨m, by omega, hst⟩
      refine ⟨seen, Cacc, rfl, rfl, ?_, ?_, ?_, ?_⟩
      · intro x
        rw [hA x]
        constructor
        · rintro ⟨u, hun, hxe, hreg0⟩
          exact ⟨u, hun, hxe, (hreg u).mpr hreg0⟩
        · rintro ⟨u, hun, hxe, hreg1⟩
          exact ⟨u, hun, hxe, (hreg u).mp hreg1⟩
      · intro u hu
        obtain ⟨h1, h2⟩ := hC u hu
        exact ⟨h1, (hreg u).mpr h2⟩
      · intro u hun hr
        exact hD u hun ((hreg u).mp hr)
      · intro D hDmem hDdom
        refine hE D ?_ ?_
        · intro x hx
          obtain ⟨h1, h2⟩ := hDmem x hx
          exact ⟨h1, (hreg x).mp h2⟩
        · intro u hun hr
          exact hDdom u hun ((hreg u).mpr hr)
    · -- a fresh component headed by k
      have hseen0 : ∀ u, u < n → SameTree par k u → ((u : Nat) : Int) ∉ seen := by
        intro u hun hst hin
        obtain ⟨u', hu'n, hu'e, m0, hm0, hst0⟩ := (hA _).mp hin
        have : u = u' := by exact_mod_cast hu'e
        subst this
        apply hseen
        rw [hA]
        exact ⟨k, hkn, rfl, m0, hm0, sameTree_trans hst hst0⟩
      obtain ⟨comp, tail, hcoll, hhead, hcompmem, hcompcov⟩ :=
        collect_component_spec hpd hdom hlenA hcnt hkn hseen0
      obtain ⟨r, hroot, hrmem⟩ : ∃ r, chooseRoot rootSet comp = .ok r ∧ r ∈ comp := by
        rw [hhead]
        exact chooseRoot_mem
      obtain ⟨rt, hrtn, rfl, hrtst⟩ := hcompmem r hrmem
      obtain ⟨Ct, htree1, htree2, hCtmem, hCtdom, hCtlb⟩ :=
        tree_spec hpd hdom hlenA hcnt hrtn hfuel
      have hdisj : Disjoint Cacc Ct := by
        rw [Finset.disjoint_left]
        intro x hx1 hx2
        obtain ⟨hxn, m0, hm0, hst0⟩ := hC x hx1
        obtain ⟨_, hstx⟩ := hCtmem x hx2
        apply hseen
        rw [hA]
        exact ⟨k, hkn, rfl,
          m0, hm0, sameTree_trans (sameTree_trans hrtst hstx) hst0⟩
      have hstep1 : forestStep adjL rootSet fuel (seen, ((Cacc.card : Nat) : ℕ∞)) k
          = .ok (seen ∪ comp.toFinset,
              ((Cacc.card : Nat) : ℕ∞) + ((Ct.card : Nat) : ℕ∞)) := by
        unfold forestStep
        rw [if_neg hseen]
        rw [show ((k : Nat) : Int) = (k : Int) from rfl, hcoll, exceptBind_ok]
        simp only []
        rw [hroot, exceptBind_ok, htree1, exceptBind_ok]
        rfl
      have hstep2 : forestSolStep adjL rootSet fuel
          (seen, Cacc.card, Cacc.image (fun x => ((x : Nat) : Int))) k
          = .ok (seen ∪ comp.toFinset, Cacc.card + Ct.card,
              Cacc.image (fun x => ((x : Nat) : Int))
                ∪ Ct.image (fun x => ((x : Nat) : Int))) := by
        unfold forestSolStep
        rw [if_neg hseen]
        rw [show ((k : Nat) : Int) = (k : Int) from rfl, hcoll, exceptBind_ok]
        simp only []
        rw [hroot, exceptBind_ok, htree2, exceptBind_ok]
        rfl
      rw [hstep1, exceptBind_ok, List.foldlM_nil]
      rw [hstep2, exceptBind_ok, List.foldlM_nil]
      have hcardu : (Cacc ∪ Ct).card = Cacc.card + Ct.card :=
        Finset.card_union_of_disjoint hdisj
      have hregsplit : ∀ u, u < n → ((∃ m, m < k + 1 ∧ SameTree par u m) ↔
          ((∃ m, m < k ∧ SameTree par u m) ∨ SameTree par rt u)) := by
        intro u hun
        constructor
        · rintro ⟨m, hm, hst⟩
          rcases Nat.lt_succ_iff_lt_or_eq.mp hm with h | rfl
          · exact Or.inl ⟨m, h, hst⟩
          · exact Or.inr (sameTree_trans (sameTree_symm hrtst) (sameTree_symm hst))
        · rintro (⟨m, hm, hst⟩ | hst)
          · exact ⟨m, by omega, hst⟩
          · exact ⟨k, by omega, sameTree_trans (sameTree_symm hst)
              (sameTree_symm hrtst)⟩
      refine ⟨seen ∪ comp.toFinset, Cacc ∪ Ct, ?_, ?_, ?_, ?_, ?_, ?_⟩
      · rw [hcardu]
        push_cast
        rfl
      · rw [hcardu, Finset.image_union]
        rfl
      · intro x
        rw [Finset.mem_union, List.mem_toFinset, hA]
        constructor
        · rintro (⟨u, hun, hxe, m, hm, hst⟩ | hx)
          · exact ⟨u, hun, hxe, m, by omega, hst⟩
          · obtain ⟨u, hun, hxe, hst⟩ := hcompmem x hx
            exact ⟨u, hun, hxe, k, by omega, sameTree_symm hst⟩
        · rintro ⟨u, hun, hxe, m, hm, hst⟩
          rcases Nat.lt_succ_iff_lt_or_eq.mp hm with h | rfl
          · exact Or.inl ⟨u, hun, hxe, m, h, hst⟩
          · right
            rw [hxe]
            exact hcompcov u hun (sameTree_symm hst)
      · intro u hu
        rcases Finset.mem_union.mp hu with h | h
        · obtain ⟨h1, m, hm, hst⟩ := hC u h
          exact ⟨h1, m, by omega, hst⟩
        · obtain ⟨h1, hst⟩ := hCtmem u h
          exact ⟨h1, k, by omega, sameTree_trans (sameTree_symm hst)
            (sameTree_symm hrtst)⟩
      · intro u hun hr
        rcases (hregsplit u hun).mp hr with h | h
        · exact dominated_mono Finset.subset_union_left (hD u hun h)
        · exact dominated_mono Finset.subset_union_right (hCtdom u hun h)
      · intro D hDmem hDdom
        classical
        have hD1mem : ∀ x ∈ D.filter (fun x => ∃ m, m < k ∧ SameTree par x m),
            x < n ∧ ∃ m, m < k ∧ SameTree par x m := by
          intro x hx
          rw [Finset.mem_filter] at hx
          exact ⟨(hDmem x hx.1).1, hx.2⟩
        have hD2mem : ∀ x ∈ D.filter (fun x => SameTree par rt x),
            SameTree par rt x := by
          intro x hx
          rw [Finset.mem_filter] at hx
          exact hx.2
        have hreg_excl : ∀ u, SameTree par rt u → ¬ (∃ m, m < k ∧ SameTree par u m) := by
          rintro u hst ⟨m, hm, hstm⟩
          apply hseen
          rw [hA]
          exact ⟨k, hkn, rfl, m, hm,
            sameTree_trans (sameTree_trans hrtst hst) hstm⟩
        have hD1dom : ∀ u, u < n → (∃ m, m < k ∧ SameTree par u m) →
            Dominated par (D.filter (fun x => ∃ m, m < k ∧ SameTree par x m)) u := by
          intro u hun hr
          rcases hDdom u hun ((hregsplit u hun).mpr (Or.inl hr)) with h | ⟨w, hw, hlw⟩
          · exact Or.inl (Finset.mem_filter.mpr ⟨h, hr⟩)
          · obtain ⟨m, hm, hst⟩ := hr
            refine Or.inr ⟨w, Finset.mem_filter.mpr ⟨hw, ⟨m, hm,
              sameTree_trans (sameTree_symm (sameTree_of_link hlw)) hst⟩⟩, hlw⟩
        have hD2dom : ∀ u, u < n → SameTree par rt u →
            Dominated par (D.filter (fun x => SameTree par rt x)) u := by
          intro u hun hst
          rcases hDdom u hun ((hregsplit u hun).mpr (Or.inr hst)) with h | ⟨w, hw, hlw⟩
          · exact Or.inl (Finset.mem_filter.mpr ⟨h, hst⟩)
          · refine Or.inr ⟨w, Finset.mem_filter.mpr ⟨hw,
              sameTree_trans hst (sameTree_of_link hlw)⟩, hlw⟩
        have hb1 := hE (D.filter (fun x => ∃ m, m < k ∧ SameTree par x m))
          hD1mem hD1dom
        have hb2 := hCtlb (D.filter (fun x => SameTree par rt x)) hD2mem
          (fun u hun hst => hD2dom u hun hst)
        have hdisjD : Disjoint (D.filter (fun x => ∃ m, m < k ∧ SameTree par x m))
            (D.filter (fun x => SameTree par rt x)) := by
          rw [Finset.disjoint_left]
          intro x hx1 hx2
          rw [Finset.mem_filter] at hx1 hx2
          exact hreg_excl x hx2.2 hx1.2
        have hsubD : (D.filter (fun x => ∃ m, m < k ∧ SameTree par x m))
            ∪ (D.filter (fun x => SameTree par rt x)) ⊆ D := by
          intro x hx
          rcases Finset.mem_union.mp hx with h | h <;>
            exact (Finset.mem_filter.mp h).1
        have := Finset.card_le_card hsubD
        rw [Finset.card_union_of_disjoint hdisjD] at this
        rw [hcardu]
        omega

/-! ## Master specification of both forest drivers -/

/-- Both forest drivers, on a forest input with in-range edges: the count
returned is the brute-force minimum closed-neighbourhood dominating-set
size, and the with-solution driver additionally returns a witnessing
camera set of exactly that size that dominates every vertex. -/
theorem forest_main {n : Nat} {en : List (Nat × Nat)} (hfor : IsForest n en)
    (hval : ∀ e ∈ en, e.1 < n ∧ e.2 < n)
    (roots : Option (List Int)) {fuel : Nat} (hfuel : n < fuel) :
    ∃ C : Finset Nat,
      min_cameras_forest ((n : Nat) : Int)
          (en.map (fun e => ((e.1 : Int), (e.2 : Int)))) roots fuel
        = .ok ((minDom n en : Nat) : ℕ∞) ∧
      min_cameras_forest_with_solution ((n : Nat) : Int)
          (en.map (fun e => ((e.1 : Int), (e.2 : Int)))) roots fuel
        = .ok (minDom n en, C.image (fun x => ((x : Nat) : Int))) ∧
      C.card = minDom n en ∧
      (C.image (fun x => ((x : Nat) : Int))).card = minDom n en ∧
      (∀ x ∈ C, x < n) ∧
      (∀ u, u < n → u ∈ C ∨ ∃ w ∈ C, edgePresent en u w = true) := by
  obtain ⟨par, depth, hpd, hdom, hself, hcount⟩ := isForest_extract hfor
  obtain ⟨adjL, hbuild, hlenA, hcnt⟩ := build_adj_forest hpd hself hcount hval
  obtain ⟨seen, Cacc, heq1, heq2, hA, hC, hD, hE⟩ :=
    forest_fold_spec hpd hdom hlenA hcnt (rootFinset roots) hfuel n (le_refl n)
  have hreg : ∀ u, u < n → ∃ m, m < n ∧ SameTree par u m :=
    fun u hu => ⟨u, hu, sameTree_refl par u⟩
  have hCn : ∀ x ∈ Cacc, x < n := fun x hx => (hC x hx).1
  have hdomE : ∀ u, u < n → u ∈ Cacc ∨ ∃ w ∈ Cacc, edgePresent en u w = true := by
    intro u hu
    rcases hD u hu (hreg u hu) with h | ⟨w, hw, hl⟩
    · exact Or.inl h
    · exact Or.inr ⟨w, hw, (edgePresent_iff_link hpd hself hcount hu (hCn w hw)).mpr hl⟩
  have hub : minDom n en ≤ Cacc.card :=
    minDom_le (fun x hx => Finset.mem_range.mpr (hCn x hx)) hdomE
  have hlb : Cacc.card ≤ minDom n en := by
    obtain ⟨S, hsub, hdomS, hcard⟩ := minDom_attained n en
    rw [← hcard]
    apply hE S
    · intro x hx
      have hxn := Finset.mem_range.mp (hsub hx)
      exact ⟨hxn, hreg x hxn⟩
    · intro u hu _
      rcases hdomS u hu with h | ⟨w, hw, hep⟩
      · exact Or.inl h
      · exact Or.inr ⟨w, hw, (edgePresent_iff_link hpd hself hcount hu
          (Finset.mem_range.mp (hsub hw))).mp hep⟩
  have hcardeq : Cacc.card = minDom n en := Nat.le_antisymm hlb hub
  refine ⟨Cacc, ?_, ?_, hcardeq, ?_, hCn, hdomE⟩
  · unfold min_cameras_forest
    rw [hbuild, exceptBind_ok]
    show ((List.range ((n : Int)).toNat).foldlM (forestStep adjL (rootFinset roots) fuel)
        ((∅ : Finset Int), (0 : ℕ∞)) >>= fun st => pure st.2)
      = .ok ((minDom n en : Nat) : ℕ∞)
    rw [show ((n : Int)).toNat = n from rfl, heq1, exceptBind_ok, hcardeq]
    rfl
  · unfold min_cameras_forest_with_solution
    rw [hbuild, exceptBind_ok]
    show ((List.range ((n : Int)).toNat).foldlM (forestSolStep adjL (rootFinset roots) fuel)
        ((∅ : Finset Int), (0 : Nat), (∅ : Finset Int)) >>= fun st => pure st.2)
      = .ok (minDom n en, Cacc.image (fun x => ((x : Nat) : Int)))
    rw [show ((n : Int)).toNat = n from rfl, heq2, exceptBind_ok, hcardeq]
    rfl
  · rw [Finset.card_image_of_injective Cacc (fun a b h => by omega)]
    exact hcardeq

/-! ## Concrete instances used as witnesses -/

/-- The path 0-1-2 is a forest. -/
theorem isForest_path3 : IsForest 3 [(0, 1), (1, 2)] := by
  refine ⟨[none, some 0, some 1], [0, 1, 2], rfl, rfl, ?_, by decide, ?_⟩
  · intro v hv p hp
    interval_cases v
    · exact absurd hp (by simp)
    · have hp' : (some 0 : Option Nat) = some p := hp
      injection hp' with h
      have : p = 0 := by omega
      subst this
      exact ⟨by omega, by decide⟩
    · have hp' : (some 1 : Option Nat) = some p := hp
      injection hp' with h
      have : p = 1 := by omega
      subst this
      exact ⟨by omega, by decide⟩
  · intro a b ha hb hne
    interval_cases a <;> interval_cases b <;>
      first
      | exact absurd rfl hne
      | decide

/-- Parent step of the single-edge instance: only vertex 1 has a parent,
namely 0. -/
theorem edge_hpd : ∀ v p : Nat,
    (if v = 1 then some 0 else none : Option Nat) = some p → p < v := by
  intro v p hp
  by_cases h : v = 1
  · rw [if_pos h] at hp
    injection hp with hpe
    omega
  · rw [if_neg h] at hp
    exact absurd hp (by simp)

theorem edge_hdom : ∀ v p : Nat,
    (if v = 1 then some 0 else none : Option Nat) = some p → v < 2 ∧ p < 2 := by
  intro v p hp
  by_cases h : v = 1
  · rw [if_pos h] at hp
    injection hp with hpe
    omega
  · rw [if_neg h] at hp
    exact absurd hp (by simp)

theorem edge_hcnt : ∀ u, u < 2 → ∀ w : Int,
    (([[1], [0]] : List (List Int)).getD u []).count w
      = (if IsLinkEntry (fun v => if v = 1 then some 0 else none) 2 u w
          then 1 else 0) := by
  intro u hu w
  interval_cases u
  · by_cases hw : w = 1
    · subst hw
      rw [if_pos ⟨1, by omega, rfl, Or.inr rfl⟩]
      decide
    · have hni : ¬ IsLinkEntry (fun v => if v = 1 then some 0 else none) 2 0 w := by
        rintro ⟨c, hc, rfl, hl⟩
        interval_cases c
        · rcases hl with h | h <;> simp at h
        · exact hw rfl
      rw [if_neg hni]
      show ([1] : List Int).count w = 0
      rw [List.count_eq_zero]
      intro hmem
      rw [List.mem_singleton] at hmem
      exact hw hmem
  · by_cases hw : w = 0
    · subst hw
      rw [if_pos ⟨0, by omega, rfl, Or.inl rfl⟩]
      decide
    · have hni : ¬ IsLinkEntry (fun v => if v = 1 then some 0 else none) 2 1 w := by
        rintro ⟨c, hc, rfl, hl⟩
        interval_cases c
        · exact hw rfl
        · rcases hl with h | h <;> simp at h
      rw [if_neg hni]
      show ([0] : List Int).count w = 0
      rw [List.count_eq_zero]
      intro hmem
      rw [List.mem_singleton] at hmem
      exact hw hmem

/-- A successful `find?` returns a member satisfying the predicate. -/
theorem find_some_prop {p : α → Bool} : ∀ {l : List α} {a : α},
    l.find? p = some a → p a = true ∧ a ∈ l := by
  intro l
  induction l with
  | nil =>
    intro a h
    exact absurd h (by simp)
  | cons b t ih =>
    intro a h
    rw [List.find?_cons] at h
    match hb : p b with
    | true =>
      rw [hb] at h
      injection h with h2
      subst h2
      exact ⟨hb, by simp⟩
    | false =>
      rw [hb] at h
      obtain ⟨h1, h2⟩ := ih h
      exact ⟨h1, by simp [h2]⟩

/-- `find?` returns the first element satisfying the predicate. -/
theorem find_first_eq {p : α → Bool} : ∀ (l1 : List α) (x : α) (l2 : List α),
    p x = true → (∀ y ∈ l1, p y = false) →
    (l1 ++ x :: l2).find? p = some x := by
  intro l1
  induction l1 with
  | nil =>
    intro x l2 hx _
    rw [List.nil_append, List.find?_cons, hx]
  | cons a t ih =>
    intro x l2 hx hcl
    rw [List.cons_append, List.find?_cons, hcl a (by simp)]
    exact ih x l2 hx (fun y hy => hcl y (by simp [hy]))

/-! ## The claims -/

/-- C1: Optimality of both solvers. On every forest input with in-range
edge ids, both forest drivers report exactly the brute-force minimum size
of a closed-neighbourhood dominating set; on every graph input with
in-range ids, the vertex-cover solver reports exactly the brute-force
minimum vertex-cover size, in both cases together with a witnessing
set. -/
theorem claim_C1 :
    (∀ (n : Nat) (en : List (Nat × Nat)), IsForest n en →
      (∀ e ∈ en, e.1 < n ∧ e.2 < n) →
      ∀ (roots : Option (List Int)) (fuel : Nat), n < fuel →
      min_cameras_forest ((n : Nat) : Int)
          (en.map (fun e => ((e.1 : Int), (e.2 : Int)))) roots fuel
        = .ok ((minDom n en : Nat) : ℕ∞) ∧
      (∃ S : Finset Int, min_cameras_forest_with_solution ((n : Nat) : Int)
          (en.map (fun e => ((e.1 : Int), (e.2 : Int)))) roots fuel
        = .ok (minDom n en, S))) ∧
    (∀ (n : Nat) (en : List (Nat × Nat)), (∀ e ∈ en, e.1 < n ∧ e.2 < n) →
      ∃ S : Finset Nat, solve_vertex_cover_dp ((n : Nat) : Int)
          (en.map (fun e => ((e.1 : Int), (e.2 : Int))))
        = .ok (minVC n en, S)) := by
  constructor
  · intro n en hfor hval roots fuel hfuel
    obtain ⟨C, h1, h2, -, -, -, -⟩ := forest_main hfor hval roots hfuel
    exact ⟨h1, ⟨C.image (fun x => ((x : Nat) : Int)), h2⟩⟩
  · intro n en hval
    obtain ⟨adj, S, -, -, -, hsol, -, -, -⟩ := solveVC_spec hval
    exact ⟨S, hsol⟩

theorem claim_C1_witness :
    (min_cameras_forest ((3 : Nat) : Int)
        ([((0 : Nat), (1 : Nat)), (1, 2)].map (fun e => ((e.1 : Int), (e.2 : Int))))
        none 4
      = .ok ((minDom 3 [(0, 1), (1, 2)] : Nat) : ℕ∞)) ∧
    (∃ S : Finset Nat, solve_vertex_cover_dp ((3 : Nat) : Int)
        ([((0 : Nat), (1 : Nat)), (1, 2)].map (fun e => ((e.1 : Int), (e.2 : Int))))
      = .ok (minVC 3 [(0, 1), (1, 2)], S)) :=
  ⟨(claim_C1.1 3 [(0, 1), (1, 2)] isForest_path3 (by decide) none 4 (by omega)).1,
   claim_C1.2 3 [(0, 1), (1, 2)] (by decide)⟩

/-- C2: On every input with in-range ids, the vertex-cover solver returns
a set that covers every edge (for a self-loop this forces the looped
vertex into the set) and whose size equals the returned count. -/
theorem claim_C2 {n : Nat} {en : List (Nat × Nat)}
    (hval : ∀ e ∈ en, e.1 < n ∧ e.2 < n) :
    ∃ (c : Nat) (S : Finset Nat),
      solve_vertex_cover_dp ((n : Nat) : Int)
          (en.map (fun e => ((e.1 : Int), (e.2 : Int)))) = .ok (c, S) ∧
      (∀ e ∈ en, e.1 ∈ S ∨ e.2 ∈ S) ∧
      S.card = c := by
  obtain ⟨adj, S, -, -, -, hsol, hcard, hcov, -⟩ := solveVC_spec hval
  exact ⟨minVC n en, S, hsol, hcov, hcard⟩

theorem claim_C2_witness :
    ∃ (c : Nat) (S : Finset Nat),
      solve_vertex_cover_dp ((2 : Nat) : Int)
          ([((0 : Nat), (1 : Nat))].map (fun e => ((e.1 : Int), (e.2 : Int))))
        = .ok (c, S) ∧
      (∀ e ∈ [((0 : Nat), (1 : Nat))], e.1 ∈ S ∨ e.2 ∈ S) ∧
      S.card = c :=
  claim_C2 (by decide)

/-- C3: Domination invariant of the forest solver. On every forest input
with in-range edge ids, the with-solution driver returns a camera set that
dominates every vertex of the graph under closed neighbourhoods, and the
returned count equals the size of the returned set. -/
theorem claim_C3 {n : Nat} {en : List (Nat × Nat)} (hfor : IsForest n en)
    (hval : ∀ e ∈ en, e.1 < n ∧ e.2 < n)
    (roots : Option (List Int)) {fuel : Nat} (hfuel : n < fuel) :
    ∃ (c : Nat) (C : Finset Nat),
      min_cameras_forest_with_solution ((n : Nat) : Int)
          (en.map (fun e => ((e.1 : Int), (e.2 : Int)))) roots fuel
        = .ok (c, C.image (fun x => ((x : Nat) : Int))) ∧
      (∀ v, v < n → v ∈ C ∨ ∃ w ∈ C, edgePresent en v w = true) ∧
      (C.image (fun x => ((x : Nat) : Int))).card = c := by
  obtain ⟨C, -, h2, -, himg, -, hdom⟩ := forest_main hfor hval roots hfuel
  exact ⟨minDom n en, C, h2, hdom, himg⟩

theorem claim_C3_witness :
    ∃ (c : Nat) (C : Finset Nat),
      min_cameras_forest_with_solution ((3 : Nat) : Int)
          ([((0 : Nat), (1 : Nat)), (1, 2)].map (fun e => ((e.1 : Int), (e.2 : Int))))
          none 4
        = .ok (c, C.image (fun x => ((x : Nat) : Int))) ∧
      (∀ v, v < 3 → v ∈ C ∨ ∃ w ∈ C, edgePresent [(0, 1), (1, 2)] v w = true) ∧
      (C.image (fun x => ((x : Nat) : Int))).card = c :=
  claim_C3 isForest_path3 (by decide) none (by omega)

/-- C4 (corrected): an edge id at least `n` (with nonnegative ids) makes
all three entry points fail with an index error, and a negative `n` makes
the vertex-cover solver fail; but the forest drivers accept a negative `n`
when no edge forces an index error, and negative edge ids wrap around
Python-style instead of being rejected (see the counterexample). -/
theorem claim_C4 (n : Int) (edges : List (Int × Int)) (roots : Option (List Int))
    (fuel : Nat) (hpos : ∀ e ∈ edges, 0 ≤ e.1 ∧ 0 ≤ e.2)
    (hbad : ∃ e ∈ edges, n ≤ e.1 ∨ n ≤ e.2) :
    min_cameras_forest n edges roots fuel = .error .indexError ∧
    min_cameras_forest_with_solution n edges roots fuel = .error .indexError ∧
    solve_vertex_cover_dp n edges = .error .indexError ∧
    (∀ m : Int, m < 0 → ∃ err, solve_vertex_cover_dp m edges = .error err) :=
  ⟨forest_err_of_oob hpos hbad, forest_sol_err_of_oob hpos hbad,
    solveVC_err_of_oob hpos hbad, fun m hm => solveVC_err_of_neg_n hm edges⟩

theorem claim_C4_witness :
    min_cameras_forest 3 [(0, 5)] none 4 = .error .indexError ∧
    min_cameras_forest_with_solution 3 [(0, 5)] none 4 = .error .indexError ∧
    solve_vertex_cover_dp 3 [(0, 5)] = .error .indexError ∧
    (∀ m : Int, m < 0 → ∃ err, solve_vertex_cover_dp m [(0, 5)] = .error err) :=
  claim_C4 3 [(0, 5)] none 4 (by decide) (by decide)

theorem claim_C4_counterexample :
    min_cameras_forest (-5) [] none 0 = .ok 0 ∧
    min_cameras_forest_with_solution (-5) [] none 0 = .ok (0, ∅) ∧
    build_adj 2 [(-1, 0)] = .ok [[-1], [0]] := by decide

/-- C5 (corrected): for a component collected at scan vertex `start` (in
the driver, the smallest id of the component: every smaller id is already
seen), the root is the first vertex of the stack-DFS discovery order
`comp` that is a preferred root, and `start` itself, the head of `comp`,
when the component contains no preferred root. The smallest-indexed
preferred root is not selected when discovery order differs (see the
counterexample). -/
theorem claim_C5 {par : Nat → Option Nat} {depth : Nat → Nat} {n : Nat}
    {adjL : List (List Int)}
    (hpd : ∀ v p, par v = some p → depth p < depth v)
    (hdom : ∀ v p, par v = some p → v < n ∧ p < n)
    (hlenA : adjL.length = n)
    (hcnt : ∀ u, u < n → ∀ w : Int, (adjL.getD u []).count w
      = (if IsLinkEntry par n u w then 1 else 0))
    {start : Nat} (hstart : start < n) {seen0 : Finset Int}
    (hseen0 : ∀ u, u < n → SameTree par start u → ((u : Nat) : Int) ∉ seen0)
    (hprev : ∀ m, m < start → ((m : Nat) : Int) ∈ seen0)
    (rootSet : Finset Int) :
    ∃ comp tail r,
      collect_component adjL seen0 ((start : Nat) : Int)
        = .ok (comp, seen0 ∪ comp.toFinset) ∧
      comp = ((start : Nat) : Int) :: tail ∧
      (∀ u, u < n → SameTree par start u → start ≤ u) ∧
      chooseRoot rootSet comp = .ok r ∧
      ((∀ x ∈ comp, x ∉ rootSet) → r = ((start : Nat) : Int)) ∧
      (∀ l1 x l2, comp = l1 ++ x :: l2 → x ∈ rootSet →
        (∀ y ∈ l1, y ∉ rootSet) → r = x) := by
  obtain ⟨comp, tail, hcc, hhead, hmem, hcov⟩ :=
    collect_component_spec hpd hdom hlenA hcnt hstart hseen0
  have hminp : ∀ u, u < n → SameTree par start u → start ≤ u := by
    intro u hu hst
    by_contra hlt
    push_neg at hlt
    exact hseen0 u hu hst (hprev u hlt)
  match hf : comp.find? (fun r => decide (r ∈ rootSet)) with
  | some r0 =>
    refine ⟨comp, tail, r0, hcc, hhead, hminp, ?_, ?_, ?_⟩
    · unfold chooseRoot
      rw [hf]
    · intro hnone
      obtain ⟨h1, h2⟩ := find_some_prop hf
      exact absurd (of_decide_eq_true h1) (hnone r0 h2)
    · intro l1 x l2 hsplit hx hcl
      have hfirst : (l1 ++ x :: l2).find? (fun r => decide (r ∈ rootSet)) = some x :=
        find_first_eq l1 x l2 (decide_eq_true hx)
          (fun y hy => decide_eq_false (hcl y hy))
      rw [hsplit, hfirst] at hf
      injection hf with h
      exact h.symm
  | none =>
    refine ⟨comp, tail, ((start : Nat) : Int), hcc, hhead, hminp, ?_,
      fun _ => rfl, ?_⟩
    · rw [hhead] at hf
      unfold chooseRoot
      rw [hhead, hf]
    · intro l1 x l2 hsplit hx hcl
      exfalso
      have hall := List.find?_eq_none.mp hf x (by rw [hsplit]; simp)
      exact hall (decide_eq_true hx)

theorem claim_C5_witness :
    ∃ comp tail r,
      collect_component [[1], [0]] ∅ ((0 : Nat) : Int)
        = .ok (comp, ∅ ∪ comp.toFinset) ∧
      comp = ((0 : Nat) : Int) :: tail ∧
      (∀ u, u < 2 → SameTree (fun v => if v = 1 then some 0 else none) 0 u →
        0 ≤ u) ∧
      chooseRoot {1} comp = .ok r ∧
      ((∀ x ∈ comp, x ∉ ({1} : Finset Int)) → r = ((0 : Nat) : Int)) ∧
      (∀ l1 x l2, comp = l1 ++ x :: l2 → x ∈ ({1} : Finset Int) →
        (∀ y ∈ l1, y ∉ ({1} : Finset Int)) → r = x) :=
  @claim_C5 (fun v => if v = 1 then some 0 else none) (fun v => v) 2 [[1], [0]]
    edge_hpd edge_hdom rfl edge_hcnt 0 (by omega) ∅
    (fun u _ _ => Finset.not_mem_empty _) (fun m hm => absurd hm (by omega)) {1}

theorem claim_C5_counterexample :
    build_adj 3 [(0, 1), (0, 2)] = .ok [[1, 2], [0], [0]] ∧
    collect_component [[1, 2], [0], [0]] ∅ 0 = .ok ([0, 2, 1], {0, 1, 2}) ∧
    chooseRoot (rootFinset (some [1, 2])) [0, 2, 1] = .ok 2 ∧
    (2 : Int) ≠ 1 := by decide

/-- C6 (corrected): at every dfs call with at least one child, the second
dp pass records as forced child for state 1 a child of minimal gain
`S0(c) - min(S0(c), S1(c))`; ties are broken in favour of the child that
appears first in adjacency-list order, which need not be the one with the
smallest id (see the counterexample). -/
theorem claim_C6 {par : Nat → Option Nat} {depth : Nat → Nat} {n : Nat}
    {adjL : List (List Int)}
    (hpd : ∀ v p, par v = some p → depth p < depth v)
    (hdom : ∀ v p, par v = some p → v < n ∧ p < n)
    (hlenA : adjL.length = n)
    (hcnt : ∀ u, u < n → ∀ w : Int, (adjL.getD u []).count w
      = (if IsLinkEntry par n u w then 1 else 0))
    {v : Nat} (hv : v < n) {po : Option Nat}
    (hpo : ∀ p, po = some p → link par v p)
    {fuel : Nat} (hfuel : n < fuel)
    (hne : childNats adjL v po ≠ []) :
    ∃ dp' bc' i cstar,
      dfs2 fuel adjL (List.replicate n ((0, 0, 0) : DpCell)) (List.replicate n none)
        ((v : Nat) : Int) (poInt po) = .ok (dp', bc') ∧
      i < (childNats adjL v po).length ∧
      (childNats adjL v po).getD i 0 = cstar ∧
      bc'.getD v none = some ((cstar : Nat) : Int) ∧
      (dp'.getD v (0, 0, 0)).2.1
        = (dp'.getD v (0, 0, 0)).2.2 + gainOf (dp'.getD cstar (0, 0, 0)) ∧
      (∀ j, j < (childNats adjL v po).length →
        gainOf (dp'.getD cstar (0, 0, 0))
          ≤ gainOf (dp'.getD ((childNats adjL v po).getD j 0) (0, 0, 0))) ∧
      (∀ j, j < i →
        gainOf (dp'.getD cstar (0, 0, 0))
          < gainOf (dp'.getD ((childNats adjL v po).getD j 0) (0, 0, 0))) := by
  classical
  have hS : ∀ u, u ∈ (Finset.range n).filter (fun u => SubP par v po u)
      ↔ SubP par v po u := by
    intro u
    rw [Finset.mem_filter, Finset.mem_range]
    constructor
    · exact fun h => h.2
    · intro h
      exact ⟨subP_lt hdom hv h, h⟩
  have hcard : ((Finset.range n).filter (fun u => SubP par v po u)).card < fuel := by
    have h1 := Finset.card_filter_le (Finset.range n) (fun u => SubP par v po u)
    rw [Finset.card_range] at h1
    omega
  obtain ⟨dp', bc', heq, hl1, hl2, hfr, htab⟩ := dfs2_main hpd hlenA hcnt fuel
    ((Finset.range n).filter (fun u => SubP par v po u)) v po
    (List.replicate n ((0, 0, 0) : DpCell)) (List.replicate n none)
    hcard hv hpo hS (by simp) (by simp)
  rcases htab with ⟨_, _, hch, hs0, hs2, hs1⟩
  rcases hs1 with ⟨hnil, _⟩ | ⟨i, cstar, hilt, hget, hbc, heq1, hle, hlt⟩
  · exact absurd hnil hne
  · exact ⟨dp', bc', i, cstar, heq, hilt, hget, hbc, heq1, hle, hlt⟩

theorem claim_C6_witness :
    ∃ dp' bc' i cstar,
      dfs2 3 [[1], [0]] (List.replicate 2 ((0, 0, 0) : DpCell))
        (List.replicate 2 none) ((0 : Nat) : Int) (poInt none) = .ok (dp', bc') ∧
      i < (childNats [[1], [0]] 0 none).length ∧
      (childNats [[1], [0]] 0 none).getD i 0 = cstar ∧
      bc'.getD 0 none = some ((cstar : Nat) : Int) ∧
      (dp'.getD 0 (0, 0, 0)).2.1
        = (dp'.getD 0 (0, 0, 0)).2.2 + gainOf (dp'.getD cstar (0, 0, 0)) ∧
      (∀ j, j < (childNats [[1], [0]] 0 none).length →
        gainOf (dp'.getD cstar (0, 0, 0))
          ≤ gainOf (dp'.getD ((childNats [[1], [0]] 0 none).getD j 0) (0, 0, 0))) ∧
      (∀ j, j < i →
        gainOf (dp'.getD cstar (0, 0, 0))
          < gainOf (dp'.getD ((childNats [[1], [0]] 0 none).getD j 0) (0, 0, 0))) :=
  @claim_C6 (fun v => if v = 1 then some 0 else none) (fun v => v) 2 [[1], [0]]
    edge_hpd edge_hdom rfl edge_hcnt 0 (by omega) none
    (fun p hp => Option.noConfusion hp) 3 (by omega) (by decide)

theorem claim_C6_counterexample :
    build_adj 3 [(0, 2), (0, 1)] = .ok [[2, 1], [0], [0]] ∧
    dfs2 4 [[2, 1], [0], [0]] (List.replicate 3 ((0, 0, 0) : DpCell))
        (List.replicate 3 none) 0 (-1)
      = .ok ([((1 : ℕ∞), (2 : ℕ∞), (2 : ℕ∞)), (1, ⊤, 0), (1, ⊤, 0)],
             [some 2, none, none]) ∧
    gainOf ((1 : ℕ∞), (⊤ : ℕ∞), (0 : ℕ∞)) = gainOf ((1 : ℕ∞), (⊤ : ℕ∞), (0 : ℕ∞)) ∧
    (1 : Nat) < 2 ∧
    min_cameras_for_tree_with_solution [[2, 1], [0], [0]] 0 4 = .ok (1, {0}) := by
  decide

/-- C7 (corrected): appending a duplicate of an edge already present never
changes the output of the vertex-cover solver; the forest solver does not
share this idempotence, since the duplicate becomes a second adjacency
entry (see the counterexample). -/
theorem claim_C7 {n : Int} {edges : List (Int × Int)} {e : Int × Int}
    (he : e ∈ edges) :
    solve_vertex_cover_dp n (edges ++ [e]) = solve_vertex_cover_dp n edges :=
  solveVC_append_dup he

theorem claim_C7_witness :
    solve_vertex_cover_dp 3 ([(0, 1), (1, 2)] ++ [(0, 1)])
      = solve_vertex_cover_dp 3 [(0, 1), (1, 2)] :=
  claim_C7 (by decide)

theorem claim_C7_counterexample :
    ((1, 2) : Int × Int) ∈ [((0 : Int), (1 : Int)), (1, 2), (2, 3)] ∧
    min_cameras_forest 4 ([(0, 1), (1, 2), (2, 3)] ++ [(1, 2)]) none 5 = .ok 3 ∧
    min_cameras_forest 4 [(0, 1), (1, 2), (2, 3)] none 5 = .ok 2 := by decide

/-- C8: whenever both forest entry points succeed on the same input, the
integer returned by the count-only driver equals the count component of
the with-solution driver. -/
theorem claim_C8 {n : Int} {edges : List (Int × Int)} {roots : Option (List Int)}
    {fuel : Nat} {t : ℕ∞} {c : Nat} {S : Finset Int}
    (h1 : min_cameras_forest n edges roots fuel = .ok t)
    (h2 : min_cameras_forest_with_solution n edges roots fuel = .ok (c, S)) :
    t = (c : ℕ∞) :=
  forest_count_eq h1 h2

theorem claim_C8_witness :
    min_cameras_forest 6 [(0, 1), (1, 2), (3, 4), (4, 5)] none 7 = .ok 2 ∧
    min_cameras_forest_with_solution 6 [(0, 1), (1, 2), (3, 4), (4, 5)] none 7
      = .ok (2, {1, 4}) ∧
    (2 : ℕ∞) = ((2 : Nat) : ℕ∞) :=
  ⟨by decide, by decide,
    @claim_C8 6 [(0, 1), (1, 2), (3, 4), (4, 5)] none 7 2 2 {1, 4}
      (by decide) (by decide)⟩

/-- C9: the vertex-cover solver always returns on in-range inputs, and
every mask visited by the reconstruction loop was a dp call, so the
recorded-choice lookup succeeds whenever an uncovered edge remains. -/
theorem claim_C9 {n : Nat} {en : List (Nat × Nat)}
    (hval : ∀ e ∈ en, e.1 < n ∧ e.2 < n) :
    (∃ res, solve_vertex_cover_dp ((n : Nat) : Int)
        (en.map (fun e => ((e.1 : Int), (e.2 : Int)))) = .ok res) ∧
    ∀ (adj : List Nat) (m : Nat),
      m ∈ replayTraceVC (2 ^ n - 1 + 1) (2 ^ n - 1 + 1) adj (2 ^ n - 1) →
      CalledVC adj (2 ^ n - 1) m ∧
      ((findEdge adj m).isSome = true →
        ∃ c, choiceVC (2 ^ n - 1 + 1) adj m = .ok (some c)) := by
  constructor
  · obtain ⟨adj, S, -, -, -, hsol, -, -, -⟩ := solveVC_spec hval
    exact ⟨(minVC n en, S), hsol⟩
  · intro adj m hm
    exact replayTraceVC_called (by omega) (by omega) CalledVC.base m hm

theorem claim_C9_witness :
    (∃ res, solve_vertex_cover_dp ((2 : Nat) : Int)
        ([((0 : Nat), (1 : Nat))].map (fun e => ((e.1 : Int), (e.2 : Int))))
      = .ok res) ∧
    ∀ (adj : List Nat) (m : Nat),
      m ∈ replayTraceVC (2 ^ 2 - 1 + 1) (2 ^ 2 - 1 + 1) adj (2 ^ 2 - 1) →
      CalledVC adj (2 ^ 2 - 1) m ∧
      ((findEdge adj m).isSome = true →
        ∃ c, choiceVC (2 ^ 2 - 1 + 1) adj m = .ok (some c)) :=
  claim_C9 (by decide)

/-- C10: on the empty graph (`n = 0`, no edges) the forest drivers return
zero and the empty set, and so does the vertex-cover solver. -/
theorem claim_C10 :
    min_cameras_forest 0 [] none 1 = .ok 0 ∧
    min_cameras_forest_with_solution 0 [] none 1 = .ok (0, ∅) ∧
    solve_vertex_cover_dp 0 [] = .ok (0, ∅) := by decide
